import Mathlib

/-!
# Fixed-size object allocator (`Pal/include/lib/memmgr.h`)

A shallow embedding of the Graphene fixed-size memory manager, and theorems about it.

Conventions of the embedding.

* `size_t` values are natural numbers; every `size_t` operation of the source is reduced
  modulo `SIZE_MOD = 2 ^ 64`.
* A pointer is a pair (allocation block, byte offset inside the block).  `NULL` is `none`
  of `Option Ptr`.  Pointer arithmetic is machine arithmetic: the offset wraps modulo
  `SIZE_MOD`, as the byte sizes do, so an arena whose byte size overflows `size_t` has the
  cursor limit the source computes for it.  Pointers into one block are compared by their
  offsets: the address at which a block starts is not part of the embedding.
* The structure sizes `sizeof(MEM_MGR_TYPE)`, `sizeof(MEM_AREA_TYPE)` and
  `sizeof(MEM_OBJ_TYPE)` depend on `OBJ_TYPE`, which the including file chooses; they are
  the three fields of a `Layout`.
* The header is a template over the hooks `system_malloc`, `system_free`, `SYSTEM_LOCK`,
  `SYSTEM_UNLOCK`.  Calls to the hooks are recorded, in order, in the event trace of `Sys`.
  Whether a call of `system_malloc` succeeds is decided by the environment: each operation
  receives the outcomes of the calls it may issue.
* A failed `assert` stops the program: operations return `Run.abort`.
-/

namespace Memmgr

/-! ## Machine integers and pointers -/

/-- The modulus of `size_t` arithmetic (64-bit target). -/
def SIZE_MOD : Nat := 2 ^ 64

/-- Subtraction of two `size_t` values, wrapping modulo `SIZE_MOD`. -/
def size_sub (a b : Nat) : Nat := (a + (SIZE_MOD - b % SIZE_MOD)) % SIZE_MOD

/-- Addition of two `size_t` values, wrapping modulo `SIZE_MOD`. -/
def size_add (a b : Nat) : Nat := (a + b) % SIZE_MOD

/-- Multiplication of two `size_t` values, wrapping modulo `SIZE_MOD`. -/
def size_mul (a b : Nat) : Nat := (a * b) % SIZE_MOD

/-- The three structure sizes the header depends on:
`mgr = sizeof(MEM_MGR_TYPE)`, `area = sizeof(MEM_AREA_TYPE)`, `obj = sizeof(MEM_OBJ_TYPE)`. -/
structure Layout where
  mgr : Nat
  area : Nat
  obj : Nat
deriving DecidableEq, Repr

/-- A pointer: an allocation block and a byte offset inside it. -/
structure Ptr where
  block : Nat
  off : Nat
deriving DecidableEq, Repr

/-- Pointer comparison `p <= q`; only pointers into one block are comparable. -/
def ptr_le (p q : Ptr) : Prop := p.block = q.block ∧ p.off ≤ q.off

instance (p q : Ptr) : Decidable (ptr_le p q) := by
  unfold ptr_le; infer_instance

/-- An arena (`MEM_AREA`): the pointer to its header together with the `size` field stored
in that header.  The field is written once, when the arena is created, and never again. -/
structure MEM_AREA where
  ptr : Ptr
  size : Nat
deriving DecidableEq, Repr

/-- The manager (`MEM_MGR_TYPE`).  `self` is the address of the structure (the value of the
`MEM_MGR` pointer); the other fields are the fields of the C structure.  The two lists are
the contents of the intrusive lists, front first; a slot (`MEM_OBJ`) is the pointer to it. -/
structure MEM_MGR where
  self : Ptr
  area_list : List MEM_AREA
  free_list : List Ptr
  size : Nat
  obj : Ptr
  obj_limit : Ptr
  active_area : MEM_AREA
deriving DecidableEq, Repr

/-! ## The environment: hooks and their trace -/

/-- One observable step of an operation: a call of a hook, or (`access`) a statement that
reads or writes the shared fields of the manager (`area_list`, `free_list`, `obj`,
`obj_limit`, `active_area`, `size`). -/
inductive Event where
  | lock
  | unlock
  | malloc (bytes : Nat) (res : Option Ptr)
  | free (p : Ptr) (bytes : Nat)
  | access
deriving DecidableEq, Repr

/-- The environment of the manager: `next` is the first block the backing allocator has not
handed out yet, `trace` the events so far, oldest first. -/
structure Sys where
  next : Nat
  trace : List Event
deriving DecidableEq, Repr

/-- Result of running code that may fail an `assert`. -/
inductive Run (α : Type) where
  | abort : Run α
  | done : α → Run α
deriving DecidableEq, Repr

/-- Record an event. -/
def emit (e : Event) (sys : Sys) : Sys := { sys with trace := sys.trace ++ [e] }

/-- The hook `SYSTEM_LOCK()`. -/
def SYSTEM_LOCK (sys : Sys) : Sys := emit Event.lock sys

/-- The hook `SYSTEM_UNLOCK()`. -/
def SYSTEM_UNLOCK (sys : Sys) : Sys := emit Event.unlock sys

/-- The hook `SYSTEM_LOCKED()`; the header defines it as `true` (lines 48-50). -/
def SYSTEM_LOCKED (_sys : Sys) : Bool := true

/-- Modelled from the spec: the backing allocator `raw_alloc(byte_size) -> memory | failure`
(the hook `system_malloc`, supplied by the including file).  `ok` is the decision of the
environment; a successful call returns the start of a block never handed out before. -/
def system_malloc (bytes : Nat) (ok : Bool) (sys : Sys) : Option Ptr × Sys :=
  if ok then
    (some ⟨sys.next, 0⟩,
      { next := sys.next + 1, trace := sys.trace ++ [Event.malloc bytes (some ⟨sys.next, 0⟩)] })
  else
    (none, emit (Event.malloc bytes none) sys)

/-- Modelled from the spec: the backing allocator `raw_free(pointer, byte_size)` (the hook
`system_free`, supplied by the including file). -/
def system_free (p : Ptr) (bytes : Nat) (sys : Sys) : Sys := emit (Event.free p bytes) sys

/-! ## Intrusive lists (`list.h`) -/

/-- Modelled from the spec: `LISTP_ADD` of `list.h` puts the node at the front of the list
("prepends it to `arena_list`", "pushes it to the front of `free_list`"). -/
def LISTP_ADD {α : Type} (node : α) (l : List α) : List α := node :: l

/-- Modelled from the spec: `LISTP_EMPTY` of `list.h`. -/
def LISTP_EMPTY {α : Type} (l : List α) : Bool := l.isEmpty

/-- Modelled from the spec: `LISTP_FIRST_ENTRY` of `list.h`, the front node or `NULL`. -/
def LISTP_FIRST_ENTRY {α : Type} (l : List α) : Option α := l.head?

/-- Modelled from the spec: `LISTP_LAST_ENTRY` of `list.h`, the last node or `NULL`. -/
def LISTP_LAST_ENTRY {α : Type} (l : List α) : Option α := l.getLast?

/-- Modelled from the spec: `LISTP_DEL` and `LISTP_DEL_INIT` of `list.h` unlink the node. -/
def LISTP_DEL {α : Type} [DecidableEq α] (node : α) (l : List α) : List α := l.erase node

/-- The node linked right before the node at address `p`, searching from the front. -/
def prev_of (p : Ptr) : List MEM_AREA → Option MEM_AREA
  | a :: b :: rest => if b.ptr = p then some a else prev_of p (b :: rest)
  | _ => none

/-- Modelled from the spec: `LISTP_PREV_ENTRY` of `list.h`: `NULL` when the node is the
front of the list, otherwise the node linked right before it (the arena "added after" it). -/
def LISTP_PREV_ENTRY (node : MEM_AREA) (l : List MEM_AREA) : Option MEM_AREA :=
  match l with
  | [] => none
  | a :: _ => if a.ptr = node.ptr then none else prev_of node.ptr l

/-! ## Size macros and alignment helpers (lines 78-114) -/

/-- The macro `__SUM_OBJ_SIZE(size)`: `sizeof(MEM_OBJ_TYPE) * (size)`. -/
def __SUM_OBJ_SIZE (L : Layout) (size : Nat) : Nat := size_mul L.obj size

/-- The macro `__MIN_MEM_SIZE()`: `sizeof(MEM_MGR_TYPE) + sizeof(MEM_AREA_TYPE)`. -/
def __MIN_MEM_SIZE (L : Layout) : Nat := size_add L.mgr L.area

/-- The macro `__MAX_MEM_SIZE(size)`: `__MIN_MEM_SIZE() + __SUM_OBJ_SIZE(size)`. -/
def __MAX_MEM_SIZE (L : Layout) (size : Nat) : Nat :=
  size_add (__MIN_MEM_SIZE L) (__SUM_OBJ_SIZE L size)

/-- The expression `sizeof(MEM_AREA_TYPE) + __SUM_OBJ_SIZE(size)` (lines 150, 169, 193): the
byte size of a separately allocated arena of `size` slots. -/
def AREA_MEM_SIZE (L : Layout) (size : Nat) : Nat := size_add L.area (__SUM_OBJ_SIZE L size)

/-- Modelled from the spec: `IS_POWER_OF_2` of `api.h`. -/
def IS_POWER_OF_2 (x : Nat) : Bool := x != 0 && (x &&& (x - 1)) == 0

/-- Modelled from the spec: `ALIGN_DOWN_POW2(val, alignment)` of `api.h`, which clears the
low bits of `val`: `(val) - ((val) & ((alignment) - 1))`. -/
def ALIGN_DOWN_POW2 (val a : Nat) : Nat := val - (val &&& (a - 1))

/-- Modelled from the spec: `ALIGN_UP_POW2(val, alignment)` of `api.h`:
`ALIGN_DOWN_POW2((val) + (alignment) - 1, alignment)`, in `size_t` arithmetic. -/
def ALIGN_UP_POW2 (val a : Nat) : Nat := ALIGN_DOWN_POW2 (size_sub (size_add val a) 1) a

/-- The local `p` of `size_align_down` and `init_align_down` (lines 86, 102):
`s - ALIGN_DOWN_POW2(s, ALLOC_ALIGNMENT)`, the bytes of `s` above the aligned boundary. -/
def pad_down (s P : Nat) : Nat := size_sub s (ALIGN_DOWN_POW2 s P)

/-- The local `p` of `size_align_up` and `init_align_up` (lines 94, 110):
`ALIGN_UP_POW2(s, ALLOC_ALIGNMENT) - s`, the bytes from `s` up to the aligned boundary. -/
def pad_up (s P : Nat) : Nat := size_sub (ALIGN_UP_POW2 s P) s

/-- The function `size_align_down` (lines 83-89); `P` is `ALLOC_ALIGNMENT`. -/
def size_align_down (L : Layout) (P size : Nat) : Run Nat :=
  if IS_POWER_OF_2 P then
    let s := size_sub (__MAX_MEM_SIZE L size) L.mgr
    let p := pad_down s P
    let o := __SUM_OBJ_SIZE L 1
    Run.done (size_sub (size_sub size (p / o)) (if p % o ≠ 0 then 1 else 0))
  else Run.abort

/-- The function `size_align_up` (lines 91-97); `P` is `ALLOC_ALIGNMENT`. -/
def size_align_up (L : Layout) (P size : Nat) : Run Nat :=
  if IS_POWER_OF_2 P then
    let s := size_sub (__MAX_MEM_SIZE L size) L.mgr
    let p := pad_up s P
    let o := __SUM_OBJ_SIZE L 1
    Run.done (size_add size (p / o))
  else Run.abort

/-- The function `init_align_down` (lines 99-105); `P` is `ALLOC_ALIGNMENT`. -/
def init_align_down (L : Layout) (P size : Nat) : Run Nat :=
  if IS_POWER_OF_2 P then
    let s := __MAX_MEM_SIZE L size
    let p := pad_down s P
    let o := __SUM_OBJ_SIZE L 1
    Run.done (size_sub (size_sub size (p / o)) (if p % o ≠ 0 then 1 else 0))
  else Run.abort

/-- The function `init_align_up` (lines 107-113); `P` is `ALLOC_ALIGNMENT`. -/
def init_align_up (L : Layout) (P size : Nat) : Run Nat :=
  if IS_POWER_OF_2 P then
    let s := __MAX_MEM_SIZE L size
    let p := pad_up s P
    let o := __SUM_OBJ_SIZE L 1
    Run.done (size_add size (p / o))
  else Run.abort

/-! ## The manager (lines 116-230) -/

/-- The expression `area->objs`: the slot array starts right after the arena header. -/
def area_objs (L : Layout) (area : MEM_AREA) : Ptr :=
  ⟨area.ptr.block, size_add area.ptr.off L.area⟩

/-- Pointer arithmetic `p + i` on `MEM_OBJ_TYPE*`: the address moves by
`i * sizeof(MEM_OBJ_TYPE)` bytes, in machine arithmetic. -/
def obj_add (L : Layout) (p : Ptr) (i : Nat) : Ptr :=
  ⟨p.block, size_add p.off (size_mul L.obj i)⟩

/-- The function `__set_free_mem_area` (lines 116-123).  The boolean is the asserted
condition `SYSTEM_LOCKED()`. -/
def __set_free_mem_area (L : Layout) (area : MEM_AREA) (mgr : MEM_MGR) (sys : Sys) :
    Run (MEM_MGR × Sys) :=
  if SYSTEM_LOCKED sys then
    Run.done
      ({ mgr with
          size := size_add mgr.size area.size
          obj := area_objs L area
          obj_limit := obj_add L (area_objs L area) area.size
          active_area := area },
        emit Event.access sys)
  else Run.abort

/-- The function `create_mem_mgr` (lines 125-144).  `ok` is the outcome of its one call of
`system_malloc`.  The result is the returned pointer (`NULL` is `none`) with the manager it
points to.  The fields `obj`, `obj_limit` and `active_area`, which the source leaves
uninitialised until `__set_free_mem_area` writes them, start at the embedded arena. -/
def create_mem_mgr (L : Layout) (size : Nat) (ok : Bool) (sys : Sys) :
    Run (Option MEM_MGR × Sys) :=
  if size = 0 then Run.abort
  else
    match system_malloc (__MAX_MEM_SIZE L size) ok sys with
    | (none, sys1) => Run.done (none, sys1)
    | (some mem, sys1) =>
      let area : MEM_AREA := ⟨⟨mem.block, size_add mem.off L.mgr⟩, size⟩
      let mgr : MEM_MGR :=
        { self := mem, size := 0, area_list := [], free_list := [],
          obj := area.ptr, obj_limit := area.ptr, active_area := area }
      let mgr := { mgr with area_list := LISTP_ADD area mgr.area_list }
      match __set_free_mem_area L area mgr sys1 with
      | Run.abort => Run.abort
      | Run.done (mgr, sys2) => Run.done (some mgr, sys2)

/-- The function `enlarge_mem_mgr` (lines 146-160).  `ok` is the outcome of its one call of
`system_malloc`.  The result is the returned pointer (`mgr` or `NULL`), and the manager and
environment after the call. -/
def enlarge_mem_mgr (L : Layout) (mgr : MEM_MGR) (size : Nat) (ok : Bool) (sys : Sys) :
    Run (Option Ptr × MEM_MGR × Sys) :=
  if size = 0 then Run.abort
  else
    match system_malloc (AREA_MEM_SIZE L size) ok sys with
    | (none, sys1) => Run.done (none, mgr, sys1)
    | (some p, sys1) =>
      let sys2 := SYSTEM_LOCK sys1
      let area : MEM_AREA := ⟨p, size⟩
      let mgr := { mgr with area_list := LISTP_ADD area mgr.area_list }
      let sys3 := emit Event.access sys2
      Run.done (some mgr.self, mgr, SYSTEM_UNLOCK sys3)

/-- The loop body of `destroy_mem_mgr` (lines 166-171) over the entries still to visit. -/
def destroy_loop (L : Layout) (last : MEM_AREA) : List MEM_AREA → MEM_MGR → Sys → MEM_MGR × Sys
  | [], mgr, sys => (mgr, sys)
  | tmp :: rest, mgr, sys =>
    if tmp.ptr ≠ last.ptr then
      destroy_loop L last rest
        { mgr with area_list := LISTP_DEL tmp mgr.area_list }
        (system_free tmp.ptr (AREA_MEM_SIZE L tmp.size) sys)
    else destroy_loop L last rest mgr sys

/-- The function `destroy_mem_mgr` (lines 162-173).  With an empty `area_list` the source
dereferences `NULL` (`last->size`); the embedding stops there. -/
def destroy_mem_mgr (L : Layout) (mgr : MEM_MGR) (sys : Sys) : Run Sys :=
  match LISTP_LAST_ENTRY mgr.area_list with
  | none => Run.abort
  | some last =>
    let (mgr1, sys1) := destroy_loop L last mgr.area_list mgr sys
    Run.done (system_free mgr1.self (__MAX_MEM_SIZE L last.size) sys1)

/-- How the `while` loop of `get_mem_obj_from_mgr_enlarge` is left. -/
inductive LoopExit where
  /-- One of the two `return NULL` inside the loop (lines 191, 195). -/
  | ret_null (mgr : MEM_MGR) (sys : Sys)
  /-- The loop condition is false, or `break` (line 186): control reaches line 206. -/
  | fall (mgr : MEM_MGR) (sys : Sys)
  /-- The `assert` of `__set_free_mem_area` failed. -/
  | abort
deriving DecidableEq, Repr

/-- The `while` loop of `get_mem_obj_from_mgr_enlarge` (lines 179-204), entered with the
lock taken.  `oks` are the outcomes of the calls of `system_malloc` the loop may issue, in
order; when the environment has no outcome left the call fails. -/
def get_loop (L : Layout) (size : Nat) : List Bool → MEM_MGR → Sys → LoopExit
  | oks, mgr, sys =>
    let sys := emit Event.access sys
    if mgr.obj = mgr.obj_limit ∧ LISTP_EMPTY mgr.free_list = true then
      let sys := emit Event.access sys
      match LISTP_PREV_ENTRY mgr.active_area mgr.area_list with
      | some area =>
        match __set_free_mem_area L area mgr sys with
        | Run.abort => LoopExit.abort
        | Run.done (mgr, sys) => LoopExit.fall mgr sys
      | none =>
        let sys := SYSTEM_UNLOCK sys
        if size = 0 then LoopExit.ret_null mgr sys
        else
          match oks with
          | [] => LoopExit.ret_null mgr (system_malloc (AREA_MEM_SIZE L size) false sys).2
          | ok :: rest =>
            match system_malloc (AREA_MEM_SIZE L size) ok sys with
            | (none, sys) => LoopExit.ret_null mgr sys
            | (some p, sys) =>
              let area : MEM_AREA := ⟨p, size⟩
              let sys := SYSTEM_LOCK sys
              let mgr := { mgr with area_list := LISTP_ADD area mgr.area_list }
              get_loop L size rest mgr (emit Event.access sys)
    else LoopExit.fall mgr sys

/-- The end of `get_mem_obj_from_mgr_enlarge` (lines 206-215), reached with the lock taken:
pop the front of the free list or bump the cursor, check the `assert`, unlock, return.  The
payload `obj` is the first member of the slot, so `&mobj->obj` is the address of the slot.
A `NULL` front entry of a non-empty list cannot occur; the embedding stops there. -/
def take_obj (L : Layout) (mgr : MEM_MGR) (sys : Sys) : Run (Option Ptr × MEM_MGR × Sys) :=
  let sys := emit Event.access sys
  let taken : Option (Ptr × MEM_MGR) :=
    if LISTP_EMPTY mgr.free_list = false then
      match LISTP_FIRST_ENTRY mgr.free_list with
      | some mobj => some (mobj, { mgr with free_list := LISTP_DEL mobj mgr.free_list })
      | none => none
    else some (mgr.obj, { mgr with obj := obj_add L mgr.obj 1 })
  match taken with
  | none => Run.abort
  | some (mobj, mgr) =>
    if ptr_le mgr.obj mgr.obj_limit then Run.done (some mobj, mgr, SYSTEM_UNLOCK sys)
    else Run.abort

/-- The function `get_mem_obj_from_mgr_enlarge` (lines 175-216).  The result is the returned
pointer (`NULL` is `none`), and the manager and environment after the call. -/
def get_mem_obj_from_mgr_enlarge (L : Layout) (mgr : MEM_MGR) (size : Nat) (oks : List Bool)
    (sys : Sys) : Run (Option Ptr × MEM_MGR × Sys) :=
  match get_loop L size oks mgr (SYSTEM_LOCK sys) with
  | LoopExit.abort => Run.abort
  | LoopExit.ret_null mgr sys => Run.done (none, mgr, sys)
  | LoopExit.fall mgr sys => take_obj L mgr sys

/-- The function `get_mem_obj_from_mgr` (lines 218-220). -/
def get_mem_obj_from_mgr (L : Layout) (mgr : MEM_MGR) (oks : List Bool) (sys : Sys) :
    Run (Option Ptr × MEM_MGR × Sys) :=
  get_mem_obj_from_mgr_enlarge L mgr 0 oks sys

/-- The function `free_mem_obj_to_mgr` (lines 222-230).  `container_of(obj, MEM_OBJ_TYPE,
obj)` is the pointer itself, the payload being the first member of the slot. -/
def free_mem_obj_to_mgr (mgr : MEM_MGR) (obj : Ptr) (sys : Sys) : MEM_MGR × Sys :=
  let mobj := obj
  let sys := SYSTEM_LOCK sys
  let mgr := { mgr with free_list := LISTP_ADD mobj mgr.free_list }
  (mgr, SYSTEM_UNLOCK (emit Event.access sys))

/-- Outcome of the first call of `system_malloc` an operation issues. -/
def first_ok : List Bool → Bool
  | [] => false
  | ok :: _ => ok

/-- The hint-less acquisition `get_mem_obj_from_mgr` called `n` times in a row: the returned
pointers in call order, and the manager and environment after the last call. -/
def acquire_n (L : Layout) (oks : List Bool) : Nat → MEM_MGR → Sys →
    Run (List (Option Ptr) × MEM_MGR × Sys)
  | 0, mgr, sys => Run.done ([], mgr, sys)
  | n + 1, mgr, sys =>
    match get_mem_obj_from_mgr L mgr oks sys with
    | Run.abort => Run.abort
    | Run.done (r, mgr1, sys1) =>
      match acquire_n L oks n mgr1 sys1 with
      | Run.abort => Run.abort
      | Run.done (rs, mgr2, sys2) => Run.done (r :: rs, mgr2, sys2)

/-- Slot `i` of an arena: `area->objs + i`. -/
def slot (L : Layout) (area : MEM_AREA) (i : Nat) : Ptr := obj_add L (area_objs L area) i

/-- The block and byte size of a successful call of `system_malloc`. -/
def malloc_of : Event → Option (Ptr × Nat)
  | Event.malloc bytes (some p) => some (p, bytes)
  | _ => none

/-- The successful calls of `system_malloc` in a trace, oldest first: returned pointer and
byte size. -/
def mallocs (es : List Event) : List (Ptr × Nat) := es.filterMap malloc_of

/-- Whether an event is a call of `system_malloc`, successful or not. -/
def is_malloc : Event → Bool
  | Event.malloc _ _ => true
  | _ => false

/-- The calls of `system_malloc` in a trace, failed ones included. -/
def malloc_calls (es : List Event) : List Event := es.filter is_malloc

/-- The pointer and byte size of a call of `system_free`. -/
def free_of : Event → Option (Ptr × Nat)
  | Event.free p bytes => some (p, bytes)
  | _ => none

/-- The calls of `system_free` in a trace, oldest first: freed pointer and byte size. -/
def frees (es : List Event) : List (Ptr × Nat) := es.filterMap free_of

/-- What the backing allocator is told about an arena allocated on its own: its address and
the byte size `sizeof(MEM_AREA_TYPE) + __SUM_OBJ_SIZE(size)`. -/
def area_block (L : Layout) (a : MEM_AREA) : Ptr × Nat := (a.ptr, AREA_MEM_SIZE L a.size)

/-- The arena lies in its block without overflow: the byte offset of the end of its slot
array, `offset + sizeof(MEM_AREA_TYPE) + sizeof(MEM_OBJ_TYPE) * size`, is a `size_t` value.
For an arena allocated on its own the offset is 0 and this says that its byte size does not
overflow; for the embedded arena the offset is `sizeof(MEM_MGR_TYPE)` and this says that
`__MAX_MEM_SIZE(size)` does not overflow. -/
def fits (L : Layout) (a : MEM_AREA) : Prop := a.ptr.off + L.area + L.obj * a.size < SIZE_MOD

instance (L : Layout) (a : MEM_AREA) : Decidable (fits L a) := by
  unfold fits; infer_instance

/-- The growth hint of an acquisition is absent, or the byte size of an arena of `size` slots
does not overflow `size_t`. -/
def hint_fits (L : Layout) (size : Nat) : Prop := size = 0 ∨ L.area + L.obj * size < SIZE_MOD

instance (L : Layout) (size : Nat) : Decidable (hint_fits L size) := by
  unfold hint_fits; infer_instance

/-- The structural part of well-formedness, which no size computation can break: every arena
lies in a block the allocator has handed out, no two arenas share an address, and the active
arena is in `area_list`. -/
def Linked (mgr : MEM_MGR) (sys : Sys) : Prop :=
  (∀ a ∈ mgr.area_list, a.ptr.block < sys.next) ∧
  (mgr.area_list.map MEM_AREA.ptr).Nodup ∧
  mgr.active_area ∈ mgr.area_list

/-- A well-formed manager in its environment: slots have a positive size, every arena has a
positive capacity, lies in a block the allocator has handed out and fits in it without
overflow, no two arenas share an address, the active arena is in `area_list`, and the cursor
range is a final segment of the slots of the active arena. -/
def WF (L : Layout) (mgr : MEM_MGR) (sys : Sys) : Prop :=
  0 < L.obj ∧
  (∀ a ∈ mgr.area_list, 0 < a.size ∧ a.ptr.block < sys.next ∧ fits L a) ∧
  (mgr.area_list.map MEM_AREA.ptr).Nodup ∧
  mgr.active_area ∈ mgr.area_list ∧
  mgr.obj_limit = slot L mgr.active_area mgr.active_area.size ∧
  ∃ i, i ≤ mgr.active_area.size ∧ mgr.obj = slot L mgr.active_area i

/-- A manager, its environment, and the payload pointers handed out and not yet released. -/
structure St where
  mgr : MEM_MGR
  sys : Sys
  live : List Ptr
deriving DecidableEq, Repr

/-- A call of one of the public operations on an existing manager, with the outcomes of the
calls of `system_malloc` it may issue. -/
inductive Op where
  | get (size : Nat) (oks : List Bool)
  | release (obj : Ptr)
  | enlarge (size : Nat) (ok : Bool)
deriving DecidableEq, Repr

/-- One operation.  `none` when the call is not allowed (a release of a pointer that is not
live) or fails an `assert`. -/
def step (L : Layout) (op : Op) (st : St) : Option St :=
  match op with
  | Op.get size oks =>
    match get_mem_obj_from_mgr_enlarge L st.mgr size oks st.sys with
    | Run.abort => none
    | Run.done (none, mgr, sys) => some ⟨mgr, sys, st.live⟩
    | Run.done (some p, mgr, sys) => some ⟨mgr, sys, p :: st.live⟩
  | Op.release obj =>
    if obj ∈ st.live then
      some ⟨(free_mem_obj_to_mgr st.mgr obj st.sys).1, (free_mem_obj_to_mgr st.mgr obj st.sys).2,
        st.live.erase obj⟩
    else none
  | Op.enlarge size ok =>
    match enlarge_mem_mgr L st.mgr size ok st.sys with
    | Run.abort => none
    | Run.done (_, mgr, sys) => some ⟨mgr, sys, st.live⟩

/-- The states reachable from a successful `create_mem_mgr(C)` in a fresh environment by
acquisitions, releases of live pointers, and growths. -/
inductive Reachable (L : Layout) (C : Nat) : St → Prop where
  | create (next : Nat) (mgr : MEM_MGR) (sys : Sys) :
      0 < L.obj →
      create_mem_mgr L C true ⟨next, []⟩ = Run.done (some mgr, sys) →
      Reachable L C ⟨mgr, sys, []⟩
  | after (op : Op) (st st1 : St) :
      Reachable L C st → step L op st = some st1 → Reachable L C st1

/-- The capacity an operation asks for has a byte size that does not overflow `size_t`. -/
def op_fits (L : Layout) : Op → Prop
  | Op.get size _ => hint_fits L size
  | Op.release _ => True
  | Op.enlarge size _ => L.area + L.obj * size < SIZE_MOD

instance (L : Layout) (op : Op) : Decidable (op_fits L op) := by
  cases op <;> unfold op_fits <;> infer_instance

/-- The states reachable from a successful `create_mem_mgr(C)` in a fresh environment by
acquisitions, releases of live pointers, and growths, when no requested capacity has a byte
size that overflows `size_t`. -/
inductive FitReachable (L : Layout) (C : Nat) : St → Prop where
  | create (next : Nat) (mgr : MEM_MGR) (sys : Sys) :
      0 < L.obj → L.mgr + L.area + L.obj * C < SIZE_MOD →
      create_mem_mgr L C true ⟨next, []⟩ = Run.done (some mgr, sys) →
      FitReachable L C ⟨mgr, sys, []⟩
  | after (op : Op) (st st1 : St) :
      FitReachable L C st → op_fits L op → step L op st = some st1 → FitReachable L C st1

/-- Walks a trace from a lock state (`true`: the lock is held).  The result is `none` when
the discipline is broken: `SYSTEM_LOCK` with the lock held, `SYSTEM_UNLOCK` without it, a call
of `system_malloc` or `system_free` with the lock held, or an access to the shared fields of
the manager without the lock.  Otherwise it is the lock state after the trace. -/
def lock_walk : Bool → List Event → Option Bool
  | held, [] => some held
  | held, Event.lock :: es => if held then none else lock_walk true es
  | held, Event.unlock :: es => if held then lock_walk false es else none
  | held, Event.malloc _ _ :: es => if held then none else lock_walk false es
  | held, Event.free _ _ :: es => if held then none else lock_walk false es
  | held, Event.access :: es => if held then lock_walk true es else none

/-! ## Slots and their classes -/

/-- The first `k` slots of an arena, in index order. -/
def slots_upto (L : Layout) (a : MEM_AREA) (k : Nat) : List Ptr := (List.range k).map (slot L a)

/-- All the slots of the arenas of a list. -/
def arena_slots (L : Layout) : List MEM_AREA → List Ptr
  | [] => []
  | a :: rest => slots_upto L a a.size ++ arena_slots L rest

/-- The banked arenas: those linked in front of the active arena, newest first. -/
def banked (mgr : MEM_MGR) : List MEM_AREA :=
  mgr.area_list.takeWhile (fun a => decide (a.ptr ≠ mgr.active_area.ptr))

/-- The active arena followed by the arenas linked behind it. -/
def used (mgr : MEM_MGR) : List MEM_AREA :=
  mgr.area_list.dropWhile (fun a => decide (a.ptr ≠ mgr.active_area.ptr))

/-- Whether a slot lies in the untouched range `[obj, obj_limit)` of the cursor. -/
def untouched (mgr : MEM_MGR) (p : Ptr) : Bool :=
  decide (p.block = mgr.obj.block ∧ mgr.obj.off ≤ p.off ∧ p.off < mgr.obj_limit.off)

/-- In how many of the three classes a slot is: entries of the free list, live payloads
(both counted with multiplicity), untouched range of the cursor. -/
def classes (st : St) (p : Ptr) : Nat :=
  st.mgr.free_list.count p + st.live.count p + (if untouched st.mgr p then 1 else 0)

/-- The bookkeeping of a state: `area_list` is some banked arenas, the active arena, and the
arenas used up before it; no two arenas lie in one block; the cursor is at slot `idx` of the
active arena; and the free list together with the live payloads holds, each once, the slots
of the used-up arenas and the first `idx` slots of the active arena. -/
def Part (L : Layout) (st : St) : Prop :=
  ∃ pre post idx,
    st.mgr.area_list = pre ++ st.mgr.active_area :: post ∧
    (st.mgr.area_list.map (fun a => a.ptr.block)).Nodup ∧
    idx ≤ st.mgr.active_area.size ∧
    st.mgr.obj = slot L st.mgr.active_area idx ∧
    (st.mgr.free_list ++ st.live).Perm
      (slots_upto L st.mgr.active_area idx ++ arena_slots L post)

/-- What every reachable state keeps, whatever capacities were asked for: `area_list` is some
banked arenas, the active arena, and the arenas used before it, each in a block of its own
that the allocator has handed out; the cursor is at slot `idx` of the active arena and has
not passed the limit on its way; the free list and the live payloads together hold no
pointer twice, and each of their pointers is one of the first `idx` slots of the active arena
or lies in the block of an arena used before; and once a slot has been handed out, the
cursor is not above the limit. -/
def Track (L : Layout) (st : St) : Prop :=
  ∃ pre post idx,
    st.mgr.area_list = pre ++ st.mgr.active_area :: post ∧
    (st.mgr.area_list.map (fun a => a.ptr.block)).Nodup ∧
    (∀ a ∈ st.mgr.area_list, a.ptr.block < st.sys.next) ∧
    st.mgr.obj = slot L st.mgr.active_area idx ∧
    st.mgr.obj_limit = slot L st.mgr.active_area st.mgr.active_area.size ∧
    (∀ i, 0 < i → i < idx → slot L st.mgr.active_area i ≠ st.mgr.obj_limit) ∧
    (st.mgr.free_list ++ st.live).Nodup ∧
    (∀ p ∈ st.mgr.free_list ++ st.live,
      (∃ i, i < idx ∧ p = slot L st.mgr.active_area i) ∨
      (∃ a ∈ post, p.block = a.ptr.block)) ∧
    (st.mgr.free_list ++ st.live = [] ∨ ptr_le st.mgr.obj st.mgr.obj_limit)

/-! ## Runs of growths and hint-less acquisitions -/

/-- A sequence of operations, run in order; `none` when one of them is refused by `step`. -/
def run (L : Layout) : List Op → St → Option St
  | [], st => some st
  | op :: ops, st =>
    match step L op st with
    | none => none
    | some st1 => run L ops st1

/-- Whether the operation is a successful growth (`enlarge_mem_mgr` with a positive size whose
allocation succeeds) or a hint-less acquisition. -/
def grow_or_get : Op → Bool
  | Op.get size _ => decide (size = 0)
  | Op.enlarge size ok => ok && decide (0 < size)
  | Op.release _ => false

/-- Whether the operation is an acquisition that returns a slot in the state `st`. -/
def returns_slot (L : Layout) (op : Op) (st : St) : Bool :=
  match op with
  | Op.get size oks =>
    match get_mem_obj_from_mgr_enlarge L st.mgr size oks st.sys with
    | Run.done (some _, _, _) => true
    | _ => false
  | _ => false

/-- The number of acquisitions of a run that return a slot. -/
def got (L : Layout) : List Op → St → Nat
  | [], _ => 0
  | op :: ops, st =>
    match step L op st with
    | none => 0
    | some st1 => (if returns_slot L op st then 1 else 0) + got L ops st1

/-- The sizes of the successful growths of a sequence of operations, in order. -/
def grown_sizes : List Op → List Nat
  | [] => []
  | Op.enlarge size true :: ops => size :: grown_sizes ops
  | _ :: ops => grown_sizes ops

/-- The arenas that become the active arena during a run, in order. -/
def activated (L : Layout) : List Op → St → List MEM_AREA
  | [], _ => []
  | op :: ops, st =>
    match step L op st with
    | none => []
    | some st1 =>
      (if st1.mgr.active_area.ptr = st.mgr.active_area.ptr then [] else [st1.mgr.active_area]) ++
        activated L ops st1

/-- The capacity still available without a backing allocation: the slots of the untouched
range of the cursor, plus the capacities of the banked arenas. -/
def remaining (L : Layout) (mgr : MEM_MGR) : Nat :=
  (mgr.obj_limit.off - mgr.obj.off) / L.obj + ((banked mgr).map MEM_AREA.size).sum

/-! ## Slot addresses -/

theorem emit_eq (e : Event) (sys : Sys) : emit e sys = ⟨sys.next, sys.trace ++ [e]⟩ := rfl

theorem area_objs_eq_slot (L : Layout) (a : MEM_AREA) : area_objs L a = slot L a 0 := by
  simp [slot, obj_add, area_objs, size_add, size_mul]

theorem obj_add_objs (L : Layout) (a : MEM_AREA) (i : Nat) :
    obj_add L (area_objs L a) i = slot L a i := rfl

theorem size_add_step (x y z : Nat) :
    size_add (size_add x (y % SIZE_MOD)) (z % SIZE_MOD) = size_add x ((y + z) % SIZE_MOD) := by
  have h1 : Nat.ModEq SIZE_MOD ((x + y % SIZE_MOD) % SIZE_MOD + z % SIZE_MOD) (x + y + z) :=
    ((Nat.mod_modEq _ _).trans ((Nat.ModEq.refl x).add (Nat.mod_modEq y _))).add
      (Nat.mod_modEq z _)
  have h2 : Nat.ModEq SIZE_MOD (x + (y + z) % SIZE_MOD) (x + y + z) := by
    rw [Nat.add_assoc]
    exact (Nat.ModEq.refl x).add (Nat.mod_modEq _ _)
  exact h1.trans h2.symm

theorem obj_add_slot (L : Layout) (a : MEM_AREA) (i : Nat) :
    obj_add L (slot L a i) 1 = slot L a (i + 1) := by
  simp only [slot, obj_add, area_objs, size_mul, Ptr.mk.injEq, true_and]
  rw [size_add_step, Nat.mul_add]

theorem slot_block (L : Layout) (a : MEM_AREA) (i : Nat) : (slot L a i).block = a.ptr.block :=
  rfl

/-- Inside an arena that fits in its block, slot addresses are computed without wrapping. -/
theorem slot_fit {L : Layout} {a : MEM_AREA} (hf : fits L a) {i : Nat} (hi : i ≤ a.size) :
    slot L a i = ⟨a.ptr.block, a.ptr.off + L.area + L.obj * i⟩ := by
  unfold fits at hf
  have hm : L.obj * i ≤ L.obj * a.size := Nat.mul_le_mul_left _ hi
  simp only [slot, obj_add, area_objs, size_add, size_mul, Ptr.mk.injEq, true_and]
  rw [Nat.mod_eq_of_lt (by omega : a.ptr.off + L.area < SIZE_MOD),
    Nat.mod_eq_of_lt (by omega : L.obj * i < SIZE_MOD),
    Nat.mod_eq_of_lt (by omega : a.ptr.off + L.area + L.obj * i < SIZE_MOD)]

theorem slot_inj (L : Layout) (a : MEM_AREA) (i j : Nat) (ho : 0 < L.obj) (hf : fits L a)
    (hi : i ≤ a.size) (hj : j ≤ a.size) (h : slot L a i = slot L a j) : i = j := by
  rw [slot_fit hf hi, slot_fit hf hj] at h
  simp only [Ptr.mk.injEq, true_and] at h
  have : L.obj * i = L.obj * j := by omega
  exact Nat.eq_of_mul_eq_mul_left ho this

theorem slot_le {L : Layout} {a : MEM_AREA} (hf : fits L a) {i j : Nat} (hij : i ≤ j)
    (hj : j ≤ a.size) : ptr_le (slot L a i) (slot L a j) := by
  rw [slot_fit hf (Nat.le_trans hij hj), slot_fit hf hj]
  have := Nat.mul_le_mul_left L.obj hij
  exact ⟨rfl, by simp only []; omega⟩

/-- With a slot size that is positive, a cursor moved past the limit fails the comparison. -/
theorem slot_not_le {L : Layout} {a : MEM_AREA} (hf : fits L a) (ho : 0 < L.obj) {i j : Nat}
    (hij : j < i) (hi : i ≤ a.size) : ¬ ptr_le (slot L a i) (slot L a j) := by
  rw [slot_fit hf hi, slot_fit hf (Nat.le_trans (Nat.le_of_lt hij) hi)]
  have := (Nat.mul_lt_mul_left ho).mpr hij
  intro h
  have h2 := h.2
  simp only [] at h2
  omega

/-! ## Case lemmas for acquisition -/

theorem loop_skip (L : Layout) (size : Nat) (oks : List Bool) (mgr : MEM_MGR) (sys : Sys)
    (h : ¬ (mgr.obj = mgr.obj_limit ∧ mgr.free_list = [])) :
    get_loop L size oks mgr sys = LoopExit.fall mgr ⟨sys.next, sys.trace ++ [Event.access]⟩ := by
  unfold get_loop
  have h2 : ¬ (mgr.obj = mgr.obj_limit ∧ LISTP_EMPTY mgr.free_list = true) := by
    simpa [LISTP_EMPTY] using h
  simp [h2, emit_eq]

theorem loop_banked (L : Layout) (size : Nat) (oks : List Bool) (mgr : MEM_MGR) (sys : Sys)
    (area : MEM_AREA) (hf : mgr.free_list = []) (he : mgr.obj = mgr.obj_limit)
    (hp : LISTP_PREV_ENTRY mgr.active_area mgr.area_list = some area) :
    get_loop L size oks mgr sys =
      LoopExit.fall
        { mgr with
            size := size_add mgr.size area.size
            obj := area_objs L area
            obj_limit := obj_add L (area_objs L area) area.size
            active_area := area }
        ⟨sys.next, sys.trace ++ [Event.access, Event.access, Event.access]⟩ := by
  unfold get_loop
  simp [he, hf, hp, LISTP_EMPTY, __set_free_mem_area, SYSTEM_LOCKED, emit_eq]

theorem loop_nohint (L : Layout) (oks : List Bool) (mgr : MEM_MGR) (sys : Sys)
    (hf : mgr.free_list = []) (he : mgr.obj = mgr.obj_limit)
    (hp : LISTP_PREV_ENTRY mgr.active_area mgr.area_list = none) :
    get_loop L 0 oks mgr sys =
      LoopExit.ret_null mgr
        ⟨sys.next, sys.trace ++ [Event.access, Event.access, Event.unlock]⟩ := by
  unfold get_loop
  simp [he, hf, hp, LISTP_EMPTY, SYSTEM_UNLOCK, emit_eq]

theorem loop_malloc_fails (L : Layout) (size : Nat) (oks : List Bool) (mgr : MEM_MGR)
    (sys : Sys) (hsz : size ≠ 0) (hf : mgr.free_list = []) (he : mgr.obj = mgr.obj_limit)
    (hp : LISTP_PREV_ENTRY mgr.active_area mgr.area_list = none)
    (hok : first_ok oks = false) :
    get_loop L size oks mgr sys =
      LoopExit.ret_null mgr
        ⟨sys.next, sys.trace ++ [Event.access, Event.access, Event.unlock,
          Event.malloc (AREA_MEM_SIZE L size) none]⟩ := by
  unfold get_loop
  cases oks with
  | nil => simp [he, hf, hp, hsz, LISTP_EMPTY, SYSTEM_UNLOCK, emit_eq, system_malloc]
  | cons ok rest =>
    simp only [first_ok] at hok
    simp [he, hf, hp, hsz, hok, LISTP_EMPTY, SYSTEM_UNLOCK, emit_eq, system_malloc]

theorem loop_malloc_ok (L : Layout) (size : Nat) (rest : List Bool) (mgr : MEM_MGR)
    (sys : Sys) (hsz : size ≠ 0) (hf : mgr.free_list = []) (he : mgr.obj = mgr.obj_limit)
    (hp : LISTP_PREV_ENTRY mgr.active_area mgr.area_list = none) :
    get_loop L size (true :: rest) mgr sys =
      get_loop L size rest
        { mgr with area_list := ⟨⟨sys.next, 0⟩, size⟩ :: mgr.area_list }
        ⟨sys.next + 1, sys.trace ++ [Event.access, Event.access, Event.unlock,
          Event.malloc (AREA_MEM_SIZE L size) (some ⟨sys.next, 0⟩), Event.lock,
          Event.access]⟩ := by
  conv => lhs; unfold get_loop
  simp [he, hf, hp, hsz, LISTP_EMPTY, SYSTEM_LOCK, SYSTEM_UNLOCK, emit_eq, system_malloc,
    LISTP_ADD]

theorem prev_entry_cons_head (node a new : MEM_AREA) (rest : List MEM_AREA)
    (ha : a.ptr = node.ptr) (hn : new.ptr ≠ node.ptr) :
    LISTP_PREV_ENTRY node (new :: a :: rest) = some new := by
  simp [LISTP_PREV_ENTRY, prev_of, ha, hn]

theorem loop_grow (L : Layout) (size : Nat) (rest : List Bool) (mgr : MEM_MGR)
    (sys : Sys) (a : MEM_AREA) (tl : List MEM_AREA) (hsz : size ≠ 0)
    (hf : mgr.free_list = []) (he : mgr.obj = mgr.obj_limit)
    (hl : mgr.area_list = a :: tl) (ha : a.ptr = mgr.active_area.ptr)
    (hfresh : mgr.active_area.ptr.block < sys.next) :
    get_loop L size (true :: rest) mgr sys =
      LoopExit.fall
        { mgr with
            area_list := ⟨⟨sys.next, 0⟩, size⟩ :: mgr.area_list
            size := size_add mgr.size size
            obj := area_objs L ⟨⟨sys.next, 0⟩, size⟩
            obj_limit := obj_add L (area_objs L ⟨⟨sys.next, 0⟩, size⟩) size
            active_area := ⟨⟨sys.next, 0⟩, size⟩ }
        ⟨sys.next + 1, sys.trace ++ [Event.access, Event.access, Event.unlock,
          Event.malloc (AREA_MEM_SIZE L size) (some ⟨sys.next, 0⟩), Event.lock, Event.access,
          Event.access, Event.access, Event.access]⟩ := by
  have hp : LISTP_PREV_ENTRY mgr.active_area mgr.area_list = none := by
    simp [hl, LISTP_PREV_ENTRY, ha]
  have hne : (⟨sys.next, 0⟩ : Ptr) ≠ mgr.active_area.ptr := by
    intro h
    have := congrArg Ptr.block h
    simp at this
    omega
  have hp2 : LISTP_PREV_ENTRY mgr.active_area (⟨⟨sys.next, 0⟩, size⟩ :: a :: tl)
      = some ⟨⟨sys.next, 0⟩, size⟩ := prev_entry_cons_head _ _ _ _ ha hne
  rw [loop_malloc_ok L size rest mgr sys hsz hf he hp]
  rw [loop_banked L size rest
    { mgr with area_list := ⟨⟨sys.next, 0⟩, size⟩ :: mgr.area_list }
    ⟨sys.next + 1, sys.trace ++ [Event.access, Event.access, Event.unlock,
          Event.malloc (AREA_MEM_SIZE L size) (some ⟨sys.next, 0⟩), Event.lock,
          Event.access]⟩ ⟨⟨sys.next, 0⟩, size⟩ hf he (by simpa [hl] using hp2)]
  simp

/-- The end of the call when the loop is left by its condition with an empty free list: the
cursor is bumped, and the `assert` decides. -/
theorem get_bump_eq (L : Layout) (mgr : MEM_MGR) (size : Nat) (oks : List Bool) (sys : Sys)
    (hf : mgr.free_list = []) (hne : mgr.obj ≠ mgr.obj_limit) :
    get_mem_obj_from_mgr_enlarge L mgr size oks sys =
      if ptr_le (obj_add L mgr.obj 1) mgr.obj_limit then
        Run.done (some mgr.obj, { mgr with obj := obj_add L mgr.obj 1 },
          ⟨sys.next, sys.trace ++ [Event.lock, Event.access, Event.access, Event.unlock]⟩)
      else Run.abort := by
  unfold get_mem_obj_from_mgr_enlarge
  rw [loop_skip L size oks mgr (SYSTEM_LOCK sys) (by simp [hne])]
  by_cases hle : ptr_le (obj_add L mgr.obj 1) mgr.obj_limit
  · simp [take_obj, hf, LISTP_FIRST_ENTRY, LISTP_EMPTY, hle, SYSTEM_UNLOCK, SYSTEM_LOCK,
      emit_eq]
  · simp [take_obj, hf, LISTP_FIRST_ENTRY, LISTP_EMPTY, hle]

theorem get_bump (L : Layout) (mgr : MEM_MGR) (size : Nat) (oks : List Bool) (sys : Sys)
    (hf : mgr.free_list = []) (hne : mgr.obj ≠ mgr.obj_limit)
    (hle : ptr_le (obj_add L mgr.obj 1) mgr.obj_limit) :
    get_mem_obj_from_mgr_enlarge L mgr size oks sys =
      Run.done (some mgr.obj, { mgr with obj := obj_add L mgr.obj 1 },
        ⟨sys.next, sys.trace ++ [Event.lock, Event.access, Event.access, Event.unlock]⟩) := by
  rw [get_bump_eq L mgr size oks sys hf hne, if_pos hle]

/-- The end of the call when the free list is not empty: its front is popped, and the
`assert` decides. -/
theorem get_pop_eq (L : Layout) (mgr : MEM_MGR) (size : Nat) (oks : List Bool) (sys : Sys)
    (x : Ptr) (fl : List Ptr) (hf : mgr.free_list = x :: fl) :
    get_mem_obj_from_mgr_enlarge L mgr size oks sys =
      if ptr_le mgr.obj mgr.obj_limit then
        Run.done (some x, { mgr with free_list := fl },
          ⟨sys.next, sys.trace ++ [Event.lock, Event.access, Event.access, Event.unlock]⟩)
      else Run.abort := by
  unfold get_mem_obj_from_mgr_enlarge
  rw [loop_skip L size oks mgr (SYSTEM_LOCK sys) (by simp [hf])]
  by_cases hle : ptr_le mgr.obj mgr.obj_limit
  · simp [take_obj, hf, LISTP_FIRST_ENTRY, LISTP_EMPTY, LISTP_DEL, hle, SYSTEM_UNLOCK,
      SYSTEM_LOCK, emit_eq]
  · simp [take_obj, hf, LISTP_FIRST_ENTRY, LISTP_EMPTY, LISTP_DEL, hle]

theorem get_pop (L : Layout) (mgr : MEM_MGR) (size : Nat) (oks : List Bool) (sys : Sys)
    (x : Ptr) (fl : List Ptr)
    (hf : mgr.free_list = x :: fl) (hle : ptr_le mgr.obj mgr.obj_limit) :
    get_mem_obj_from_mgr_enlarge L mgr size oks sys =
      Run.done (some x, { mgr with free_list := fl },
        ⟨sys.next, sys.trace ++ [Event.lock, Event.access, Event.access, Event.unlock]⟩) := by
  rw [get_pop_eq L mgr size oks sys x fl hf, if_pos hle]

/-- The end of the call when a banked arena is activated: its first slot is taken, and the
`assert` compares the cursor, now on slot 1, with the limit computed for the arena. -/
theorem get_banked_eq (L : Layout) (mgr : MEM_MGR) (size : Nat) (oks : List Bool) (sys : Sys)
    (area : MEM_AREA)
    (hf : mgr.free_list = []) (he : mgr.obj = mgr.obj_limit)
    (hp : LISTP_PREV_ENTRY mgr.active_area mgr.area_list = some area) :
    get_mem_obj_from_mgr_enlarge L mgr size oks sys =
      if ptr_le (slot L area 1) (slot L area area.size) then
        Run.done (some (area_objs L area),
          { mgr with
              size := size_add mgr.size area.size
              obj := obj_add L (area_objs L area) 1
              obj_limit := obj_add L (area_objs L area) area.size
              active_area := area },
          ⟨sys.next, sys.trace ++ [Event.lock, Event.access, Event.access, Event.access,
            Event.access, Event.unlock]⟩)
      else Run.abort := by
  unfold get_mem_obj_from_mgr_enlarge
  rw [loop_banked L size oks mgr (SYSTEM_LOCK sys) area hf he hp]
  by_cases hle : ptr_le (slot L area 1) (slot L area area.size)
  · have hle2 : ptr_le (obj_add L (area_objs L area) 1)
        (obj_add L (area_objs L area) area.size) := hle
    simp [take_obj, hf, LISTP_FIRST_ENTRY, LISTP_EMPTY, hle, hle2, SYSTEM_UNLOCK, SYSTEM_LOCK,
      emit_eq]
  · have hle2 : ¬ ptr_le (obj_add L (area_objs L area) 1)
        (obj_add L (area_objs L area) area.size) := hle
    simp [take_obj, hf, LISTP_FIRST_ENTRY, LISTP_EMPTY, hle, hle2]

/-- The first slot of an arena of positive capacity that fits in its block lies before the
end of its slot array. -/
theorem first_slot_le {L : Layout} {area : MEM_AREA} (hs : 0 < area.size)
    (hfit : fits L area) : ptr_le (slot L area 1) (slot L area area.size) :=
  slot_le hfit hs (Nat.le_refl _)

theorem get_none_nohint (L : Layout) (mgr : MEM_MGR) (oks : List Bool) (sys : Sys)
    (hf : mgr.free_list = []) (he : mgr.obj = mgr.obj_limit)
    (hp : LISTP_PREV_ENTRY mgr.active_area mgr.area_list = none) :
    get_mem_obj_from_mgr_enlarge L mgr 0 oks sys =
      Run.done (none, mgr,
        ⟨sys.next, sys.trace ++ [Event.lock, Event.access, Event.access, Event.unlock]⟩) := by
  unfold get_mem_obj_from_mgr_enlarge
  rw [loop_nohint L oks mgr (SYSTEM_LOCK sys) hf he hp]
  simp [SYSTEM_LOCK, emit_eq]

theorem get_none_malloc_fails (L : Layout) (mgr : MEM_MGR) (size : Nat) (oks : List Bool)
    (sys : Sys) (hsz : size ≠ 0)
    (hf : mgr.free_list = []) (he : mgr.obj = mgr.obj_limit)
    (hp : LISTP_PREV_ENTRY mgr.active_area mgr.area_list = none)
    (hok : first_ok oks = false) :
    get_mem_obj_from_mgr_enlarge L mgr size oks sys =
      Run.done (none, mgr,
        ⟨sys.next, sys.trace ++ [Event.lock, Event.access, Event.access, Event.unlock,
          Event.malloc (AREA_MEM_SIZE L size) none]⟩) := by
  unfold get_mem_obj_from_mgr_enlarge
  rw [loop_malloc_fails L size oks mgr (SYSTEM_LOCK sys) hsz hf he hp hok]
  simp [SYSTEM_LOCK, emit_eq]

/-- The end of the call when a new arena is allocated: it is linked, activated, its first
slot is taken, and the `assert` compares the cursor with the limit computed for the arena. -/
theorem get_grow_eq (L : Layout) (mgr : MEM_MGR) (size : Nat) (rest : List Bool)
    (sys : Sys) (a : MEM_AREA) (tl : List MEM_AREA) (hsz : size ≠ 0)
    (hf : mgr.free_list = []) (he : mgr.obj = mgr.obj_limit)
    (hl : mgr.area_list = a :: tl) (ha : a.ptr = mgr.active_area.ptr)
    (hfresh : mgr.active_area.ptr.block < sys.next) :
    get_mem_obj_from_mgr_enlarge L mgr size (true :: rest) sys =
      if ptr_le (slot L ⟨⟨sys.next, 0⟩, size⟩ 1) (slot L ⟨⟨sys.next, 0⟩, size⟩ size) then
        Run.done (some (area_objs L ⟨⟨sys.next, 0⟩, size⟩),
          { mgr with
              area_list := ⟨⟨sys.next, 0⟩, size⟩ :: mgr.area_list
              size := size_add mgr.size size
              obj := obj_add L (area_objs L ⟨⟨sys.next, 0⟩, size⟩) 1
              obj_limit := obj_add L (area_objs L ⟨⟨sys.next, 0⟩, size⟩) size
              active_area := ⟨⟨sys.next, 0⟩, size⟩ },
          ⟨sys.next + 1, sys.trace ++ [Event.lock, Event.access, Event.access, Event.unlock,
            Event.malloc (AREA_MEM_SIZE L size) (some ⟨sys.next, 0⟩), Event.lock, Event.access,
            Event.access, Event.access, Event.access, Event.access, Event.unlock]⟩)
      else Run.abort := by
  unfold get_mem_obj_from_mgr_enlarge
  rw [loop_grow L size rest mgr (SYSTEM_LOCK sys) a tl hsz hf he hl ha
    (by simpa [SYSTEM_LOCK, emit_eq] using hfresh)]
  by_cases hle : ptr_le (slot L ⟨⟨sys.next, 0⟩, size⟩ 1) (slot L ⟨⟨sys.next, 0⟩, size⟩ size)
  · have hle2 : ptr_le (obj_add L (area_objs L ⟨⟨sys.next, 0⟩, size⟩) 1)
        (obj_add L (area_objs L ⟨⟨sys.next, 0⟩, size⟩) size) := hle
    simp [take_obj, hf, LISTP_FIRST_ENTRY, LISTP_EMPTY, hle, hle2, SYSTEM_UNLOCK, SYSTEM_LOCK,
      emit_eq]
  · have hle2 : ¬ ptr_le (obj_add L (area_objs L ⟨⟨sys.next, 0⟩, size⟩) 1)
        (obj_add L (area_objs L ⟨⟨sys.next, 0⟩, size⟩) size) := hle
    simp [take_obj, hf, LISTP_FIRST_ENTRY, LISTP_EMPTY, hle, hle2]
    exact hle2

theorem fits_new {L : Layout} {size : Nat} (next : Nat)
    (hfit : L.area + L.obj * size < SIZE_MOD) : fits L ⟨⟨next, 0⟩, size⟩ := by
  unfold fits
  simpa using hfit

theorem create_ok (L : Layout) (C : Nat) (sys : Sys) (hC : 0 < C) :
    create_mem_mgr L C true sys =
      Run.done (some
        { self := ⟨sys.next, 0⟩
          area_list := [⟨⟨sys.next, L.mgr % SIZE_MOD⟩, C⟩]
          free_list := []
          size := C % SIZE_MOD
          obj := slot L ⟨⟨sys.next, L.mgr % SIZE_MOD⟩, C⟩ 0
          obj_limit := slot L ⟨⟨sys.next, L.mgr % SIZE_MOD⟩, C⟩ C
          active_area := ⟨⟨sys.next, L.mgr % SIZE_MOD⟩, C⟩ },
        ⟨sys.next + 1, sys.trace ++
          [Event.malloc (__MAX_MEM_SIZE L C) (some ⟨sys.next, 0⟩), Event.access]⟩) := by
  have h : C ≠ 0 := Nat.pos_iff_ne_zero.mp hC
  simp [create_mem_mgr, h, system_malloc, __set_free_mem_area, SYSTEM_LOCKED, LISTP_ADD,
    emit_eq, ← area_objs_eq_slot, obj_add_objs, size_add]

/-- When `__MAX_MEM_SIZE(C)` does not overflow, the embedded arena fits in the block. -/
theorem fits_embedded {L : Layout} {C : Nat} (next : Nat)
    (hfit : L.mgr + L.area + L.obj * C < SIZE_MOD) :
    fits L ⟨⟨next, L.mgr % SIZE_MOD⟩, C⟩ := by
  unfold fits
  rw [Nat.mod_eq_of_lt (by omega : L.mgr < SIZE_MOD)]
  exact hfit

theorem create_fails (L : Layout) (C : Nat) (sys : Sys) (hC : 0 < C) :
    create_mem_mgr L C false sys =
      Run.done (none, ⟨sys.next, sys.trace ++ [Event.malloc (__MAX_MEM_SIZE L C) none]⟩) := by
  have h : C ≠ 0 := Nat.pos_iff_ne_zero.mp hC
  simp [create_mem_mgr, h, system_malloc, emit_eq]

theorem acquire_n_bump (L : Layout) (oks : List Bool) (a : MEM_AREA) (ho : 0 < L.obj)
    (hfit : fits L a) :
    ∀ (n i : Nat) (mgr : MEM_MGR) (sys : Sys), mgr.free_list = [] →
      mgr.obj = slot L a i → mgr.obj_limit = slot L a a.size → i + n ≤ a.size →
      ∃ sys1, acquire_n L oks n mgr sys =
        Run.done ((List.range' i n).map (fun j => some (slot L a j)),
          { mgr with obj := slot L a (i + n) }, sys1) := by
  intro n
  induction n with
  | zero =>
    intro i mgr sys _ hobj _ _
    refine ⟨sys, ?_⟩
    simp [acquire_n, ← hobj]
  | succ n ih =>
    intro i mgr sys hf hobj hlim hle
    have hne : mgr.obj ≠ mgr.obj_limit := by
      rw [hobj, hlim]
      intro h
      have := slot_inj L a _ _ ho hfit (by omega) (Nat.le_refl _) h
      omega
    have hnext : obj_add L mgr.obj 1 = slot L a (i + 1) := by
      rw [hobj, obj_add_slot]
    have hstep : ptr_le (obj_add L mgr.obj 1) mgr.obj_limit := by
      rw [hnext, hlim]
      exact slot_le hfit (by omega) (Nat.le_refl _)
    obtain ⟨sys1, h1⟩ := ih (i + 1) { mgr with obj := obj_add L mgr.obj 1 }
      ⟨sys.next, sys.trace ++ [Event.lock, Event.access, Event.access, Event.unlock]⟩
      hf hnext hlim (by omega)
    refine ⟨sys1, ?_⟩
    simp only [acquire_n, get_mem_obj_from_mgr]
    rw [get_bump L mgr 0 oks sys hf hne hstep]
    simp only []
    rw [h1]
    simp [List.range'_succ, hobj, Nat.add_assoc, Nat.add_comm 1 n]

/-! ## The arena list -/

theorem prev_of_mem (p : Ptr) : ∀ (l : List MEM_AREA) (a : MEM_AREA),
    prev_of p l = some a → a ∈ l
  | [], a, h => by simp [prev_of] at h
  | [_], a, h => by simp [prev_of] at h
  | x :: y :: rest, a, h => by
    simp only [prev_of] at h
    by_cases hy : y.ptr = p
    · simp only [hy, if_true, Option.some.injEq] at h
      simp [h]
    · simp only [hy, if_false] at h
      exact List.mem_cons_of_mem _ (prev_of_mem p (y :: rest) a h)

theorem prev_entry_mem (node a : MEM_AREA) (l : List MEM_AREA)
    (h : LISTP_PREV_ENTRY node l = some a) : a ∈ l := by
  cases l with
  | nil => simp [LISTP_PREV_ENTRY] at h
  | cons x tl =>
    simp only [LISTP_PREV_ENTRY] at h
    by_cases hx : x.ptr = node.ptr
    · simp [hx] at h
    · simp only [hx, if_false] at h
      exact prev_of_mem _ _ _ h

theorem prev_of_isSome (p : Ptr) : ∀ (tl : List MEM_AREA) (x : MEM_AREA),
    (∃ b ∈ tl, b.ptr = p) → ∃ a, prev_of p (x :: tl) = some a
  | [], _, h => by simp at h
  | y :: rest, x, h => by
    simp only [prev_of]
    by_cases hy : y.ptr = p
    · exact ⟨x, by simp [hy]⟩
    · simp only [hy, if_false]
      obtain ⟨b, hb, hbp⟩ := h
      rcases List.mem_cons.mp hb with rfl | hb
      · exact absurd hbp hy
      · exact prev_of_isSome p rest y ⟨b, hb, hbp⟩

theorem prev_entry_none_head (node : MEM_AREA) (l : List MEM_AREA) (hm : node ∈ l)
    (h : LISTP_PREV_ENTRY node l = none) : ∃ a tl, l = a :: tl ∧ a.ptr = node.ptr := by
  cases l with
  | nil => simp at hm
  | cons x tl =>
    by_cases hx : x.ptr = node.ptr
    · exact ⟨x, tl, rfl, hx⟩
    · simp only [LISTP_PREV_ENTRY, hx, if_false] at h
      rcases List.mem_cons.mp hm with rfl | hm
      · exact absurd rfl hx
      · obtain ⟨a, ha⟩ := prev_of_isSome node.ptr tl x ⟨node, hm, rfl⟩
        rw [ha] at h
        cases h

theorem prev_of_banked (p : Ptr) (new a : MEM_AREA) (tl : List MEM_AREA) (ha : a.ptr = p) :
    ∀ (pre : List MEM_AREA), (∀ x ∈ pre, x.ptr ≠ p) → new.ptr ≠ p →
      prev_of p (pre ++ new :: a :: tl) = some new
  | [], _, _ => by simp [prev_of, ha]
  | [x], _, hn => by simp [prev_of, ha, hn]
  | x :: y :: rest, hpre, hn => by
    have hy : y.ptr ≠ p := hpre y (by simp)
    have := prev_of_banked p new a tl ha (y :: rest)
      (fun z hz => hpre z (List.mem_cons_of_mem _ hz)) hn
    simpa [prev_of, hy] using this

theorem prev_entry_banked (node new a : MEM_AREA) (pre tl : List MEM_AREA)
    (ha : a.ptr = node.ptr) (hpre : ∀ x ∈ pre, x.ptr ≠ node.ptr) (hn : new.ptr ≠ node.ptr) :
    LISTP_PREV_ENTRY node (pre ++ new :: a :: tl) = some new := by
  have h := prev_of_banked node.ptr new a tl ha pre hpre hn
  cases pre with
  | nil => simpa [LISTP_PREV_ENTRY, hn] using h
  | cons x rest =>
    have hx : x.ptr ≠ node.ptr := hpre x (by simp)
    simpa [LISTP_PREV_ENTRY, hx] using h

/-! ## Well-formed states -/

theorem wf_active_fits {L : Layout} {mgr : MEM_MGR} {sys : Sys} (h : WF L mgr sys) :
    fits L mgr.active_area :=
  (h.2.1 _ h.2.2.2.1).2.2

theorem wf_linked {L : Layout} {mgr : MEM_MGR} {sys : Sys} (h : WF L mgr sys) :
    Linked mgr sys :=
  ⟨fun a ha => (h.2.1 a ha).2.1, h.2.2.1, h.2.2.2.1⟩

theorem wf_ptr_le {L : Layout} {mgr : MEM_MGR} {sys : Sys} (h : WF L mgr sys) :
    ptr_le mgr.obj mgr.obj_limit := by
  have hfit := wf_active_fits h
  obtain ⟨_, _, _, _, hlim, i, hi, hobj⟩ := h
  rw [hlim, hobj]
  exact slot_le hfit hi (Nat.le_refl _)

theorem wf_idx_lt {L : Layout} {mgr : MEM_MGR} {i : Nat}
    (hlim : mgr.obj_limit = slot L mgr.active_area mgr.active_area.size)
    (hi : i ≤ mgr.active_area.size) (hobj : mgr.obj = slot L mgr.active_area i)
    (hne : mgr.obj ≠ mgr.obj_limit) : i < mgr.active_area.size := by
  rcases Nat.lt_or_ge i mgr.active_area.size with h | h
  · exact h
  · have : i = mgr.active_area.size := Nat.le_antisymm hi h
    rw [hlim, hobj, this] at hne
    exact absurd rfl hne

theorem wf_bump_le {L : Layout} {mgr : MEM_MGR} {sys : Sys} (h : WF L mgr sys)
    (hne : mgr.obj ≠ mgr.obj_limit) : ptr_le (obj_add L mgr.obj 1) mgr.obj_limit := by
  have hfit := wf_active_fits h
  obtain ⟨_, _, _, _, hlim, i, hi, hobj⟩ := h
  have hlt : i < mgr.active_area.size := wf_idx_lt hlim hi hobj hne
  rw [hlim, hobj, obj_add_slot]
  exact slot_le hfit hlt (Nat.le_refl _)

theorem wf_prev_pos {L : Layout} {mgr : MEM_MGR} {sys : Sys} (h : WF L mgr sys)
    {area : MEM_AREA} (hp : LISTP_PREV_ENTRY mgr.active_area mgr.area_list = some area) :
    0 < area.size :=
  (h.2.1 area (prev_entry_mem _ _ _ hp)).1

theorem wf_prev_fits {L : Layout} {mgr : MEM_MGR} {sys : Sys} (h : WF L mgr sys)
    {area : MEM_AREA} (hp : LISTP_PREV_ENTRY mgr.active_area mgr.area_list = some area) :
    fits L area :=
  (h.2.1 area (prev_entry_mem _ _ _ hp)).2.2

theorem wf_bump {L : Layout} {mgr : MEM_MGR} {sys sys1 : Sys} (h : WF L mgr sys)
    (hne : mgr.obj ≠ mgr.obj_limit) (hn : sys.next ≤ sys1.next) :
    WF L { mgr with obj := obj_add L mgr.obj 1 } sys1 := by
  obtain ⟨ho, hall, hnd, hact, hlim, i, hi, hobj⟩ := h
  have hlt : i < mgr.active_area.size := wf_idx_lt hlim hi hobj hne
  refine ⟨ho, fun a ha => ⟨(hall a ha).1, Nat.lt_of_lt_of_le (hall a ha).2.1 hn,
    (hall a ha).2.2⟩, hnd, hact, hlim, i + 1, hlt, ?_⟩
  simp only [hobj, obj_add_slot]

theorem wf_frame {L : Layout} {mgr mgr1 : MEM_MGR} {sys sys1 : Sys} (h : WF L mgr sys)
    (hl : mgr1.area_list = mgr.area_list) (ho : mgr1.obj = mgr.obj)
    (hlim : mgr1.obj_limit = mgr.obj_limit) (ha : mgr1.active_area = mgr.active_area)
    (hn : sys.next ≤ sys1.next) : WF L mgr1 sys1 := by
  obtain ⟨hobj, hall, hnd, hact, hlim0, hi⟩ := h
  refine ⟨hobj, ?_, ?_, ?_, ?_, ?_⟩
  · intro a hmem
    rw [hl] at hmem
    exact ⟨(hall a hmem).1, Nat.lt_of_lt_of_le (hall a hmem).2.1 hn, (hall a hmem).2.2⟩
  · rw [hl]; exact hnd
  · rw [hl, ha]; exact hact
  · rw [hlim, ha]; exact hlim0
  · rw [ho, ha]; exact hi

theorem wf_activate {L : Layout} {mgr : MEM_MGR} {sys sys1 : Sys} (h : WF L mgr sys)
    (area : MEM_AREA) (hm : area ∈ mgr.area_list) (sz : Nat) (hn : sys.next ≤ sys1.next) :
    WF L { mgr with
            size := sz
            obj := obj_add L (area_objs L area) 1
            obj_limit := obj_add L (area_objs L area) area.size
            active_area := area } sys1 := by
  obtain ⟨ho, hall, hnd, _, _, _⟩ := h
  exact ⟨ho, fun a ha => ⟨(hall a ha).1, Nat.lt_of_lt_of_le (hall a ha).2.1 hn,
    (hall a ha).2.2⟩, hnd, hm, rfl, 1, (hall area hm).1, rfl⟩

theorem wf_add {L : Layout} {mgr : MEM_MGR} {sys sys1 : Sys} (h : WF L mgr sys)
    (size : Nat) (hsz : size ≠ 0) (hfit : L.area + L.obj * size < SIZE_MOD)
    (hn : sys.next + 1 ≤ sys1.next) :
    WF L { mgr with area_list := ⟨⟨sys.next, 0⟩, size⟩ :: mgr.area_list } sys1 := by
  obtain ⟨ho, hall, hnd, hact, hlim, hi⟩ := h
  refine ⟨ho, ?_, ?_, List.mem_cons_of_mem _ hact, hlim, hi⟩
  · intro a ha
    rcases List.mem_cons.mp ha with rfl | ha
    · exact ⟨Nat.pos_of_ne_zero hsz, hn, fits_new sys.next hfit⟩
    · exact ⟨(hall a ha).1, by have := (hall a ha).2.1; omega, (hall a ha).2.2⟩
  · simp only [List.map_cons, List.nodup_cons]
    refine ⟨?_, hnd⟩
    intro hmem
    obtain ⟨b, hb, hbp⟩ := List.mem_map.mp hmem
    have := (hall b hb).2.1
    rw [hbp] at this
    simp at this

/-- The six ways a call of `get_mem_obj_from_mgr_enlarge` goes on a manager whose arena list
is linked; where a slot is taken, the `assert` at the end decides between returning and
stopping. -/
theorem get_shape (L : Layout) {mgr : MEM_MGR} {sys : Sys} (h : Linked mgr sys) (size : Nat)
    (oks : List Bool) :
    (∃ x fl, mgr.free_list = x :: fl ∧
      get_mem_obj_from_mgr_enlarge L mgr size oks sys =
        if ptr_le mgr.obj mgr.obj_limit then
          Run.done (some x, { mgr with free_list := fl },
            ⟨sys.next, sys.trace ++ [Event.lock, Event.access, Event.access, Event.unlock]⟩)
        else Run.abort) ∨
    (mgr.free_list = [] ∧ mgr.obj ≠ mgr.obj_limit ∧
      get_mem_obj_from_mgr_enlarge L mgr size oks sys =
        if ptr_le (obj_add L mgr.obj 1) mgr.obj_limit then
          Run.done (some mgr.obj, { mgr with obj := obj_add L mgr.obj 1 },
            ⟨sys.next, sys.trace ++ [Event.lock, Event.access, Event.access, Event.unlock]⟩)
        else Run.abort) ∨
    (mgr.free_list = [] ∧ mgr.obj = mgr.obj_limit ∧
      ∃ area, LISTP_PREV_ENTRY mgr.active_area mgr.area_list = some area ∧
      get_mem_obj_from_mgr_enlarge L mgr size oks sys =
        if ptr_le (slot L area 1) (slot L area area.size) then
          Run.done (some (area_objs L area),
            { mgr with
                size := size_add mgr.size area.size
                obj := obj_add L (area_objs L area) 1
                obj_limit := obj_add L (area_objs L area) area.size
                active_area := area },
            ⟨sys.next, sys.trace ++ [Event.lock, Event.access, Event.access, Event.access,
              Event.access, Event.unlock]⟩)
        else Run.abort) ∨
    (mgr.free_list = [] ∧ mgr.obj = mgr.obj_limit ∧
      LISTP_PREV_ENTRY mgr.active_area mgr.area_list = none ∧ size = 0 ∧
      get_mem_obj_from_mgr_enlarge L mgr size oks sys =
        Run.done (none, mgr,
          ⟨sys.next, sys.trace ++ [Event.lock, Event.access, Event.access, Event.unlock]⟩)) ∨
    (mgr.free_list = [] ∧ mgr.obj = mgr.obj_limit ∧
      LISTP_PREV_ENTRY mgr.active_area mgr.area_list = none ∧ size ≠ 0 ∧
      first_ok oks = false ∧
      get_mem_obj_from_mgr_enlarge L mgr size oks sys =
        Run.done (none, mgr,
          ⟨sys.next, sys.trace ++ [Event.lock, Event.access, Event.access, Event.unlock,
            Event.malloc (AREA_MEM_SIZE L size) none]⟩)) ∨
    (mgr.free_list = [] ∧ mgr.obj = mgr.obj_limit ∧
      LISTP_PREV_ENTRY mgr.active_area mgr.area_list = none ∧ size ≠ 0 ∧
      first_ok oks = true ∧
      get_mem_obj_from_mgr_enlarge L mgr size oks sys =
        if ptr_le (slot L ⟨⟨sys.next, 0⟩, size⟩ 1) (slot L ⟨⟨sys.next, 0⟩, size⟩ size) then
          Run.done (some (area_objs L ⟨⟨sys.next, 0⟩, size⟩),
            { mgr with
                area_list := ⟨⟨sys.next, 0⟩, size⟩ :: mgr.area_list
                size := size_add mgr.size size
                obj := obj_add L (area_objs L ⟨⟨sys.next, 0⟩, size⟩) 1
                obj_limit := obj_add L (area_objs L ⟨⟨sys.next, 0⟩, size⟩) size
                active_area := ⟨⟨sys.next, 0⟩, size⟩ },
            ⟨sys.next + 1, sys.trace ++ [Event.lock, Event.access, Event.access, Event.unlock,
              Event.malloc (AREA_MEM_SIZE L size) (some ⟨sys.next, 0⟩), Event.lock,
              Event.access, Event.access, Event.access, Event.access, Event.access,
              Event.unlock]⟩)
        else Run.abort) := by
  by_cases hfl : mgr.free_list = []
  · refine Or.inr ?_
    by_cases he : mgr.obj = mgr.obj_limit
    · refine Or.inr ?_
      rcases hp : LISTP_PREV_ENTRY mgr.active_area mgr.area_list with _ | area
      · refine Or.inr ?_
        by_cases hsz : size = 0
        · subst hsz
          exact Or.inl ⟨hfl, he, rfl, rfl, get_none_nohint L mgr oks sys hfl he hp⟩
        · refine Or.inr ?_
          rcases hok : first_ok oks with _ | _
          · exact Or.inl ⟨hfl, he, rfl, hsz, rfl,
              get_none_malloc_fails L mgr size oks sys hsz hfl he hp hok⟩
          · refine Or.inr ⟨hfl, he, rfl, hsz, rfl, ?_⟩
            obtain ⟨a, tl, hl, ha⟩ := prev_entry_none_head _ _ h.2.2 hp
            cases oks with
            | nil => simp [first_ok] at hok
            | cons ok rest =>
              simp only [first_ok] at hok
              subst hok
              exact get_grow_eq L mgr size rest sys a tl hsz hfl he hl ha (h.1 _ h.2.2)
      · exact Or.inl ⟨hfl, he, area, rfl, get_banked_eq L mgr size oks sys area hfl he hp⟩
    · exact Or.inl ⟨hfl, he, get_bump_eq L mgr size oks sys hfl he⟩
  · obtain ⟨x, fl, hx⟩ := List.exists_cons_of_ne_nil hfl
    exact Or.inl ⟨x, fl, hx, get_pop_eq L mgr size oks sys x fl hx⟩

/-- The six ways a call of `get_mem_obj_from_mgr_enlarge` that returns has gone, on a manager
whose arena list is linked; where a slot was taken, the `assert` has passed. -/
theorem get_returns (L : Layout) {mgr : MEM_MGR} {sys : Sys} (h : Linked mgr sys) (size : Nat)
    (oks : List Bool) (r : Option Ptr) (mgr1 : MEM_MGR) (sys1 : Sys)
    (hr : get_mem_obj_from_mgr_enlarge L mgr size oks sys = Run.done (r, mgr1, sys1)) :
    (∃ x fl, mgr.free_list = x :: fl ∧ ptr_le mgr.obj mgr.obj_limit ∧
      get_mem_obj_from_mgr_enlarge L mgr size oks sys =
        Run.done (some x, { mgr with free_list := fl },
          ⟨sys.next, sys.trace ++ [Event.lock, Event.access, Event.access, Event.unlock]⟩)) ∨
    (mgr.free_list = [] ∧ mgr.obj ≠ mgr.obj_limit ∧
      ptr_le (obj_add L mgr.obj 1) mgr.obj_limit ∧
      get_mem_obj_from_mgr_enlarge L mgr size oks sys =
        Run.done (some mgr.obj, { mgr with obj := obj_add L mgr.obj 1 },
          ⟨sys.next, sys.trace ++ [Event.lock, Event.access, Event.access, Event.unlock]⟩)) ∨
    (mgr.free_list = [] ∧ mgr.obj = mgr.obj_limit ∧
      ∃ area, LISTP_PREV_ENTRY mgr.active_area mgr.area_list = some area ∧
      ptr_le (slot L area 1) (slot L area area.size) ∧
      get_mem_obj_from_mgr_enlarge L mgr size oks sys =
        Run.done (some (area_objs L area),
          { mgr with
              size := size_add mgr.size area.size
              obj := obj_add L (area_objs L area) 1
              obj_limit := obj_add L (area_objs L area) area.size
              active_area := area },
          ⟨sys.next, sys.trace ++ [Event.lock, Event.access, Event.access, Event.access,
            Event.access, Event.unlock]⟩)) ∨
    (mgr.free_list = [] ∧ mgr.obj = mgr.obj_limit ∧
      LISTP_PREV_ENTRY mgr.active_area mgr.area_list = none ∧ size = 0 ∧
      get_mem_obj_from_mgr_enlarge L mgr size oks sys =
        Run.done (none, mgr,
          ⟨sys.next, sys.trace ++ [Event.lock, Event.access, Event.access, Event.unlock]⟩)) ∨
    (mgr.free_list = [] ∧ mgr.obj = mgr.obj_limit ∧
      LISTP_PREV_ENTRY mgr.active_area mgr.area_list = none ∧ size ≠ 0 ∧
      first_ok oks = false ∧
      get_mem_obj_from_mgr_enlarge L mgr size oks sys =
        Run.done (none, mgr,
          ⟨sys.next, sys.trace ++ [Event.lock, Event.access, Event.access, Event.unlock,
            Event.malloc (AREA_MEM_SIZE L size) none]⟩)) ∨
    (mgr.free_list = [] ∧ mgr.obj = mgr.obj_limit ∧
      LISTP_PREV_ENTRY mgr.active_area mgr.area_list = none ∧ size ≠ 0 ∧
      first_ok oks = true ∧
      ptr_le (slot L ⟨⟨sys.next, 0⟩, size⟩ 1) (slot L ⟨⟨sys.next, 0⟩, size⟩ size) ∧
      get_mem_obj_from_mgr_enlarge L mgr size oks sys =
        Run.done (some (area_objs L ⟨⟨sys.next, 0⟩, size⟩),
          { mgr with
              area_list := ⟨⟨sys.next, 0⟩, size⟩ :: mgr.area_list
              size := size_add mgr.size size
              obj := obj_add L (area_objs L ⟨⟨sys.next, 0⟩, size⟩) 1
              obj_limit := obj_add L (area_objs L ⟨⟨sys.next, 0⟩, size⟩) size
              active_area := ⟨⟨sys.next, 0⟩, size⟩ },
          ⟨sys.next + 1, sys.trace ++ [Event.lock, Event.access, Event.access, Event.unlock,
            Event.malloc (AREA_MEM_SIZE L size) (some ⟨sys.next, 0⟩), Event.lock,
            Event.access, Event.access, Event.access, Event.access, Event.access,
            Event.unlock]⟩)) := by
  rcases get_shape L h size oks with ⟨x, fl, hf, hg⟩ | ⟨hf, hne, hg⟩ |
    ⟨hf, he, area, hp, hg⟩ | h4 | h5 | ⟨hf, he, hp, hsz, hok, hg⟩
  · by_cases hc : ptr_le mgr.obj mgr.obj_limit
    · rw [if_pos hc] at hg
      exact Or.inl ⟨x, fl, hf, hc, hg⟩
    · rw [hg, if_neg hc] at hr; cases hr
  · by_cases hc : ptr_le (obj_add L mgr.obj 1) mgr.obj_limit
    · rw [if_pos hc] at hg
      exact Or.inr (Or.inl ⟨hf, hne, hc, hg⟩)
    · rw [hg, if_neg hc] at hr; cases hr
  · by_cases hc : ptr_le (slot L area 1) (slot L area area.size)
    · rw [if_pos hc] at hg
      exact Or.inr (Or.inr (Or.inl ⟨hf, he, area, hp, hc, hg⟩))
    · rw [hg, if_neg hc] at hr; cases hr
  · exact Or.inr (Or.inr (Or.inr (Or.inl h4)))
  · exact Or.inr (Or.inr (Or.inr (Or.inr (Or.inl h5))))
  · by_cases hc : ptr_le (slot L ⟨⟨sys.next, 0⟩, size⟩ 1) (slot L ⟨⟨sys.next, 0⟩, size⟩ size)
    · rw [if_pos hc] at hg
      exact Or.inr (Or.inr (Or.inr (Or.inr (Or.inr ⟨hf, he, hp, hsz, hok, hc, hg⟩))))
    · rw [hg, if_neg hc] at hr; cases hr

/-- An acquisition that `step` accepts has returned. -/
theorem step_get_done {L : Layout} {st st1 : St} {size : Nat} {oks : List Bool}
    (hs : step L (Op.get size oks) st = some st1) :
    ∃ r mgr1 sys1,
      get_mem_obj_from_mgr_enlarge L st.mgr size oks st.sys = Run.done (r, mgr1, sys1) := by
  simp only [step] at hs
  cases hg : get_mem_obj_from_mgr_enlarge L st.mgr size oks st.sys with
  | abort => simp [hg] at hs
  | done res => exact ⟨res.1, res.2.1, res.2.2, rfl⟩

/-- The six ways a call of `get_mem_obj_from_mgr_enlarge` on a well-formed manager ends, when
the hint is absent or has a byte size that does not overflow. -/
theorem get_cases {L : Layout} {mgr : MEM_MGR} {sys : Sys} (h : WF L mgr sys) (size : Nat)
    (oks : List Bool) (hfit : hint_fits L size) :
    (∃ x fl, mgr.free_list = x :: fl ∧
      get_mem_obj_from_mgr_enlarge L mgr size oks sys =
        Run.done (some x, { mgr with free_list := fl },
          ⟨sys.next, sys.trace ++ [Event.lock, Event.access, Event.access, Event.unlock]⟩)) ∨
    (mgr.free_list = [] ∧ mgr.obj ≠ mgr.obj_limit ∧
      get_mem_obj_from_mgr_enlarge L mgr size oks sys =
        Run.done (some mgr.obj, { mgr with obj := obj_add L mgr.obj 1 },
          ⟨sys.next, sys.trace ++ [Event.lock, Event.access, Event.access, Event.unlock]⟩)) ∨
    (mgr.free_list = [] ∧ mgr.obj = mgr.obj_limit ∧
      ∃ area, LISTP_PREV_ENTRY mgr.active_area mgr.area_list = some area ∧
      get_mem_obj_from_mgr_enlarge L mgr size oks sys =
        Run.done (some (area_objs L area),
          { mgr with
              size := size_add mgr.size area.size
              obj := obj_add L (area_objs L area) 1
              obj_limit := obj_add L (area_objs L area) area.size
              active_area := area },
          ⟨sys.next, sys.trace ++ [Event.lock, Event.access, Event.access, Event.access,
            Event.access, Event.unlock]⟩)) ∨
    (mgr.free_list = [] ∧ mgr.obj = mgr.obj_limit ∧
      LISTP_PREV_ENTRY mgr.active_area mgr.area_list = none ∧ size = 0 ∧
      get_mem_obj_from_mgr_enlarge L mgr size oks sys =
        Run.done (none, mgr,
          ⟨sys.next, sys.trace ++ [Event.lock, Event.access, Event.access, Event.unlock]⟩)) ∨
    (mgr.free_list = [] ∧ mgr.obj = mgr.obj_limit ∧
      LISTP_PREV_ENTRY mgr.active_area mgr.area_list = none ∧ size ≠ 0 ∧
      first_ok oks = false ∧
      get_mem_obj_from_mgr_enlarge L mgr size oks sys =
        Run.done (none, mgr,
          ⟨sys.next, sys.trace ++ [Event.lock, Event.access, Event.access, Event.unlock,
            Event.malloc (AREA_MEM_SIZE L size) none]⟩)) ∨
    (mgr.free_list = [] ∧ mgr.obj = mgr.obj_limit ∧
      LISTP_PREV_ENTRY mgr.active_area mgr.area_list = none ∧ size ≠ 0 ∧
      first_ok oks = true ∧
      get_mem_obj_from_mgr_enlarge L mgr size oks sys =
        Run.done (some (area_objs L ⟨⟨sys.next, 0⟩, size⟩),
          { mgr with
              area_list := ⟨⟨sys.next, 0⟩, size⟩ :: mgr.area_list
              size := size_add mgr.size size
              obj := obj_add L (area_objs L ⟨⟨sys.next, 0⟩, size⟩) 1
              obj_limit := obj_add L (area_objs L ⟨⟨sys.next, 0⟩, size⟩) size
              active_area := ⟨⟨sys.next, 0⟩, size⟩ },
          ⟨sys.next + 1, sys.trace ++ [Event.lock, Event.access, Event.access, Event.unlock,
            Event.malloc (AREA_MEM_SIZE L size) (some ⟨sys.next, 0⟩), Event.lock,
            Event.access, Event.access, Event.access, Event.access, Event.access,
            Event.unlock]⟩)) := by
  rcases get_shape L (wf_linked h) size oks with ⟨x, fl, hf, hg⟩ | ⟨hf, hne, hg⟩ |
    ⟨hf, he, area, hp, hg⟩ | h4 | h5 | ⟨hf, he, hp, hsz, hok, hg⟩
  · rw [if_pos (wf_ptr_le h)] at hg
    exact Or.inl ⟨x, fl, hf, hg⟩
  · rw [if_pos (wf_bump_le h hne)] at hg
    exact Or.inr (Or.inl ⟨hf, hne, hg⟩)
  · rw [if_pos (first_slot_le (wf_prev_pos h hp) (wf_prev_fits h hp))] at hg
    exact Or.inr (Or.inr (Or.inl ⟨hf, he, area, hp, hg⟩))
  · exact Or.inr (Or.inr (Or.inr (Or.inl h4)))
  · exact Or.inr (Or.inr (Or.inr (Or.inr (Or.inl h5))))
  · have hft : L.area + L.obj * size < SIZE_MOD := by
      rcases hfit with h0 | h0
      · exact absurd h0 hsz
      · exact h0
    rw [if_pos (first_slot_le (Nat.pos_of_ne_zero hsz) (fits_new sys.next hft))] at hg
    exact Or.inr (Or.inr (Or.inr (Or.inr (Or.inr ⟨hf, he, hp, hsz, hok, hg⟩))))

/-- An acquisition on a well-formed manager, with a hint whose byte size does not overflow,
never fails an `assert`, and leaves the manager well formed. -/
theorem get_wf {L : Layout} {mgr : MEM_MGR} {sys : Sys} (h : WF L mgr sys) (size : Nat)
    (oks : List Bool) (hfit : hint_fits L size) :
    ∃ r mgr1 sys1, get_mem_obj_from_mgr_enlarge L mgr size oks sys = Run.done (r, mgr1, sys1) ∧
      WF L mgr1 sys1 := by
  rcases get_cases h size oks hfit with ⟨x, fl, _, hg⟩ | ⟨_, hne, hg⟩ | ⟨_, _, area, hp, hg⟩ |
    ⟨_, _, _, _, hg⟩ | ⟨_, _, _, _, _, hg⟩ | ⟨_, _, _, hsz, _, hg⟩
  · exact ⟨_, _, _, hg, wf_frame h rfl rfl rfl rfl (Nat.le_refl _)⟩
  · exact ⟨_, _, _, hg, wf_bump h hne (Nat.le_refl _)⟩
  · exact ⟨_, _, _, hg, wf_activate h area (prev_entry_mem _ _ _ hp) _ (Nat.le_refl _)⟩
  · exact ⟨_, _, _, hg, wf_frame h rfl rfl rfl rfl (Nat.le_refl _)⟩
  · exact ⟨_, _, _, hg, wf_frame h rfl rfl rfl rfl (Nat.le_refl _)⟩
  · refine ⟨_, _, _, hg, ?_⟩
    have hft : L.area + L.obj * size < SIZE_MOD := by
      rcases hfit with h0 | h0
      · exact absurd h0 hsz
      · exact h0
    have h1 : WF L { mgr with area_list := ⟨⟨sys.next, 0⟩, size⟩ :: mgr.area_list }
        ⟨sys.next + 1, sys.trace⟩ := wf_add h size hsz hft (Nat.le_refl _)
    exact wf_activate h1 ⟨⟨sys.next, 0⟩, size⟩ (by simp) _ (Nat.le_refl _)

theorem enlarge_ok (L : Layout) (mgr : MEM_MGR) (size : Nat) (sys : Sys) (hsz : size ≠ 0) :
    enlarge_mem_mgr L mgr size true sys =
      Run.done (some mgr.self, { mgr with area_list := ⟨⟨sys.next, 0⟩, size⟩ :: mgr.area_list },
        ⟨sys.next + 1, sys.trace ++ [Event.malloc (AREA_MEM_SIZE L size) (some ⟨sys.next, 0⟩),
          Event.lock, Event.access, Event.unlock]⟩) := by
  simp [enlarge_mem_mgr, hsz, system_malloc, SYSTEM_LOCK, SYSTEM_UNLOCK, emit_eq, LISTP_ADD]

theorem enlarge_fails (L : Layout) (mgr : MEM_MGR) (size : Nat) (sys : Sys) (hsz : size ≠ 0) :
    enlarge_mem_mgr L mgr size false sys =
      Run.done (none, mgr,
        ⟨sys.next, sys.trace ++ [Event.malloc (AREA_MEM_SIZE L size) none]⟩) := by
  simp [enlarge_mem_mgr, hsz, system_malloc, emit_eq]

theorem enlarge_abort (L : Layout) (mgr : MEM_MGR) (ok : Bool) (sys : Sys) :
    enlarge_mem_mgr L mgr 0 ok sys = Run.abort := by
  simp [enlarge_mem_mgr]

theorem free_eq (mgr : MEM_MGR) (obj : Ptr) (sys : Sys) :
    free_mem_obj_to_mgr mgr obj sys =
      ({ mgr with free_list := obj :: mgr.free_list },
        ⟨sys.next, sys.trace ++ [Event.lock, Event.access, Event.unlock]⟩) := by
  simp [free_mem_obj_to_mgr, SYSTEM_LOCK, SYSTEM_UNLOCK, emit_eq, LISTP_ADD]

theorem create_wf (L : Layout) (C : Nat) (sys : Sys) (mgr : MEM_MGR) (sys1 : Sys)
    (ho : 0 < L.obj) (hfit : L.mgr + L.area + L.obj * C < SIZE_MOD) (ok : Bool)
    (h : create_mem_mgr L C ok sys = Run.done (some mgr, sys1)) : WF L mgr sys1 := by
  have hC : 0 < C := by
    rcases Nat.eq_zero_or_pos C with h0 | h0
    · subst h0; simp [create_mem_mgr] at h
    · exact h0
  cases ok with
  | false => rw [create_fails L C sys hC] at h; simp at h
  | true =>
    rw [create_ok L C sys hC] at h
    simp only [Run.done.injEq, Prod.mk.injEq, Option.some.injEq] at h
    obtain ⟨rfl, rfl⟩ := h
    exact ⟨ho, by simpa using ⟨hC, fits_embedded sys.next hfit⟩, by simp, by simp, rfl, 0,
      Nat.zero_le _, rfl⟩

/-- One operation whose capacity fits keeps the manager well formed. -/
theorem wf_step {L : Layout} {st st1 : St} {op : Op} (hw : WF L st.mgr st.sys)
    (hfit : op_fits L op) (hs : step L op st = some st1) : WF L st1.mgr st1.sys := by
  cases op with
  | get size oks =>
    obtain ⟨r, mgr1, sys1, hg, hw1⟩ := get_wf hw size oks hfit
    simp only [step, hg] at hs
    cases r with
    | none => simp only [Option.some.injEq] at hs; subst hs; exact hw1
    | some p => simp only [Option.some.injEq] at hs; subst hs; exact hw1
  | release obj =>
    simp only [step] at hs
    by_cases hm : obj ∈ st.live
    · simp only [hm, if_true, Option.some.injEq] at hs
      subst hs
      simp only [free_eq]
      exact wf_frame hw rfl rfl rfl rfl (Nat.le_refl _)
    · simp [hm] at hs
  | enlarge size ok =>
    simp only [step] at hs
    by_cases hsz : size = 0
    · subst hsz; simp [enlarge_abort] at hs
    · cases ok with
      | false =>
        simp only [enlarge_fails L _ size _ hsz, Option.some.injEq] at hs
        subst hs
        exact wf_frame hw rfl rfl rfl rfl (Nat.le_refl _)
      | true =>
        simp only [enlarge_ok L _ size _ hsz, Option.some.injEq] at hs
        subst hs
        exact wf_add hw size hsz hfit (Nat.le_refl _)

/-- Every state reachable with capacities that fit is well formed. -/
theorem reachable_wf {L : Layout} {C : Nat} {st : St} (h : FitReachable L C st) :
    WF L st.mgr st.sys := by
  induction h with
  | create next mgr sys ho hfit hc => exact create_wf L C _ mgr sys ho hfit true hc
  | after op st st1 _ hfit hs ih => exact wf_step ih hfit hs

/-- A state reachable with capacities that fit is reachable. -/
theorem fit_reachable {L : Layout} {C : Nat} {st : St} (h : FitReachable L C st) :
    Reachable L C st := by
  induction h with
  | create next mgr sys ho _ hc => exact Reachable.create next mgr sys ho hc
  | after op st st1 _ _ hs ih => exact Reachable.after op st st1 ih hs

/-! ## The slots handed out -/

theorem mem_slots_upto (L : Layout) (a : MEM_AREA) (k : Nat) (p : Ptr) :
    p ∈ slots_upto L a k ↔ ∃ i, i < k ∧ slot L a i = p := by
  simp [slots_upto, List.mem_map, List.mem_range]

theorem mem_arena_slots (L : Layout) (p : Ptr) : ∀ (l : List MEM_AREA),
    p ∈ arena_slots L l ↔ ∃ b, b ∈ l ∧ ∃ i, i < b.size ∧ slot L b i = p
  | [] => by simp [arena_slots]
  | a :: rest => by
    simp only [arena_slots, List.mem_append, mem_slots_upto, mem_arena_slots L p rest,
      List.mem_cons]
    constructor
    · rintro (h | ⟨b, hb, h⟩)
      · exact ⟨a, Or.inl rfl, h⟩
      · exact ⟨b, Or.inr hb, h⟩
    · rintro ⟨b, rfl | hb, h⟩
      · exact Or.inl h
      · exact Or.inr ⟨b, hb, h⟩

theorem nodup_slots_upto (L : Layout) (a : MEM_AREA) (k : Nat) (ho : 0 < L.obj)
    (hf : fits L a) (hk : k ≤ a.size) : (slots_upto L a k).Nodup := by
  refine List.Nodup.map_on ?_ (List.nodup_range k)
  intro i hi j hj h
  have hi1 := List.mem_range.mp hi
  have hj1 := List.mem_range.mp hj
  exact slot_inj L a i j ho hf (by omega) (by omega) h

theorem nodup_arena_slots (L : Layout) (ho : 0 < L.obj) : ∀ (l : List MEM_AREA),
    (∀ a ∈ l, fits L a) → (l.map (fun a => a.ptr.block)).Nodup → (arena_slots L l).Nodup
  | [], _, _ => by simp [arena_slots]
  | a :: rest, hf, h => by
    simp only [List.map_cons, List.nodup_cons] at h
    simp only [arena_slots]
    refine List.nodup_append.mpr ⟨nodup_slots_upto L a a.size ho (hf a (by simp))
      (Nat.le_refl _),
      nodup_arena_slots L ho rest (fun b hb => hf b (List.mem_cons_of_mem _ hb)) h.2, ?_⟩
    intro p hp1 hp2
    obtain ⟨i, _, hi⟩ := (mem_slots_upto L a a.size p).mp hp1
    obtain ⟨b, hb, j, _, hj⟩ := (mem_arena_slots L p rest).mp hp2
    apply h.1
    have : a.ptr.block = b.ptr.block := by
      rw [← slot_block L a i, ← slot_block L b j, hi, hj]
    rw [this]
    exact List.mem_map.mpr ⟨b, hb, rfl⟩

theorem nodup_handed (L : Layout) (ho : 0 < L.obj) (a : MEM_AREA) (post : List MEM_AREA)
    (idx : Nat) (hf : ∀ b ∈ a :: post, fits L b) (hidx : idx ≤ a.size)
    (h : ((a :: post).map (fun a => a.ptr.block)).Nodup) :
    (slots_upto L a idx ++ arena_slots L post).Nodup := by
  simp only [List.map_cons, List.nodup_cons] at h
  refine List.nodup_append.mpr ⟨nodup_slots_upto L a idx ho (hf a (by simp)) hidx,
    nodup_arena_slots L ho post (fun b hb => hf b (List.mem_cons_of_mem _ hb)) h.2, ?_⟩
  intro p hp1 hp2
  obtain ⟨i, _, hi⟩ := (mem_slots_upto L a idx p).mp hp1
  obtain ⟨b, hb, j, _, hj⟩ := (mem_arena_slots L p post).mp hp2
  apply h.1
  have : a.ptr.block = b.ptr.block := by
    rw [← slot_block L a i, ← slot_block L b j, hi, hj]
  rw [this]
  exact List.mem_map.mpr ⟨b, hb, rfl⟩

theorem slots_upto_succ (L : Layout) (a : MEM_AREA) (k : Nat) :
    slots_upto L a (k + 1) = slots_upto L a k ++ [slot L a k] := by
  simp [slots_upto, List.range_succ]

/-- In a list without two arenas in one block, no two arenas have the same address. -/
theorem nodup_ptr_of_block (l : List MEM_AREA)
    (h : (l.map (fun a => a.ptr.block)).Nodup) : (l.map MEM_AREA.ptr).Nodup := by
  have : l.map (fun a => a.ptr.block) = (l.map MEM_AREA.ptr).map Ptr.block := by simp
  rw [this] at h
  exact List.Nodup.of_map _ h

/-- The arenas in front of the active arena have other addresses. -/
theorem pre_ne_active (pre post : List MEM_AREA) (a : MEM_AREA)
    (h : ((pre ++ a :: post).map MEM_AREA.ptr).Nodup) : ∀ x ∈ pre, x.ptr ≠ a.ptr := by
  intro x hx hxa
  simp only [List.map_append, List.map_cons] at h
  have hd := List.disjoint_of_nodup_append h
  exact hd (List.mem_map.mpr ⟨x, hx, rfl⟩) (by simp [hxa])

theorem prev_entry_split (pre post : List MEM_AREA) (a : MEM_AREA)
    (h : ((pre ++ a :: post).map MEM_AREA.ptr).Nodup) :
    (pre = [] ∧ LISTP_PREV_ENTRY a (pre ++ a :: post) = none) ∨
    (∃ pre1 b, pre = pre1 ++ [b] ∧ LISTP_PREV_ENTRY a (pre ++ a :: post) = some b) := by
  rcases List.eq_nil_or_concat pre with h0 | ⟨pre1, b, h1⟩
  · left
    subst h0
    exact ⟨rfl, by simp [LISTP_PREV_ENTRY]⟩
  · right
    rw [List.concat_eq_append] at h1
    subst h1
    refine ⟨pre1, b, rfl, ?_⟩
    have hne := pre_ne_active (pre1 ++ [b]) post a h
    have := prev_entry_banked a b a pre1 post rfl
      (fun x hx => hne x (List.mem_append_left _ hx)) (hne b (by simp))
    simpa using this

theorem banked_eq (mgr : MEM_MGR) (pre post : List MEM_AREA)
    (hl : mgr.area_list = pre ++ mgr.active_area :: post)
    (hne : ∀ x ∈ pre, x.ptr ≠ mgr.active_area.ptr) :
    banked mgr = pre ∧ used mgr = mgr.active_area :: post := by
  unfold banked used
  rw [hl]
  clear hl
  induction pre with
  | nil => simp [List.takeWhile_cons, List.dropWhile_cons]
  | cons x rest ih =>
    have hx : x.ptr ≠ mgr.active_area.ptr := hne x (by simp)
    have := ih (fun y hy => hne y (List.mem_cons_of_mem _ hy))
    simp [List.takeWhile_cons, List.dropWhile_cons, hx] at this ⊢
    exact this

theorem part_frame {L : Layout} {st st1 : St} (h : Part L st)
    (hl : st1.mgr.area_list = st.mgr.area_list) (ha : st1.mgr.active_area = st.mgr.active_area)
    (ho : st1.mgr.obj = st.mgr.obj)
    (hp : (st1.mgr.free_list ++ st1.live).Perm (st.mgr.free_list ++ st.live)) :
    Part L st1 := by
  obtain ⟨pre, post, idx, h1, h2, h3, h4, h5⟩ := h
  exact ⟨pre, post, idx, by rw [hl, ha]; exact h1, by rw [hl]; exact h2, by rw [ha]; exact h3,
    by rw [ho, ha]; exact h4, by rw [ha]; exact hp.trans h5⟩

theorem part_add {L : Layout} {st : St} (h : Part L st) (hw : WF L st.mgr st.sys)
    (new : MEM_AREA) (hn : new.ptr.block = st.sys.next) (sys1 : Sys) :
    Part L ⟨{ st.mgr with area_list := new :: st.mgr.area_list }, sys1, st.live⟩ := by
  obtain ⟨pre, post, idx, h1, h2, h3, h4, h5⟩ := h
  refine ⟨new :: pre, post, idx, by simp [h1], ?_, h3, h4, h5⟩
  simp only [List.map_cons, List.nodup_cons]
  refine ⟨?_, h2⟩
  intro hmem
  obtain ⟨b, hb, hbb⟩ := List.mem_map.mp hmem
  have := (hw.2.1 b hb).2.1
  have hbb2 : b.ptr.block = new.ptr.block := hbb
  omega

/-- Activating an arena `b` when the active arena is used up: the active arena joins the
used-up ones and slot 0 of `b` is handed out. -/
theorem part_activate {L : Layout} {st : St} (hw : WF L st.mgr st.sys)
    (pre1 post : List MEM_AREA) (b : MEM_AREA) (idx : Nat)
    (hl : st.mgr.area_list = pre1 ++ b :: st.mgr.active_area :: post)
    (hnd : (st.mgr.area_list.map (fun a => a.ptr.block)).Nodup)
    (hobj : st.mgr.obj = slot L st.mgr.active_area idx)
    (he : st.mgr.obj = st.mgr.obj_limit) (hf : st.mgr.free_list = [])
    (hperm : (st.mgr.free_list ++ st.live).Perm
      (slots_upto L st.mgr.active_area idx ++ arena_slots L post))
    (hidx0 : idx ≤ st.mgr.active_area.size) (sz : Nat) (sys1 : Sys) :
    Part L ⟨{ st.mgr with
              size := sz
              obj := obj_add L (area_objs L b) 1
              obj_limit := obj_add L (area_objs L b) b.size
              active_area := b }, sys1, area_objs L b :: st.live⟩ := by
  have hidx : idx = st.mgr.active_area.size := by
    have h1 := hw.2.2.2.2.1
    rw [← he, hobj] at h1
    exact slot_inj L _ _ _ hw.1 (wf_active_fits hw) hidx0 (Nat.le_refl _) h1
  have hb : b ∈ st.mgr.area_list := by rw [hl]; simp
  refine ⟨pre1, st.mgr.active_area :: post, 1, hl, hnd, (hw.2.1 b hb).1, ?_, ?_⟩
  · exact obj_add_slot L b 0 ▸ (by rw [area_objs_eq_slot])
  · rw [hf, List.nil_append] at hperm
    simp only [hf, List.nil_append, arena_slots]
    rw [← hidx]
    have : slots_upto L b 1 = [area_objs L b] := by
      simp [slots_upto, area_objs_eq_slot, List.range_succ]
    rw [this]
    exact List.Perm.cons _ hperm

theorem part_step {L : Layout} {st st1 : St} {op : Op} (hw : WF L st.mgr st.sys)
    (hp : Part L st) (hfit : op_fits L op) (hs : step L op st = some st1) : Part L st1 := by
  cases op with
  | get size oks =>
    simp only [step] at hs
    obtain ⟨pre, post, idx, hl, hnd, hidx, hobj, hperm⟩ := hp
    have hndp := nodup_ptr_of_block _ hnd
    rw [hl] at hndp
    rcases get_cases hw size oks hfit with ⟨x, fl, hf, hg⟩ | ⟨hf, hne, hg⟩ |
      ⟨hf, he, area, hprev, hg⟩ | ⟨_, _, _, _, hg⟩ | ⟨_, _, _, _, _, hg⟩ |
      ⟨hf, he, hprev, hsz, _, hg⟩
    · simp only [hg, Option.some.injEq] at hs
      subst hs
      refine ⟨pre, post, idx, hl, hnd, hidx, hobj, ?_⟩
      rw [hf] at hperm
      exact (show (fl ++ x :: st.live).Perm (x :: fl ++ st.live) from List.perm_middle).trans
        hperm
    · simp only [hg, Option.some.injEq] at hs
      subst hs
      have hlt : idx < st.mgr.active_area.size := by
        rcases Nat.lt_or_ge idx st.mgr.active_area.size with h | h
        · exact h
        · have : idx = st.mgr.active_area.size := Nat.le_antisymm hidx h
          rw [hw.2.2.2.2.1, hobj, this] at hne
          exact absurd rfl hne
      refine ⟨pre, post, idx + 1, hl, hnd, hlt, ?_, ?_⟩
      · show obj_add L st.mgr.obj 1 = _
        rw [hobj, obj_add_slot]
      · rw [hf, List.nil_append] at hperm
        simp only [hf, List.nil_append, slots_upto_succ, hobj]
        refine (List.Perm.cons _ hperm).trans ?_
        rw [List.append_assoc]
        exact List.perm_middle.symm
    · simp only [hg, Option.some.injEq] at hs
      subst hs
      rcases prev_entry_split pre post st.mgr.active_area hndp with ⟨_, hn⟩ | ⟨pre1, b, hpre, hb⟩
      · rw [hl, hn] at hprev; cases hprev
      · rw [hl, hb] at hprev
        simp only [Option.some.injEq] at hprev
        subst hprev
        exact part_activate hw pre1 post b idx (by rw [hl, hpre]; simp) hnd hobj he hf hperm
          hidx _ _
    · simp only [hg, Option.some.injEq] at hs
      subst hs
      exact ⟨pre, post, idx, hl, hnd, hidx, hobj, hperm⟩
    · simp only [hg, Option.some.injEq] at hs
      subst hs
      exact ⟨pre, post, idx, hl, hnd, hidx, hobj, hperm⟩
    · simp only [hg, Option.some.injEq] at hs
      subst hs
      rcases prev_entry_split pre post st.mgr.active_area hndp with ⟨hpre, _⟩ | ⟨pre1, b, _, hb⟩
      · subst hpre
        have h1 : Part L ⟨{ st.mgr with area_list := ⟨⟨st.sys.next, 0⟩, size⟩ :: st.mgr.area_list },
            st.sys, st.live⟩ :=
          part_add ⟨[], post, idx, hl, hnd, hidx, hobj, hperm⟩ hw _ rfl _
        have hw1 : WF L { st.mgr with area_list := ⟨⟨st.sys.next, 0⟩, size⟩ :: st.mgr.area_list }
            ⟨st.sys.next + 1, st.sys.trace⟩ :=
          wf_add hw size hsz (hfit.resolve_left hsz) (Nat.le_refl _)
        obtain ⟨_, _, _, _, hnd1, _, _, _⟩ := h1
        exact @part_activate L
          ⟨{ st.mgr with area_list := ⟨⟨st.sys.next, 0⟩, size⟩ :: st.mgr.area_list },
            ⟨st.sys.next + 1, st.sys.trace⟩, st.live⟩
          hw1 [] post ⟨⟨st.sys.next, 0⟩, size⟩ idx (by simp [hl]) hnd1 hobj he hf hperm hidx
          _ _
      · rw [hl, hb] at hprev; cases hprev
  | release obj =>
    simp only [step] at hs
    by_cases hm : obj ∈ st.live
    · simp only [hm, if_true, Option.some.injEq, free_eq] at hs
      subst hs
      refine part_frame hp rfl rfl rfl ?_
      show (obj :: st.mgr.free_list ++ st.live.erase obj).Perm (st.mgr.free_list ++ st.live)
      refine List.Perm.trans ?_ (List.Perm.append_left _ (List.perm_cons_erase hm).symm)
      exact List.perm_middle.symm
    · simp [hm] at hs
  | enlarge size ok =>
    simp only [step] at hs
    by_cases hsz : size = 0
    · subst hsz; simp [enlarge_abort] at hs
    · cases ok with
      | false =>
        simp only [enlarge_fails L _ size _ hsz, Option.some.injEq] at hs
        subst hs
        exact part_frame hp rfl rfl rfl (List.Perm.refl _)
      | true =>
        simp only [enlarge_ok L _ size _ hsz, Option.some.injEq] at hs
        subst hs
        exact part_add hp hw _ rfl _

theorem create_part (L : Layout) (C : Nat) (sys : Sys) (mgr : MEM_MGR) (sys1 : Sys)
    (h : create_mem_mgr L C true sys = Run.done (some mgr, sys1)) : Part L ⟨mgr, sys1, []⟩ := by
  have hC : 0 < C := by
    rcases Nat.eq_zero_or_pos C with h0 | h0
    · subst h0; simp [create_mem_mgr] at h
    · exact h0
  rw [create_ok L C sys hC] at h
  simp only [Run.done.injEq, Prod.mk.injEq, Option.some.injEq] at h
  obtain ⟨rfl, rfl⟩ := h
  exact ⟨[], [], 0, rfl, by simp, Nat.zero_le _, rfl, by simp [slots_upto, arena_slots]⟩

/-- Every state reachable with capacities that fit keeps the bookkeeping `Part`. -/
theorem reachable_part {L : Layout} {C : Nat} {st : St} (h : FitReachable L C st) :
    Part L st := by
  induction h with
  | create next mgr sys _ _ hc => exact create_part L C _ mgr sys hc
  | after op st st1 hr hfit hs ih => exact part_step (reachable_wf hr) ih hfit hs

/-! ## Reachable states, whatever the capacities -/

/-- Two slots of an arena have the same address exactly when their byte distances from the
start of the slot array agree modulo `SIZE_MOD`. -/
theorem slot_eq_iff (L : Layout) (a : MEM_AREA) (x y : Nat) :
    slot L a x = slot L a y ↔ Nat.ModEq SIZE_MOD (L.obj * x) (L.obj * y) := by
  simp only [slot, obj_add, area_objs, size_add, size_mul, Ptr.mk.injEq, true_and]
  constructor
  · intro h
    have h1 : Nat.ModEq SIZE_MOD ((a.ptr.off + L.area) % SIZE_MOD + L.obj * x)
        ((a.ptr.off + L.area) % SIZE_MOD + L.obj * y) :=
      (((Nat.ModEq.refl _).add (Nat.mod_modEq (L.obj * x) _)).symm.trans h).trans
        ((Nat.ModEq.refl _).add (Nat.mod_modEq (L.obj * y) _))
    exact Nat.ModEq.add_left_cancel' _ h1
  · intro h
    exact (Nat.ModEq.refl _).add ((Nat.mod_modEq _ _).trans (h.trans (Nat.mod_modEq _ _).symm))

/-- The slot under the cursor has not been handed out from this arena before: the cursor
has not passed the limit, and is not on it unless it is at the start of the arena. -/
theorem slot_fresh (L : Layout) (a : MEM_AREA) (idx : Nat)
    (hno : ∀ i, 0 < i → i < idx → slot L a i ≠ slot L a a.size)
    (hne : slot L a idx ≠ slot L a a.size) (i : Nat) (hi : i < idx) :
    slot L a i ≠ slot L a idx := by
  intro h
  have hk : Nat.ModEq SIZE_MOD (L.obj * (idx - i)) 0 := by
    have h1 := (slot_eq_iff L a i idx).mp h
    have h2 : L.obj * idx = L.obj * i + L.obj * (idx - i) := by
      rw [← Nat.mul_add]
      congr 1
      omega
    rw [h2] at h1
    have h3 : Nat.ModEq SIZE_MOD (L.obj * i + 0) (L.obj * i + L.obj * (idx - i)) := by
      simpa using h1
    exact (Nat.ModEq.add_left_cancel' _ h3).symm
  have hkpos : 0 < idx - i := by omega
  have hr : Nat.ModEq SIZE_MOD (L.obj * a.size) (L.obj * (a.size % (idx - i))) := by
    have h4 : L.obj * a.size =
        L.obj * (idx - i) * (a.size / (idx - i)) + L.obj * (a.size % (idx - i)) := by
      rw [Nat.mul_assoc, ← Nat.mul_add, Nat.div_add_mod]
    rw [h4]
    have h5 : Nat.ModEq SIZE_MOD (L.obj * (idx - i) * (a.size / (idx - i))) 0 := by
      simpa using hk.mul_right (a.size / (idx - i))
    simpa using h5.add (Nat.ModEq.refl (L.obj * (a.size % (idx - i))))
  have hlt : a.size % (idx - i) < idx - i := Nat.mod_lt _ hkpos
  rcases Nat.eq_zero_or_pos (a.size % (idx - i)) with h0 | h0
  · rw [h0] at hr
    have h6 : slot L a (idx - i) = slot L a a.size :=
      (slot_eq_iff L a _ _).mpr
        ((hk.trans (by rw [Nat.mul_zero] : Nat.ModEq SIZE_MOD 0 (L.obj * 0))).trans hr.symm)
    rcases Nat.lt_or_ge (idx - i) idx with h7 | h7
    · exact hno _ hkpos h7 h6
    · have h8 : idx - i = idx := by omega
      rw [h8] at h6
      exact hne h6
  · exact hno _ h0 (by omega) ((slot_eq_iff L a _ _).mpr hr.symm)

theorem track_linked {L : Layout} {st : St} (h : Track L st) : Linked st.mgr st.sys := by
  obtain ⟨pre, post, idx, hl, hnd, hlt, _⟩ := h
  exact ⟨hlt, nodup_ptr_of_block _ hnd, by rw [hl]; simp⟩

theorem track_frame {L : Layout} {st st1 : St} (h : Track L st)
    (hl : st1.mgr.area_list = st.mgr.area_list) (ha : st1.mgr.active_area = st.mgr.active_area)
    (ho : st1.mgr.obj = st.mgr.obj) (hlim : st1.mgr.obj_limit = st.mgr.obj_limit)
    (hn : st.sys.next ≤ st1.sys.next)
    (hp : (st1.mgr.free_list ++ st1.live).Perm (st.mgr.free_list ++ st.live))
    (hle : st.mgr.free_list ++ st.live ≠ [] ∨ ptr_le st.mgr.obj st.mgr.obj_limit ∨
      st1.mgr.free_list ++ st1.live = []) :
    Track L st1 := by
  obtain ⟨pre, post, idx, h1, h2, h3, h4, h5, h6, h7, h8, h9⟩ := h
  refine ⟨pre, post, idx, by rw [hl, ha]; exact h1, by rw [hl]; exact h2, ?_,
    by rw [ho, ha]; exact h4, by rw [hlim, ha]; exact h5, by rw [hlim, ha]; exact h6,
    hp.nodup_iff.mpr h7, ?_, ?_⟩
  · intro a hmem
    rw [hl] at hmem
    exact Nat.lt_of_lt_of_le (h3 a hmem) hn
  · intro p hmem
    rw [ha]
    exact h8 p (hp.mem_iff.mp hmem)
  · rw [ho, hlim]
    rcases h9 with h9 | h9
    · rcases hle with hle | hle | hle
      · exact absurd h9 hle
      · exact Or.inr hle
      · exact Or.inl hle
    · exact Or.inr h9

theorem track_add {L : Layout} {st : St} (h : Track L st) (new : MEM_AREA)
    (hn : new.ptr.block = st.sys.next) (sys1 : Sys) (hn1 : st.sys.next + 1 ≤ sys1.next) :
    Track L ⟨{ st.mgr with area_list := new :: st.mgr.area_list }, sys1, st.live⟩ := by
  obtain ⟨pre, post, idx, h1, h2, h3, h4, h5, h6, h7, h8, h9⟩ := h
  refine ⟨new :: pre, post, idx, by simp [h1], ?_, ?_, h4, h5, h6, h7, h8, h9⟩
  · simp only [List.map_cons, List.nodup_cons]
    refine ⟨?_, h2⟩
    intro hmem
    obtain ⟨b, hb, hbb⟩ := List.mem_map.mp hmem
    have := h3 b hb
    have hbb2 : b.ptr.block = new.ptr.block := hbb
    omega
  · intro a ha
    rcases List.mem_cons.mp ha with rfl | ha
    · show a.ptr.block < sys1.next
      omega
    · have := h3 a ha
      show a.ptr.block < sys1.next
      omega

/-- Activating the arena `b` linked right before the active arena, with an empty free list,
when the `assert` passes: the active arena joins the used ones and slot 0 of `b` is handed
out. -/
theorem track_activate (L : Layout) (mgr : MEM_MGR) (live : List Ptr)
    (pre1 post : List MEM_AREA) (b : MEM_AREA) (idx : Nat)
    (hl : mgr.area_list = pre1 ++ b :: mgr.active_area :: post)
    (hnd : (mgr.area_list.map (fun a => a.ptr.block)).Nodup)
    (sys1 : Sys) (hlt : ∀ a ∈ mgr.area_list, a.ptr.block < sys1.next)
    (h7 : live.Nodup)
    (h8 : ∀ p ∈ live, (∃ i, i < idx ∧ p = slot L mgr.active_area i) ∨
      (∃ a ∈ post, p.block = a.ptr.block))
    (hle : ptr_le (slot L b 1) (slot L b b.size)) (sz : Nat) :
    Track L ⟨{ mgr with
              size := sz
              obj := obj_add L (area_objs L b) 1
              obj_limit := obj_add L (area_objs L b) b.size
              active_area := b,
              free_list := [] }, sys1, area_objs L b :: live⟩ := by
  have hblocks : ∀ a ∈ mgr.active_area :: post, a.ptr.block ≠ b.ptr.block := by
    intro a ha hab
    rw [hl] at hnd
    simp only [List.map_append, List.map_cons] at hnd
    have h2 := (List.nodup_append.mp hnd).2.1
    simp only [List.nodup_cons] at h2
    apply h2.1
    rw [← hab]
    rcases List.mem_cons.mp ha with rfl | ha
    · simp
    · exact List.mem_cons_of_mem _ (List.mem_map.mpr ⟨a, ha, rfl⟩)
  have hold : ∀ p ∈ live, ∃ a ∈ mgr.active_area :: post, p.block = a.ptr.block := by
    intro p hp
    rcases h8 p hp with ⟨i, _, hi⟩ | ⟨a, ha, hpa⟩
    · exact ⟨mgr.active_area, by simp, by rw [hi, slot_block]⟩
    · exact ⟨a, List.mem_cons_of_mem _ ha, hpa⟩
  refine ⟨pre1, mgr.active_area :: post, 1, hl, hnd, hlt, ?_, rfl, ?_, ?_, ?_, Or.inr hle⟩
  · show obj_add L (area_objs L b) 1 = slot L b 1
    rfl
  · intro i h0 h1
    omega
  · simp only [List.nil_append, List.nodup_cons]
    refine ⟨?_, h7⟩
    intro hmem
    obtain ⟨a, ha, hpa⟩ := hold _ hmem
    exact hblocks a ha hpa.symm
  · intro p hp
    simp only [List.nil_append, List.mem_cons] at hp
    rcases hp with rfl | hp
    · exact Or.inl ⟨0, by omega, area_objs_eq_slot L b⟩
    · exact Or.inr (hold p hp)

theorem track_step {L : Layout} {st st1 : St} {op : Op} (ht : Track L st)
    (hs : step L op st = some st1) : Track L st1 := by
  have hlk := track_linked ht
  cases op with
  | get size oks =>
    simp only [step] at hs
    obtain ⟨pre, post, idx, hl, hnd, hlt, hobj, hlim, hno, h7, h8, h9⟩ := ht
    have hndp := nodup_ptr_of_block _ hnd
    rw [hl] at hndp
    rcases get_shape L hlk size oks with ⟨x, fl, hf, hg⟩ | ⟨hf, hne, hg⟩ |
      ⟨hf, he, area, hprev, hg⟩ | ⟨_, _, _, _, hg⟩ | ⟨_, _, _, _, _, hg⟩ |
      ⟨hf, he, hprev, hsz, _, hg⟩
    · by_cases hc : ptr_le st.mgr.obj st.mgr.obj_limit
      · simp only [hg, if_pos hc, Option.some.injEq] at hs
        subst hs
        have hperm : (fl ++ x :: st.live).Perm (st.mgr.free_list ++ st.live) := by
          rw [hf]
          exact List.perm_middle
        exact ⟨pre, post, idx, hl, hnd, hlt, hobj, hlim, hno, hperm.nodup_iff.mpr h7,
          fun p hp => h8 p (hperm.mem_iff.mp hp), Or.inr hc⟩
      · simp [hg, hc] at hs
    · by_cases hc : ptr_le (obj_add L st.mgr.obj 1) st.mgr.obj_limit
      · simp only [hg, if_pos hc, Option.some.injEq] at hs
        subst hs
        rw [hf, List.nil_append] at h7 h8
        have hne2 : slot L st.mgr.active_area idx ≠
            slot L st.mgr.active_area st.mgr.active_area.size := by
          rw [← hobj, ← hlim]; exact hne
        have hno2 : ∀ i, 0 < i → i < idx → slot L st.mgr.active_area i ≠
            slot L st.mgr.active_area st.mgr.active_area.size := by
          rw [← hlim]; exact hno
        refine ⟨pre, post, idx + 1, hl, hnd, hlt, ?_, hlim, ?_, ?_, ?_, Or.inr hc⟩
        · show obj_add L st.mgr.obj 1 = _
          rw [hobj, obj_add_slot]
        · intro i h0 h1
          rcases Nat.lt_or_ge i idx with h2 | h2
          · exact hno i h0 h2
          · have : i = idx := by omega
            rw [this, ← hobj]
            exact hne
        · simp only [hf, List.nil_append, List.nodup_cons]
          refine ⟨?_, h7⟩
          intro hmem
          rcases h8 _ hmem with ⟨i, hi, hpi⟩ | ⟨a, ha, hpa⟩
          · rw [hobj] at hpi
            exact slot_fresh L _ idx hno2 hne2 i hi hpi.symm
          · rw [hl] at hnd
            simp only [List.map_append, List.map_cons] at hnd
            have h2 := (List.nodup_append.mp hnd).2.1
            simp only [List.nodup_cons] at h2
            apply h2.1
            rw [hobj, slot_block] at hpa
            rw [hpa]
            exact List.mem_map.mpr ⟨a, ha, rfl⟩
        · intro p hp
          simp only [hf, List.nil_append, List.mem_cons] at hp
          rcases hp with rfl | hp
          · exact Or.inl ⟨idx, by omega, hobj⟩
          · rcases h8 p hp with ⟨i, hi, hpi⟩ | h
            · exact Or.inl ⟨i, by omega, hpi⟩
            · exact Or.inr h
      · simp [hg, hc] at hs
    · by_cases hc : ptr_le (slot L area 1) (slot L area area.size)
      · simp only [hg, if_pos hc, Option.some.injEq] at hs
        subst hs
        rw [hf, List.nil_append] at h7 h8
        rcases prev_entry_split pre post st.mgr.active_area hndp with ⟨_, hn⟩ |
          ⟨pre1, b, hpre, hb⟩
        · rw [hl, hn] at hprev; cases hprev
        · rw [hl, hb] at hprev
          simp only [Option.some.injEq] at hprev
          subst hprev
          have := track_activate L st.mgr st.live pre1 post b idx (by rw [hl, hpre]; simp) hnd
            st.sys hlt h7 h8 hc (size_add st.mgr.size b.size)
          rw [← hf] at this
          exact this
      · simp [hg, hc] at hs
    · simp only [hg, Option.some.injEq] at hs
      subst hs
      exact ⟨pre, post, idx, hl, hnd, hlt, hobj, hlim, hno, h7, h8, h9⟩
    · simp only [hg, Option.some.injEq] at hs
      subst hs
      exact ⟨pre, post, idx, hl, hnd, hlt, hobj, hlim, hno, h7, h8, h9⟩
    · by_cases hc : ptr_le (slot L ⟨⟨st.sys.next, 0⟩, size⟩ 1)
          (slot L ⟨⟨st.sys.next, 0⟩, size⟩ size)
      · simp only [hg, if_pos hc, Option.some.injEq] at hs
        subst hs
        rw [hf, List.nil_append] at h7 h8
        rcases prev_entry_split pre post st.mgr.active_area hndp with ⟨hpre, _⟩ |
          ⟨pre1, b, _, hb⟩
        · subst hpre
          have hnd1 : ((⟨⟨st.sys.next, 0⟩, size⟩ :: st.mgr.area_list).map
              (fun a => a.ptr.block)).Nodup := by
            simp only [List.map_cons, List.nodup_cons]
            refine ⟨?_, hnd⟩
            intro hmem
            obtain ⟨b, hb, hbb⟩ := List.mem_map.mp hmem
            have := hlt b hb
            have hbb2 : b.ptr.block = st.sys.next := hbb
            omega
          have hlt1 : ∀ a ∈ (⟨⟨st.sys.next, 0⟩, size⟩ :: st.mgr.area_list : List MEM_AREA),
              a.ptr.block < st.sys.next + 1 := by
            intro a ha
            rcases List.mem_cons.mp ha with rfl | ha
            · exact Nat.lt_succ_self _
            · exact Nat.lt_succ_of_lt (hlt a ha)
          have := track_activate L
            { st.mgr with area_list := ⟨⟨st.sys.next, 0⟩, size⟩ :: st.mgr.area_list } st.live
            [] post ⟨⟨st.sys.next, 0⟩, size⟩ idx (by simp [hl]) hnd1
            ⟨st.sys.next + 1, st.sys.trace ++ [Event.lock, Event.access, Event.access,
              Event.unlock, Event.malloc (AREA_MEM_SIZE L size) (some ⟨st.sys.next, 0⟩),
              Event.lock, Event.access, Event.access, Event.access, Event.access,
              Event.access, Event.unlock]⟩ hlt1 h7 h8 hc (size_add st.mgr.size size)
          rw [← hf] at this
          exact this
        · rw [hl, hb] at hprev; cases hprev
      · simp [hg, hc] at hs
  | release obj =>
    simp only [step] at hs
    by_cases hm : obj ∈ st.live
    · simp only [hm, if_true, Option.some.injEq, free_eq] at hs
      subst hs
      refine track_frame ht rfl rfl rfl rfl (Nat.le_refl _) ?_ (Or.inl ?_)
      · show (obj :: st.mgr.free_list ++ st.live.erase obj).Perm (st.mgr.free_list ++ st.live)
        refine List.Perm.trans ?_ (List.Perm.append_left _ (List.perm_cons_erase hm).symm)
        exact List.perm_middle.symm
      · intro h0
        have : obj ∈ st.mgr.free_list ++ st.live := List.mem_append_right _ hm
        rw [h0] at this
        cases this
    · simp [hm] at hs
  | enlarge size ok =>
    simp only [step] at hs
    by_cases hsz : size = 0
    · subst hsz; simp [enlarge_abort] at hs
    · cases ok with
      | false =>
        simp only [enlarge_fails L _ size _ hsz, Option.some.injEq] at hs
        subst hs
        obtain ⟨pre, post, idx, h1, h2, h3, h4, h5, h6, h7, h8, h9⟩ := ht
        exact ⟨pre, post, idx, h1, h2, h3, h4, h5, h6, h7, h8, h9⟩
      | true =>
        simp only [enlarge_ok L _ size _ hsz, Option.some.injEq] at hs
        subst hs
        exact track_add ht _ rfl _ (Nat.le_refl _)

theorem create_track (L : Layout) (C : Nat) (sys : Sys) (mgr : MEM_MGR) (sys1 : Sys)
    (h : create_mem_mgr L C true sys = Run.done (some mgr, sys1)) : Track L ⟨mgr, sys1, []⟩ := by
  have hC : 0 < C := by
    rcases Nat.eq_zero_or_pos C with h0 | h0
    · subst h0; simp [create_mem_mgr] at h
    · exact h0
  rw [create_ok L C sys hC] at h
  simp only [Run.done.injEq, Prod.mk.injEq, Option.some.injEq] at h
  obtain ⟨rfl, rfl⟩ := h
  exact ⟨[], [], 0, rfl, by simp, by simp, rfl, rfl, fun i h0 h1 => by omega, by simp,
    by simp, Or.inl rfl⟩

/-- Every reachable state keeps `Track`, whatever capacities were asked for. -/
theorem reachable_track {L : Layout} {C : Nat} {st : St} (h : Reachable L C st) :
    Track L st := by
  induction h with
  | create next mgr sys _ hc => exact create_track L C _ mgr sys hc
  | after op st st1 _ hs ih => exact track_step ih hs


/-! ## `size_t` arithmetic and alignment -/

theorem size_mod_pos : 0 < SIZE_MOD := by decide

theorem pow2_dvd_size_mod {k : Nat} (hk : k < 64) : 2 ^ k ∣ SIZE_MOD := by
  unfold SIZE_MOD
  exact Nat.pow_dvd_pow 2 (Nat.le_of_lt hk)

theorem pow2_lt_size_mod {k : Nat} (hk : k < 64) : 2 ^ k < SIZE_MOD := by
  unfold SIZE_MOD
  exact Nat.pow_lt_pow_right (by decide) hk

theorem is_power_of_2_pow (k : Nat) : IS_POWER_OF_2 (2 ^ k) = true := by
  have h0 : 2 ^ k ≠ 0 := Nat.pos_iff_ne_zero.mp (Nat.two_pow_pos k)
  simp [IS_POWER_OF_2, Nat.and_pow_two_sub_one_eq_mod]

theorem align_down_eq (x k : Nat) : ALIGN_DOWN_POW2 x (2 ^ k) = x - x % 2 ^ k := by
  simp [ALIGN_DOWN_POW2, Nat.and_pow_two_sub_one_eq_mod]

theorem size_sub_lt (a b : Nat) : size_sub a b < SIZE_MOD := Nat.mod_lt _ size_mod_pos

theorem size_add_lt (a b : Nat) : size_add a b < SIZE_MOD := Nat.mod_lt _ size_mod_pos

theorem size_sub_modEq (a b : Nat) : size_sub a b + b ≡ a [MOD SIZE_MOD] := by
  have h1 : size_sub a b ≡ a + (SIZE_MOD - b % SIZE_MOD) [MOD SIZE_MOD] := Nat.mod_modEq _ _
  have h2 : b ≡ b % SIZE_MOD [MOD SIZE_MOD] := (Nat.mod_modEq _ _).symm
  have h3 := h1.add h2
  have hb : b % SIZE_MOD < SIZE_MOD := Nat.mod_lt _ size_mod_pos
  have h4 : a + (SIZE_MOD - b % SIZE_MOD) + b % SIZE_MOD = a + SIZE_MOD := by omega
  rw [h4] at h3
  exact h3.trans (by simp [Nat.ModEq])

theorem size_sub_of_le {a b : Nat} (ha : a < SIZE_MOD) (hb : b ≤ a) : size_sub a b = a - b := by
  have hbm : b % SIZE_MOD = b := Nat.mod_eq_of_lt (Nat.lt_of_le_of_lt hb ha)
  unfold size_sub
  rw [hbm]
  have : a + (SIZE_MOD - b) = (a - b) + SIZE_MOD := by omega
  rw [this, Nat.add_mod_right]
  exact Nat.mod_eq_of_lt (by omega)

theorem area_mem_size_modEq (L : Layout) (n : Nat) :
    AREA_MEM_SIZE L n ≡ L.area + L.obj * n [MOD SIZE_MOD] := by
  unfold AREA_MEM_SIZE __SUM_OBJ_SIZE size_add size_mul
  exact (Nat.mod_modEq _ _).trans ((Nat.ModEq.refl _).add (Nat.mod_modEq _ _))

theorem max_mem_size_modEq (L : Layout) (n : Nat) :
    __MAX_MEM_SIZE L n ≡ L.mgr + L.area + L.obj * n [MOD SIZE_MOD] := by
  unfold __MAX_MEM_SIZE __MIN_MEM_SIZE __SUM_OBJ_SIZE size_add size_mul
  exact (Nat.mod_modEq _ _).trans ((Nat.mod_modEq _ _).add (Nat.mod_modEq _ _))

/-- The local `s` of `size_align_down` and `size_align_up`,
`__MAX_MEM_SIZE(size) - sizeof(MEM_MGR_TYPE)`, is the byte size of an arena of `size` slots. -/
theorem max_sub_mgr (L : Layout) (n : Nat) :
    size_sub (__MAX_MEM_SIZE L n) L.mgr = AREA_MEM_SIZE L n := by
  have h1 := size_sub_modEq (__MAX_MEM_SIZE L n) L.mgr
  have h2 := max_mem_size_modEq L n
  have h3 : size_sub (__MAX_MEM_SIZE L n) L.mgr + L.mgr ≡ L.area + L.obj * n + L.mgr
      [MOD SIZE_MOD] := by
    refine (h1.trans h2).trans ?_
    have : L.mgr + L.area + L.obj * n = L.area + L.obj * n + L.mgr := by omega
    rw [this]
  have h4 := Nat.ModEq.add_right_cancel' _ h3
  have h5 := h4.trans (area_mem_size_modEq L n).symm
  exact Nat.ModEq.eq_of_lt_of_lt h5 (size_sub_lt _ _) (size_add_lt _ _)

theorem pad_down_eq (s k : Nat) (hs : s < SIZE_MOD) : pad_down s (2 ^ k) = s % 2 ^ k := by
  unfold pad_down
  rw [align_down_eq, size_sub_of_le hs (Nat.sub_le _ _)]
  have := Nat.mod_le s (2 ^ k)
  omega

theorem pad_up_spec (s k : Nat) (hs : s < SIZE_MOD) (hk : k < 64) :
    pad_up s (2 ^ k) < 2 ^ k ∧ (s + pad_up s (2 ^ k)) % 2 ^ k = 0 := by
  have hP : 0 < 2 ^ k := Nat.two_pow_pos k
  have hPM := pow2_lt_size_mod hk
  have hdvd := pow2_dvd_size_mod hk
  unfold pad_up ALIGN_UP_POW2
  rw [align_down_eq]
  have ht : size_sub (size_add s (2 ^ k)) 1 ≡ s + (2 ^ k - 1) [MOD SIZE_MOD] := by
    have h1 := size_sub_modEq (size_add s (2 ^ k)) 1
    have h2 : size_add s (2 ^ k) ≡ s + (2 ^ k - 1) + 1 [MOD SIZE_MOD] := by
      unfold size_add
      have : s + (2 ^ k - 1) + 1 = s + 2 ^ k := by omega
      rw [this]
      exact Nat.mod_modEq _ _
    exact Nat.ModEq.add_right_cancel' 1 (h1.trans h2)
  have htlt := size_sub_lt (size_add s (2 ^ k)) 1
  generalize size_sub (size_add s (2 ^ k)) 1 = t at ht htlt
  by_cases hc : s + (2 ^ k - 1) < SIZE_MOD
  · have hte : t = s + (2 ^ k - 1) := Nat.ModEq.eq_of_lt_of_lt ht htlt hc
    subst hte
    have hmod := Nat.mod_lt (s + (2 ^ k - 1)) hP
    have hle : s ≤ s + (2 ^ k - 1) - (s + (2 ^ k - 1)) % 2 ^ k := by omega
    rw [size_sub_of_le (by omega) hle]
    constructor
    · omega
    · have : s + (s + (2 ^ k - 1) - (s + (2 ^ k - 1)) % 2 ^ k - s) =
          s + (2 ^ k - 1) - (s + (2 ^ k - 1)) % 2 ^ k := by omega
      rw [this]
      exact Nat.sub_mod_eq_zero_of_mod_eq (by simp)
  · have hte : t = s + (2 ^ k - 1) - SIZE_MOD := by
      apply Nat.ModEq.eq_of_lt_of_lt _ htlt (by omega)
      refine ht.trans ?_
      have : s + (2 ^ k - 1) = s + (2 ^ k - 1) - SIZE_MOD + SIZE_MOD := by omega
      conv => lhs; rw [this]
      simp [Nat.ModEq]
    rw [hte]
    have hsmall : s + (2 ^ k - 1) - SIZE_MOD < 2 ^ k := by omega
    rw [Nat.mod_eq_of_lt hsmall, Nat.sub_self]
    have hsub : size_sub 0 s = SIZE_MOD - s := by
      unfold size_sub
      rw [Nat.mod_eq_of_lt hs, Nat.zero_add]
      exact Nat.mod_eq_of_lt (by omega)
    rw [hsub]
    constructor
    · omega
    · have : s + (SIZE_MOD - s) = SIZE_MOD := by omega
      rw [this]
      exact Nat.mod_eq_zero_of_dvd hdvd

/-- C1, counterexample: with structure sizes 48, 24 and 16 and `C = 2 ^ 60`, the byte size
`__MAX_MEM_SIZE(C)` overflows `size_t` and is 72; `create_mem_mgr(C)` succeeds when that
allocation does, the cursor limit `area->objs + C` wraps back onto `area->objs`, and the
first hint-less acquisition already returns `NULL`. -/
theorem C1_create_then_exhaust_counterexample :
    create_mem_mgr ⟨48, 24, 16⟩ (2 ^ 60) true ⟨7, []⟩ =
      Run.done (some ⟨⟨7, 0⟩, [⟨⟨7, 48⟩, 2 ^ 60⟩], [], 2 ^ 60, ⟨7, 72⟩, ⟨7, 72⟩,
          ⟨⟨7, 48⟩, 2 ^ 60⟩⟩,
        ⟨8, [Event.malloc 72 (some ⟨7, 0⟩), Event.access]⟩) ∧
    get_mem_obj_from_mgr ⟨48, 24, 16⟩
        ⟨⟨7, 0⟩, [⟨⟨7, 48⟩, 2 ^ 60⟩], [], 2 ^ 60, ⟨7, 72⟩, ⟨7, 72⟩, ⟨⟨7, 48⟩, 2 ^ 60⟩⟩ []
        ⟨8, [Event.malloc 72 (some ⟨7, 0⟩), Event.access]⟩ =
      Run.done (none,
        ⟨⟨7, 0⟩, [⟨⟨7, 48⟩, 2 ^ 60⟩], [], 2 ^ 60, ⟨7, 72⟩, ⟨7, 72⟩, ⟨⟨7, 48⟩, 2 ^ 60⟩⟩,
        ⟨8, [Event.malloc 72 (some ⟨7, 0⟩), Event.access, Event.lock, Event.access,
          Event.access, Event.unlock]⟩) := by
  decide

/-- C1, amended: for every capacity `C > 0` whose byte size `__MAX_MEM_SIZE(C)`,
`sizeof(MEM_MGR_TYPE) + sizeof(MEM_AREA_TYPE) + C * sizeof(MEM_OBJ_TYPE)`, does not overflow
`size_t` and whose backing allocation succeeds, `create_mem_mgr(C)` followed by `C` hint-less
acquisitions returns slots `0 .. C-1` of the embedded arena, in index order and pairwise
distinct, and one more hint-less acquisition returns `NULL`. -/
theorem C1_create_then_exhaust (L : Layout) (C : Nat) (sys : Sys) (oks : List Bool)
    (hC : 0 < C) (ho : 0 < L.obj) (hfit : L.mgr + L.area + L.obj * C < SIZE_MOD) :
    ∃ mgr sys1 a mgr2 sys2 sys3,
      create_mem_mgr L C true sys = Run.done (some mgr, sys1) ∧
      mgr.area_list = [a] ∧ a.size = C ∧
      acquire_n L oks C mgr sys1 =
        Run.done ((List.range C).map (fun i => some (slot L a i)), mgr2, sys2) ∧
      ((List.range C).map (fun i => slot L a i)).Nodup ∧
      get_mem_obj_from_mgr L mgr2 oks sys2 = Run.done (none, mgr2, sys3) := by
  have hfa := @fits_embedded L C sys.next hfit
  obtain ⟨mgr, sys1, hc, hl, hf, hobj, hlim, hact⟩ : ∃ mgr sys1,
      create_mem_mgr L C true sys = Run.done (some mgr, sys1) ∧
      mgr.area_list = [⟨⟨sys.next, L.mgr % SIZE_MOD⟩, C⟩] ∧ mgr.free_list = [] ∧
      mgr.obj = slot L ⟨⟨sys.next, L.mgr % SIZE_MOD⟩, C⟩ 0 ∧
      mgr.obj_limit = slot L ⟨⟨sys.next, L.mgr % SIZE_MOD⟩, C⟩ C ∧
      mgr.active_area = ⟨⟨sys.next, L.mgr % SIZE_MOD⟩, C⟩ :=
    ⟨_, _, create_ok L C sys hC, rfl, rfl, rfl, rfl, rfl⟩
  obtain ⟨sys2, h2⟩ := acquire_n_bump L oks ⟨⟨sys.next, L.mgr % SIZE_MOD⟩, C⟩ ho hfa C 0 mgr
    sys1 hf hobj hlim (by simp)
  refine ⟨mgr, sys1, ⟨⟨sys.next, L.mgr % SIZE_MOD⟩, C⟩,
    { mgr with obj := slot L ⟨⟨sys.next, L.mgr % SIZE_MOD⟩, C⟩ (0 + C) },
    sys2, ⟨sys2.next, sys2.trace ++ [Event.lock, Event.access, Event.access, Event.unlock]⟩,
    hc, hl, rfl, ?_, ?_, ?_⟩
  · rw [h2, List.range_eq_range']
  · exact nodup_slots_upto L _ C ho hfa (Nat.le_refl _)
  · exact get_none_nohint L _ oks sys2 hf (by simp [hlim])
      (by simp [LISTP_PREV_ENTRY, hl, hact])

theorem C1_create_then_exhaust_witness :
    (0 < 3 ∧ 0 < (Layout.mk 48 24 16).obj ∧ 48 + 24 + 16 * 3 < SIZE_MOD) ∧
    ∃ mgr sys1 a mgr2 sys2 sys3,
      create_mem_mgr ⟨48, 24, 16⟩ 3 true ⟨7, []⟩ = Run.done (some mgr, sys1) ∧
      mgr.area_list = [a] ∧ a.size = 3 ∧
      acquire_n ⟨48, 24, 16⟩ [] 3 mgr sys1 =
        Run.done ((List.range 3).map (fun i => some (slot ⟨48, 24, 16⟩ a i)), mgr2, sys2) ∧
      ((List.range 3).map (fun i => slot ⟨48, 24, 16⟩ a i)).Nodup ∧
      get_mem_obj_from_mgr ⟨48, 24, 16⟩ mgr2 [] sys2 = Run.done (none, mgr2, sys3) :=
  ⟨⟨by decide, by decide, by decide⟩,
    C1_create_then_exhaust ⟨48, 24, 16⟩ 3 ⟨7, []⟩ [] (by decide) (by decide) (by decide)⟩


/-- C2: LIFO reuse.  In every reachable state, releasing a live slot `x` and acquiring right
after, with or without a growth hint, returns exactly `x`; the manager is then back in the
state it had before the release. -/
theorem C2_lifo_reuse (L : Layout) (C : Nat) (st : St) (x : Ptr) (size : Nat)
    (oks : List Bool) (hr : Reachable L C st) (hx : x ∈ st.live) :
    get_mem_obj_from_mgr_enlarge L (free_mem_obj_to_mgr st.mgr x st.sys).1 size oks
        (free_mem_obj_to_mgr st.mgr x st.sys).2 =
      Run.done (some x, st.mgr,
        ⟨st.sys.next, st.sys.trace ++ [Event.lock, Event.access, Event.unlock, Event.lock,
          Event.access, Event.access, Event.unlock]⟩) := by
  obtain ⟨_, _, _, _, _, _, _, _, _, _, _, h9⟩ := reachable_track hr
  have hle : ptr_le st.mgr.obj st.mgr.obj_limit := by
    rcases h9 with h0 | h0
    · have : x ∈ st.mgr.free_list ++ st.live := List.mem_append_right _ hx
      rw [h0] at this
      cases this
    · exact h0
  rw [free_eq]
  exact (get_pop L { st.mgr with free_list := x :: st.mgr.free_list } size oks _ x
    st.mgr.free_list rfl hle).trans (by simp)

theorem C2_lifo_reuse_witness :
    Reachable ⟨48, 24, 16⟩ 2
      ⟨⟨⟨7, 0⟩, [⟨⟨7, 48⟩, 2⟩], [], 2, ⟨7, 88⟩, ⟨7, 104⟩, ⟨⟨7, 48⟩, 2⟩⟩,
        ⟨8, [Event.malloc 104 (some ⟨7, 0⟩), Event.access, Event.lock, Event.access,
          Event.access, Event.unlock]⟩, [⟨7, 72⟩]⟩ ∧
    get_mem_obj_from_mgr_enlarge ⟨48, 24, 16⟩
        (free_mem_obj_to_mgr ⟨⟨7, 0⟩, [⟨⟨7, 48⟩, 2⟩], [], 2, ⟨7, 88⟩, ⟨7, 104⟩, ⟨⟨7, 48⟩, 2⟩⟩
          ⟨7, 72⟩ ⟨8, [Event.malloc 104 (some ⟨7, 0⟩), Event.access, Event.lock, Event.access,
          Event.access, Event.unlock]⟩).1 5 [true]
        (free_mem_obj_to_mgr ⟨⟨7, 0⟩, [⟨⟨7, 48⟩, 2⟩], [], 2, ⟨7, 88⟩, ⟨7, 104⟩, ⟨⟨7, 48⟩, 2⟩⟩
          ⟨7, 72⟩ ⟨8, [Event.malloc 104 (some ⟨7, 0⟩), Event.access, Event.lock, Event.access,
          Event.access, Event.unlock]⟩).2 =
      Run.done (some ⟨7, 72⟩,
        ⟨⟨7, 0⟩, [⟨⟨7, 48⟩, 2⟩], [], 2, ⟨7, 88⟩, ⟨7, 104⟩, ⟨⟨7, 48⟩, 2⟩⟩,
        ⟨8, [Event.malloc 104 (some ⟨7, 0⟩), Event.access, Event.lock, Event.access,
          Event.access, Event.unlock] ++ [Event.lock, Event.access, Event.unlock, Event.lock,
          Event.access, Event.access, Event.unlock]⟩) :=
  have hr : Reachable ⟨48, 24, 16⟩ 2
      ⟨⟨⟨7, 0⟩, [⟨⟨7, 48⟩, 2⟩], [], 2, ⟨7, 88⟩, ⟨7, 104⟩, ⟨⟨7, 48⟩, 2⟩⟩,
        ⟨8, [Event.malloc 104 (some ⟨7, 0⟩), Event.access, Event.lock, Event.access,
          Event.access, Event.unlock]⟩, [⟨7, 72⟩]⟩ :=
    Reachable.after (Op.get 0 []) _ _
      (Reachable.create 7 _ _ (by decide) rfl) rfl
  ⟨hr, C2_lifo_reuse ⟨48, 24, 16⟩ 2 _ ⟨7, 72⟩ 5 [true] hr (by decide)⟩

theorem destroy_loop_eq (L : Layout) (last : MEM_AREA) :
    ∀ (l : List MEM_AREA) (mgr : MEM_MGR) (sys : Sys),
      (destroy_loop L last l mgr sys).1.self = mgr.self ∧
      (destroy_loop L last l mgr sys).2 =
        ⟨sys.next, sys.trace ++ ((l.filter (fun a => decide (a.ptr ≠ last.ptr))).map
          (fun a => Event.free a.ptr (AREA_MEM_SIZE L a.size)))⟩ := by
  intro l
  induction l with
  | nil => intro mgr sys; simp [destroy_loop]
  | cons tmp rest ih =>
    intro mgr sys
    by_cases h : tmp.ptr = last.ptr
    · simp only [destroy_loop, h, ne_eq, not_true_eq_false, if_false]
      have := ih mgr sys
      simpa [List.filter_cons, h] using this
    · simp only [destroy_loop, ne_eq, h, not_false_eq_true, if_true]
      have := ih { mgr with area_list := LISTP_DEL tmp mgr.area_list }
        (system_free tmp.ptr (AREA_MEM_SIZE L tmp.size) sys)
      simpa [List.filter_cons, h, system_free, emit_eq] using this

theorem frees_map_free (L : Layout) (l : List MEM_AREA) :
    frees (l.map (fun a => Event.free a.ptr (AREA_MEM_SIZE L a.size))) = l.map (area_block L) := by
  induction l with
  | nil => rfl
  | cons a rest ih =>
    simp only [frees] at ih
    simp [frees, free_of, area_block, ih]

theorem mallocs_map_free (L : Layout) (l : List MEM_AREA) :
    mallocs (l.map (fun a => Event.free a.ptr (AREA_MEM_SIZE L a.size))) = [] := by
  induction l with
  | nil => rfl
  | cons a rest ih =>
    simp only [mallocs] at ih
    simp [mallocs, malloc_of, ih]

theorem destroy_eq (L : Layout) (mgr : MEM_MGR) (sys : Sys) (grown : List MEM_AREA)
    (emb : MEM_AREA) (hl : mgr.area_list = grown ++ [emb])
    (hnd : (mgr.area_list.map MEM_AREA.ptr).Nodup) :
    destroy_mem_mgr L mgr sys =
      Run.done ⟨sys.next, sys.trace ++
        (grown.map (fun a => Event.free a.ptr (AREA_MEM_SIZE L a.size)) ++
          [Event.free mgr.self (__MAX_MEM_SIZE L emb.size)])⟩ := by
  have hlast : LISTP_LAST_ENTRY mgr.area_list = some emb := by
    simp [LISTP_LAST_ENTRY, hl]
  have hfilter : (mgr.area_list.filter (fun a => decide (a.ptr ≠ emb.ptr))) = grown := by
    rw [hl] at hnd ⊢
    simp only [List.map_append, List.map_cons, List.map_nil, List.nodup_append,
      List.nodup_cons, List.mem_singleton] at hnd
    have hne : ∀ a ∈ grown, ¬ a.ptr = emb.ptr := fun a ha h =>
      hnd.2.2 (List.mem_map.mpr ⟨a, ha, rfl⟩) (by simp [h])
    rw [List.filter_append]
    have h1 : grown.filter (fun a => decide (a.ptr ≠ emb.ptr)) = grown := by
      apply List.filter_eq_self.mpr
      intro a ha
      simpa using hne a ha
    rw [h1]
    simp
  obtain ⟨h1, h2⟩ := destroy_loop_eq L emb mgr.area_list mgr sys
  unfold destroy_mem_mgr
  rw [hlast]
  simp only []
  rw [h1, h2, hfilter]
  simp [system_free, emit_eq]


/-- The allocation record of a reachable manager: `area_list` is the arenas grown so far,
newest first, followed by the embedded arena of `C` slots; the successful calls of
`system_malloc` so far are the one of `create_mem_mgr` and then one per grown arena, oldest
first; `system_free` has not been called. -/
theorem reachable_account {L : Layout} {C : Nat} {st : St} (h : Reachable L C st) :
    ∃ grown : List MEM_AREA,
      st.mgr.area_list =
        grown ++ [⟨⟨st.mgr.self.block, size_add st.mgr.self.off L.mgr⟩, C⟩] ∧
      mallocs st.sys.trace =
        (st.mgr.self, __MAX_MEM_SIZE L C) :: (grown.map (area_block L)).reverse ∧
      frees st.sys.trace = [] := by
  induction h with
  | create next mgr sys ho hc =>
    have hC : 0 < C := by
      rcases Nat.eq_zero_or_pos C with h0 | h0
      · subst h0; simp [create_mem_mgr] at hc
      · exact h0
    rw [create_ok L C _ hC] at hc
    simp only [Run.done.injEq, Prod.mk.injEq, Option.some.injEq] at hc
    obtain ⟨rfl, rfl⟩ := hc
    exact ⟨[], by simp [size_add], by simp [mallocs, malloc_of], by simp [frees, free_of]⟩
  | after op st st1 hr hs ih =>
    obtain ⟨grown, hl, hm, hf⟩ := ih
    have hlk := track_linked (reachable_track hr)
    cases op with
    | get size oks =>
      obtain ⟨r0, m0, s0, hd0⟩ := step_get_done hs
      simp only [step] at hs
      rcases get_returns L hlk size oks r0 m0 s0 hd0 with ⟨x, fl, _, _, hg⟩ | ⟨_, _, _, hg⟩ |
        ⟨_, _, area, _, _, hg⟩ | ⟨_, _, _, _, hg⟩ | ⟨_, _, _, _, _, hg⟩ |
        ⟨_, _, _, _, _, _, hg⟩
      all_goals
        simp only [hg, Option.some.injEq] at hs
        subst hs
      · exact ⟨grown, hl, by simpa [mallocs, malloc_of] using hm,
          by simpa [frees, free_of] using hf⟩
      · exact ⟨grown, hl, by simpa [mallocs, malloc_of] using hm,
          by simpa [frees, free_of] using hf⟩
      · exact ⟨grown, hl, by simpa [mallocs, malloc_of] using hm,
          by simpa [frees, free_of] using hf⟩
      · exact ⟨grown, hl, by simpa [mallocs, malloc_of] using hm,
          by simpa [frees, free_of] using hf⟩
      · exact ⟨grown, hl, by simpa [mallocs, malloc_of] using hm,
          by simpa [frees, free_of] using hf⟩
      · refine ⟨⟨⟨st.sys.next, 0⟩, size⟩ :: grown, by simp [hl], ?_,
          by simpa [frees, free_of] using hf⟩
        simp only [mallocs] at hm
        simp [mallocs, malloc_of, hm, area_block]
    | release obj =>
      simp only [step] at hs
      by_cases hmem : obj ∈ st.live
      · simp only [hmem, if_true, Option.some.injEq, free_eq] at hs
        subst hs
        exact ⟨grown, hl, by simpa [mallocs, malloc_of] using hm,
          by simpa [frees, free_of] using hf⟩
      · simp [hmem] at hs
    | enlarge size ok =>
      simp only [step] at hs
      by_cases hsz : size = 0
      · subst hsz; simp [enlarge_abort] at hs
      · cases ok with
        | false =>
          simp only [enlarge_fails L _ size _ hsz, Option.some.injEq] at hs
          subst hs
          exact ⟨grown, hl, by simpa [mallocs, malloc_of] using hm,
            by simpa [frees, free_of] using hf⟩
        | true =>
          simp only [enlarge_ok L _ size _ hsz, Option.some.injEq] at hs
          subst hs
          refine ⟨⟨⟨st.sys.next, 0⟩, size⟩ :: grown, by simp [hl], ?_,
            by simpa [frees, free_of] using hf⟩
          simp only [mallocs] at hm
          simp [mallocs, malloc_of, hm, area_block]

/-- C6: destruction accounting.  In every state reached from `create_mem_mgr(C)` by
acquisitions, releases and growths, with `grown` the arenas obtained by the successful
backing allocations for new arenas (`N` of them), `destroy_mem_mgr` calls `system_free` once
per grown arena, with its address and the byte size
`sizeof(MEM_AREA_TYPE) + __SUM_OBJ_SIZE(size)` it was allocated with, and then, last, once
for the combined block of the manager with `__MAX_MEM_SIZE(C)`: `N + 1` calls, which are the
successful calls of `system_malloc` in reverse order, so the freed byte sizes sum to the
allocated ones. -/
theorem C6_destroy_accounting (L : Layout) (C : Nat) (st : St) (hr : Reachable L C st) :
    ∃ (grown : List MEM_AREA) (sys1 : Sys),
      mallocs st.sys.trace =
        (st.mgr.self, __MAX_MEM_SIZE L C) :: (grown.map (area_block L)).reverse ∧
      destroy_mem_mgr L st.mgr st.sys = Run.done sys1 ∧
      frees sys1.trace = grown.map (area_block L) ++ [(st.mgr.self, __MAX_MEM_SIZE L C)] ∧
      frees sys1.trace = (mallocs sys1.trace).reverse ∧
      (frees sys1.trace).length = grown.length + 1 ∧
      ((frees sys1.trace).map Prod.snd).sum = ((mallocs sys1.trace).map Prod.snd).sum := by
  obtain ⟨grown, hl, hm, hf⟩ := reachable_account hr
  have hlk := track_linked (reachable_track hr)
  have hd := destroy_eq L st.mgr st.sys grown _ hl hlk.2.1
  have hfr : frees (st.sys.trace ++
      (grown.map (fun a => Event.free a.ptr (AREA_MEM_SIZE L a.size)) ++
        [Event.free st.mgr.self (__MAX_MEM_SIZE L C)])) =
      grown.map (area_block L) ++ [(st.mgr.self, __MAX_MEM_SIZE L C)] := by
    have h1 := frees_map_free L grown
    simp only [frees] at hf h1 ⊢
    simp [List.filterMap_append, hf, h1, free_of]
  have hma : mallocs (st.sys.trace ++
      (grown.map (fun a => Event.free a.ptr (AREA_MEM_SIZE L a.size)) ++
        [Event.free st.mgr.self (__MAX_MEM_SIZE L C)])) = mallocs st.sys.trace := by
    have h1 := mallocs_map_free L grown
    simp only [mallocs] at h1 ⊢
    simp [List.filterMap_append, h1, malloc_of]
  have hrev : grown.map (area_block L) ++ [(st.mgr.self, __MAX_MEM_SIZE L C)] =
      (mallocs st.sys.trace).reverse := by
    rw [hm]; simp
  refine ⟨grown, _, hm, hd, hfr, ?_, ?_, ?_⟩
  · show frees _ = (mallocs _).reverse
    rw [hfr, hma, hrev]
  · show (frees _).length = _
    rw [hfr]; simp
  · show ((frees _).map Prod.snd).sum = ((mallocs _).map Prod.snd).sum
    rw [hfr, hma, hrev, List.map_reverse, List.sum_reverse]

theorem C6_destroy_accounting_witness :
    Reachable ⟨48, 24, 16⟩ 1
      ⟨⟨⟨7, 0⟩, [⟨⟨8, 0⟩, 3⟩, ⟨⟨7, 48⟩, 1⟩], [], 1, ⟨7, 88⟩, ⟨7, 88⟩, ⟨⟨7, 48⟩, 1⟩⟩,
        ⟨9, [Event.malloc 88 (some ⟨7, 0⟩), Event.access, Event.malloc 72 (some ⟨8, 0⟩),
          Event.lock, Event.access, Event.unlock, Event.lock, Event.access, Event.access,
          Event.unlock]⟩, [⟨7, 72⟩]⟩ ∧
    ∃ (grown : List MEM_AREA) (sys1 : Sys),
      mallocs [Event.malloc 88 (some ⟨7, 0⟩), Event.access, Event.malloc 72 (some ⟨8, 0⟩),
          Event.lock, Event.access, Event.unlock, Event.lock, Event.access, Event.access,
          Event.unlock] =
        (⟨7, 0⟩, __MAX_MEM_SIZE ⟨48, 24, 16⟩ 1) ::
          (grown.map (area_block ⟨48, 24, 16⟩)).reverse ∧
      destroy_mem_mgr ⟨48, 24, 16⟩
          ⟨⟨7, 0⟩, [⟨⟨8, 0⟩, 3⟩, ⟨⟨7, 48⟩, 1⟩], [], 1, ⟨7, 88⟩, ⟨7, 88⟩, ⟨⟨7, 48⟩, 1⟩⟩
          ⟨9, [Event.malloc 88 (some ⟨7, 0⟩), Event.access, Event.malloc 72 (some ⟨8, 0⟩),
            Event.lock, Event.access, Event.unlock, Event.lock, Event.access, Event.access,
            Event.unlock]⟩ = Run.done sys1 ∧
      frees sys1.trace =
        grown.map (area_block ⟨48, 24, 16⟩) ++ [(⟨7, 0⟩, __MAX_MEM_SIZE ⟨48, 24, 16⟩ 1)] ∧
      frees sys1.trace = (mallocs sys1.trace).reverse ∧
      (frees sys1.trace).length = grown.length + 1 ∧
      ((frees sys1.trace).map Prod.snd).sum = ((mallocs sys1.trace).map Prod.snd).sum :=
  have hr : Reachable ⟨48, 24, 16⟩ 1
      ⟨⟨⟨7, 0⟩, [⟨⟨8, 0⟩, 3⟩, ⟨⟨7, 48⟩, 1⟩], [], 1, ⟨7, 88⟩, ⟨7, 88⟩, ⟨⟨7, 48⟩, 1⟩⟩,
        ⟨9, [Event.malloc 88 (some ⟨7, 0⟩), Event.access, Event.malloc 72 (some ⟨8, 0⟩),
          Event.lock, Event.access, Event.unlock, Event.lock, Event.access, Event.access,
          Event.unlock]⟩, [⟨7, 72⟩]⟩ :=
    Reachable.after (Op.get 0 []) _ _
      (Reachable.after (Op.enlarge 3 true) _ _
        (Reachable.create 7 _ _ (by decide) rfl) rfl) rfl
  ⟨hr, C6_destroy_accounting ⟨48, 24, 16⟩ 1 _ hr⟩

theorem sum_obj_size_one (L : Layout) (ho : L.obj < SIZE_MOD) : __SUM_OBJ_SIZE L 1 = L.obj := by
  simp [__SUM_OBJ_SIZE, size_mul, Nat.mod_eq_of_lt ho]

/-- Rounding up: if the header `H` plus `n` slots is `s` bytes, the padding `p` up to the
boundary is a whole number of slots, and `b` is the byte size of `n + p / o` slots, then `b`
is on the boundary. -/
theorem bytes_up_aligned (H o n p s b P : Nat) (hP : P ∣ SIZE_MOD) (hop : o ∣ p)
    (hsp : (s + p) % P = 0) (hs : s ≡ H + o * n [MOD SIZE_MOD])
    (hb : b ≡ H + o * size_add n (p / o) [MOD SIZE_MOD]) : b % P = 0 := by
  have hm : size_add n (p / o) ≡ n + p / o [MOD SIZE_MOD] := Nat.mod_modEq _ _
  have h1 : H + o * size_add n (p / o) ≡ H + o * (n + p / o) [MOD SIZE_MOD] :=
    (Nat.ModEq.refl H).add ((Nat.ModEq.refl o).mul hm)
  have h2 : H + o * (n + p / o) = H + o * n + p := by
    rw [Nat.mul_add, Nat.mul_div_cancel' hop, Nat.add_assoc]
  rw [h2] at h1
  have h3 : b ≡ s + p [MOD SIZE_MOD] := (hb.trans h1).trans (hs.symm.add (Nat.ModEq.refl p))
  have h4 : b ≡ s + p [MOD P] := h3.of_dvd hP
  have h5 : b % P = (s + p) % P := h4
  rw [h5, hsp]

/-- Rounding down: if the header `H` plus `n` slots is `s` bytes, the excess `p = s mod P`
over the boundary is a whole number of slots, and `b` is the byte size of `n - p / o` slots
(in `size_t` arithmetic), then `b` is on the boundary. -/
theorem bytes_down_aligned (H o n p s b P : Nat) (hP : P ∣ SIZE_MOD) (hop : o ∣ p)
    (hsp : p = s % P) (hs : s ≡ H + o * n [MOD SIZE_MOD])
    (hb : b ≡ H + o * size_sub (size_sub n (p / o)) 0 [MOD SIZE_MOD]) : b % P = 0 := by
  have hm0 : size_sub (size_sub n (p / o)) 0 ≡ size_sub n (p / o) [MOD SIZE_MOD] := by
    simpa using size_sub_modEq (size_sub n (p / o)) 0
  have hm1 : size_sub (size_sub n (p / o)) 0 + p / o ≡ n [MOD SIZE_MOD] :=
    (hm0.add (Nat.ModEq.refl _)).trans (size_sub_modEq n (p / o))
  have h1 : o * (size_sub (size_sub n (p / o)) 0 + p / o) ≡ o * n [MOD SIZE_MOD] :=
    (Nat.ModEq.refl o).mul hm1
  rw [Nat.mul_add, Nat.mul_div_cancel' hop] at h1
  have h2 : b + p ≡ s [MOD SIZE_MOD] := by
    have := (hb.add (Nat.ModEq.refl p)).trans
      (show H + o * size_sub (size_sub n (p / o)) 0 + p ≡ H + o * n [MOD SIZE_MOD] by
        rw [Nat.add_assoc]; exact (Nat.ModEq.refl H).add h1)
    exact this.trans hs.symm
  have h3 : b + p ≡ s [MOD P] := h2.of_dvd hP
  have h4 : s ≡ 0 + p [MOD P] := by
    rw [hsp, Nat.zero_add]
    exact (Nat.mod_modEq _ _).symm
  have h5 : b ≡ 0 [MOD P] := Nat.ModEq.add_right_cancel' p (h3.trans h4)
  have h6 : b % P = 0 % P := h5
  simpa using h6

/-- C7, counterexample: with `sizeof(MEM_MGR_TYPE) = 48`, `sizeof(MEM_AREA_TYPE) = 24`,
`sizeof(MEM_OBJ_TYPE) = 16` and `ALLOC_ALIGNMENT = 4096`, `size_align_up(1)` is 254 and an
arena of 254 slots takes `24 + 16 * 254 = 4088` bytes, which is not a multiple of 4096;
likewise `init_align_up(1)` is 251 and `__MAX_MEM_SIZE(251)` is 4088. -/
theorem C7_alignment_divisibility_counterexample :
    IS_POWER_OF_2 4096 = true ∧
    size_align_up ⟨48, 24, 16⟩ 4096 1 = Run.done 254 ∧
    AREA_MEM_SIZE ⟨48, 24, 16⟩ 254 % 4096 = 4088 ∧
    init_align_up ⟨48, 24, 16⟩ 4096 1 = Run.done 251 ∧
    __MAX_MEM_SIZE ⟨48, 24, 16⟩ 251 % 4096 = 4088 := by
  decide

/-- C7, amended: for every slot count `n`, every power-of-two `ALLOC_ALIGNMENT` `P` and
every choice of the structure sizes, the byte size derived from the result of a helper, in
`size_t` arithmetic, is an exact multiple of `P` whenever the padding `p` the helper
computes (the distance from the byte size of `n` slots to the aligned boundary) is a
multiple of `sizeof(MEM_OBJ_TYPE)`: `sizeof(MEM_AREA_TYPE) + sizeof(MEM_OBJ_TYPE) * m` for
`m = size_align_down(n)` and `m = size_align_up(n)`, and `__MAX_MEM_SIZE(m)` for
`m = init_align_down(n)` and `m = init_align_up(n)`. -/
theorem C7_alignment_divisibility (L : Layout) (P n k : Nat) (hP : P = 2 ^ k) (hk : k < 64)
    (ho : L.obj < SIZE_MOD) :
    (L.obj ∣ pad_down (AREA_MEM_SIZE L n) P →
      ∃ m, size_align_down L P n = Run.done m ∧ AREA_MEM_SIZE L m % P = 0) ∧
    (L.obj ∣ pad_up (AREA_MEM_SIZE L n) P →
      ∃ m, size_align_up L P n = Run.done m ∧ AREA_MEM_SIZE L m % P = 0) ∧
    (L.obj ∣ pad_down (__MAX_MEM_SIZE L n) P →
      ∃ m, init_align_down L P n = Run.done m ∧ __MAX_MEM_SIZE L m % P = 0) ∧
    (L.obj ∣ pad_up (__MAX_MEM_SIZE L n) P →
      ∃ m, init_align_up L P n = Run.done m ∧ __MAX_MEM_SIZE L m % P = 0) := by
  subst hP
  have hdvd := pow2_dvd_size_mod hk
  have h2 := is_power_of_2_pow k
  have h1 := sum_obj_size_one L ho
  have hA : AREA_MEM_SIZE L n < SIZE_MOD := size_add_lt _ _
  have hM : __MAX_MEM_SIZE L n < SIZE_MOD := size_add_lt _ _
  refine ⟨fun hd => ?_, fun hd => ?_, fun hd => ?_, fun hd => ?_⟩
  · refine ⟨_, by simp only [size_align_down, h2, if_true, max_sub_mgr, h1]; rfl, ?_⟩
    rw [Nat.mod_eq_zero_of_dvd hd]
    simp only [ne_eq, not_true_eq_false, if_false]
    exact bytes_down_aligned L.area L.obj n _ (AREA_MEM_SIZE L n) _ _ hdvd hd
      (pad_down_eq _ k hA) (area_mem_size_modEq L n) (area_mem_size_modEq L _)
  · refine ⟨_, by simp only [size_align_up, h2, if_true, max_sub_mgr, h1]; rfl, ?_⟩
    exact bytes_up_aligned L.area L.obj n _ (AREA_MEM_SIZE L n) _ _ hdvd hd
      (pad_up_spec _ k hA hk).2 (area_mem_size_modEq L n) (area_mem_size_modEq L _)
  · refine ⟨_, by simp only [init_align_down, h2, if_true, h1]; rfl, ?_⟩
    rw [Nat.mod_eq_zero_of_dvd hd]
    simp only [ne_eq, not_true_eq_false, if_false]
    exact bytes_down_aligned (L.mgr + L.area) L.obj n _ (__MAX_MEM_SIZE L n) _ _ hdvd hd
      (pad_down_eq _ k hM) (max_mem_size_modEq L n) (max_mem_size_modEq L _)
  · refine ⟨_, by simp only [init_align_up, h2, if_true, h1]; rfl, ?_⟩
    exact bytes_up_aligned (L.mgr + L.area) L.obj n _ (__MAX_MEM_SIZE L n) _ _ hdvd hd
      (pad_up_spec _ k hM hk).2 (max_mem_size_modEq L n) (max_mem_size_modEq L _)

theorem C7_alignment_divisibility_witness :
    (4096 = 2 ^ 12 ∧ 12 < 64 ∧ (Layout.mk 48 32 16).obj < SIZE_MOD) ∧
    (∃ m, size_align_down ⟨48, 32, 16⟩ 4096 1000 = Run.done m ∧
      AREA_MEM_SIZE ⟨48, 32, 16⟩ m % 4096 = 0) ∧
    (∃ m, size_align_up ⟨48, 32, 16⟩ 4096 1000 = Run.done m ∧
      AREA_MEM_SIZE ⟨48, 32, 16⟩ m % 4096 = 0) ∧
    (∃ m, init_align_down ⟨48, 32, 16⟩ 4096 1000 = Run.done m ∧
      __MAX_MEM_SIZE ⟨48, 32, 16⟩ m % 4096 = 0) ∧
    (∃ m, init_align_up ⟨48, 32, 16⟩ 4096 1000 = Run.done m ∧
      __MAX_MEM_SIZE ⟨48, 32, 16⟩ m % 4096 = 0) :=
  have h := C7_alignment_divisibility ⟨48, 32, 16⟩ 4096 1000 12 (by decide) (by decide)
    (by decide)
  ⟨⟨by decide, by decide, by decide⟩, h.1 (by decide), h.2.1 (by decide), h.2.2.1 (by decide),
    h.2.2.2 (by decide)⟩

theorem pad_div_lt (s k o : Nat) (hs : s < SIZE_MOD) (hk : k < 64) :
    pad_up s (2 ^ k) / o < 2 ^ k :=
  Nat.lt_of_le_of_lt (Nat.div_le_self _ _) (pad_up_spec s k hs hk).1

theorem align_up_ge (n p o P : Nat) (hp : p / o < P) (hn : n + P ≤ SIZE_MOD) :
    n ≤ size_add n (p / o) := by
  unfold size_add
  rw [Nat.mod_eq_of_lt (by omega)]
  exact Nat.le_add_right _ _

theorem align_down_le (H o n s P : Nat) (hs : s = H + o * n)
    (hn : n < SIZE_MOD) (hh : H ≤ s - s % P) :
    size_sub (size_sub n (s % P / o)) (if s % P % o ≠ 0 then 1 else 0) ≤ n := by
  have hp : s % P ≤ o * n := by
    have := Nat.mod_le s P
    omega
  have hq : s % P / o ≤ n := by
    apply Nat.div_le_of_le_mul
    exact hp
  rw [size_sub_of_le hn hq]
  by_cases hr : s % P % o = 0
  · simp only [hr, ne_eq, not_true_eq_false, if_false]
    rw [size_sub_of_le (Nat.lt_of_le_of_lt (Nat.sub_le _ _) hn) (Nat.zero_le _)]
    exact Nat.le_trans (Nat.sub_le _ _) (Nat.sub_le _ _)
  · simp only [ne_eq, hr, not_false_eq_true, if_true]
    have hlt : s % P < o * n := by
      rcases Nat.lt_or_ge (s % P) (o * n) with h | h
      · exact h
      · have he : s % P = o * n := Nat.le_antisymm hp h
        rw [he, Nat.mul_mod_right] at hr
        exact absurd rfl hr
    have hq1 : s % P / o < n := Nat.div_lt_of_lt_mul hlt
    rw [size_sub_of_le (Nat.lt_of_le_of_lt (Nat.sub_le _ _) hn) (Nat.sub_pos_of_lt hq1)]
    exact Nat.le_trans (Nat.sub_le _ _) (Nat.sub_le _ _)

theorem area_mem_size_exact (L : Layout) (n : Nat) (h : L.area + L.obj * n < SIZE_MOD) :
    AREA_MEM_SIZE L n = L.area + L.obj * n :=
  Nat.ModEq.eq_of_lt_of_lt (area_mem_size_modEq L n) (size_add_lt _ _) h

theorem max_mem_size_exact (L : Layout) (n : Nat) (h : L.mgr + L.area + L.obj * n < SIZE_MOD) :
    __MAX_MEM_SIZE L n = L.mgr + L.area + L.obj * n :=
  Nat.ModEq.eq_of_lt_of_lt (max_mem_size_modEq L n) (size_add_lt _ _) h

/-- C8, counterexample: with `sizeof(MEM_MGR_TYPE) = 48`, `sizeof(MEM_AREA_TYPE) = 24`,
`sizeof(MEM_OBJ_TYPE) = 16` and `ALLOC_ALIGNMENT = 4096`, the subtraction in
`size_align_down(1)` wraps and the result is `2 ^ 64 - 2`, which is not at most 1; likewise
`init_align_down(1)` is `2 ^ 64 - 5`. -/
theorem C8_alignment_ordering_counterexample :
    IS_POWER_OF_2 4096 = true ∧
    size_align_down ⟨48, 24, 16⟩ 4096 1 = Run.done 18446744073709551614 ∧
    ¬ 18446744073709551614 ≤ 1 ∧
    init_align_down ⟨48, 24, 16⟩ 4096 1 = Run.done 18446744073709551611 ∧
    ¬ 18446744073709551611 ≤ 1 := by
  decide

/-- C8, amended: for every slot count `n > 0` and every power-of-two `ALLOC_ALIGNMENT` `P`,
with results as the code computes them in `size_t` arithmetic: `n ≤ size_align_up(n)` and
`n ≤ init_align_up(n)` whenever `n + P` does not exceed `2 ^ 64`; and
`size_align_down(n) ≤ n` (`init_align_down(n) ≤ n`) whenever the byte size of `n` slots
fits in `size_t` and, rounded down to `P`, is at least the fixed header size
`sizeof(MEM_AREA_TYPE)` (`__MIN_MEM_SIZE()`). -/
theorem C8_alignment_ordering (L : Layout) (P n k : Nat) (hP : P = 2 ^ k) (hk : k < 64)
    (hn : 0 < n) (ho : 0 < L.obj) :
    (n + P ≤ SIZE_MOD → ∃ m, size_align_up L P n = Run.done m ∧ n ≤ m) ∧
    (n + P ≤ SIZE_MOD → ∃ m, init_align_up L P n = Run.done m ∧ n ≤ m) ∧
    (L.area + L.obj * n < SIZE_MOD →
      L.area ≤ ALIGN_DOWN_POW2 (AREA_MEM_SIZE L n) P →
      ∃ m, size_align_down L P n = Run.done m ∧ m ≤ n) ∧
    (L.mgr + L.area + L.obj * n < SIZE_MOD →
      L.mgr + L.area ≤ ALIGN_DOWN_POW2 (__MAX_MEM_SIZE L n) P →
      ∃ m, init_align_down L P n = Run.done m ∧ m ≤ n) := by
  subst hP
  have h2 := is_power_of_2_pow k
  have hA : AREA_MEM_SIZE L n < SIZE_MOD := size_add_lt _ _
  have hM : __MAX_MEM_SIZE L n < SIZE_MOD := size_add_lt _ _
  have hmul : L.obj ≤ L.obj * n := Nat.le_mul_of_pos_right _ hn
  have hmul2 : n ≤ L.obj * n := Nat.le_mul_of_pos_left _ ho
  refine ⟨fun hb => ?_, fun hb => ?_, fun hb hh => ?_, fun hb hh => ?_⟩
  · refine ⟨_, by simp only [size_align_up, h2, if_true, max_sub_mgr]; rfl, ?_⟩
    exact align_up_ge n _ _ _ (pad_div_lt _ k _ hA hk) hb
  · refine ⟨_, by simp only [init_align_up, h2, if_true]; rfl, ?_⟩
    exact align_up_ge n _ _ _ (pad_div_lt _ k _ hM hk) hb
  · have h1 := sum_obj_size_one L (by omega)
    refine ⟨_, by simp only [size_align_down, h2, if_true, max_sub_mgr, h1]; rfl, ?_⟩
    rw [pad_down_eq _ k hA]
    rw [align_down_eq] at hh
    exact align_down_le L.area L.obj n _ _ (area_mem_size_exact L n hb) (by omega) hh
  · have h1 := sum_obj_size_one L (by omega)
    refine ⟨_, by simp only [init_align_down, h2, if_true, h1]; rfl, ?_⟩
    rw [pad_down_eq _ k hM]
    rw [align_down_eq] at hh
    exact align_down_le (L.mgr + L.area) L.obj n _ _ (max_mem_size_exact L n hb) (by omega) hh

theorem C8_alignment_ordering_witness :
    (4096 = 2 ^ 12 ∧ 12 < 64 ∧ 0 < 1000 ∧ 0 < (Layout.mk 48 24 16).obj) ∧
    (∃ m, size_align_up ⟨48, 24, 16⟩ 4096 1000 = Run.done m ∧ 1000 ≤ m) ∧
    (∃ m, init_align_up ⟨48, 24, 16⟩ 4096 1000 = Run.done m ∧ 1000 ≤ m) ∧
    (∃ m, size_align_down ⟨48, 24, 16⟩ 4096 1000 = Run.done m ∧ m ≤ 1000) ∧
    (∃ m, init_align_down ⟨48, 24, 16⟩ 4096 1000 = Run.done m ∧ m ≤ 1000) :=
  have h := C8_alignment_ordering ⟨48, 24, 16⟩ 4096 1000 12 (by decide) (by decide)
    (by decide) (by decide)
  ⟨⟨by decide, by decide, by decide, by decide⟩, h.1 (by decide), h.2.1 (by decide),
    h.2.2.1 (by decide) (by decide), h.2.2.2 (by decide) (by decide)⟩

/-- C9: failure atomicity.  On a manager whose arena list is linked (every reachable state is
one), `enlarge_mem_mgr(mgr, G)` with `G > 0` returns `NULL` exactly when `system_malloc`
fails; an acquisition that returns, returns `NULL` exactly when the cursor is exhausted, the
free list is empty, no banked arena exists, and either no hint was given or `system_malloc`
fails; whenever one of them returns `NULL` the manager (`area_list`, `free_list`, `size`,
cursor, cursor limit, `active_area`) is the one before the call.  On a well-formed manager
the acquisition does return when the byte size of its hint does not overflow. -/
theorem C9_failure_atomicity (L : Layout) (mgr : MEM_MGR) (sys : Sys) (G size : Nat)
    (ok : Bool) (oks : List Bool) (hlk : Linked mgr sys) (hG : 0 < G) :
    (∃ r mgr1 sys1,
      enlarge_mem_mgr L mgr G ok sys = Run.done (r, mgr1, sys1) ∧
      (r = none ↔ ok = false) ∧ (r = none → mgr1 = mgr)) ∧
    (∀ r mgr1 sys1,
      get_mem_obj_from_mgr_enlarge L mgr size oks sys = Run.done (r, mgr1, sys1) →
      (r = none ↔
        (mgr.obj = mgr.obj_limit ∧ mgr.free_list = [] ∧
          LISTP_PREV_ENTRY mgr.active_area mgr.area_list = none ∧
          (size = 0 ∨ first_ok oks = false))) ∧
      (r = none → mgr1 = mgr)) ∧
    (WF L mgr sys → hint_fits L size → ∃ r mgr1 sys1,
      get_mem_obj_from_mgr_enlarge L mgr size oks sys = Run.done (r, mgr1, sys1)) := by
  have hsz : G ≠ 0 := Nat.pos_iff_ne_zero.mp hG
  refine ⟨?_, ?_, ?_⟩
  · cases ok with
    | false => exact ⟨_, _, _, enlarge_fails L mgr G sys hsz, by simp, fun _ => rfl⟩
    | true => exact ⟨_, _, _, enlarge_ok L mgr G sys hsz, by simp, by simp⟩
  · intro r mgr1 sys1 hr
    rcases get_returns L hlk size oks r mgr1 sys1 hr with ⟨x, fl, hf, _, hg⟩ |
      ⟨hf, hne, _, hg⟩ | ⟨hf, he, area, hp, _, hg⟩ | ⟨hf, he, hp, h0, hg⟩ |
      ⟨hf, he, hp, h0, hok, hg⟩ | ⟨hf, he, hp, h0, hok, _, hg⟩
    all_goals
      rw [hg] at hr
      simp only [Run.done.injEq, Prod.mk.injEq] at hr
      obtain ⟨hr1, hr2, _⟩ := hr
      subst hr1 hr2
    · exact ⟨by simp [hf], by simp⟩
    · exact ⟨by simp [hne], by simp⟩
    · exact ⟨by simp [hp], by simp⟩
    · exact ⟨by simp [hf, he, hp, h0], fun _ => rfl⟩
    · exact ⟨by simp [hf, he, hp, hok], fun _ => rfl⟩
    · exact ⟨by simp [h0, hok], by simp⟩
  · intro hw hfit
    obtain ⟨r, mgr1, sys1, hg, _⟩ := get_wf hw size oks hfit
    exact ⟨r, mgr1, sys1, hg⟩

theorem C9_failure_atomicity_witness :
    (Linked ⟨⟨7, 0⟩, [⟨⟨7, 48⟩, 1⟩], [], 1, ⟨7, 88⟩, ⟨7, 88⟩, ⟨⟨7, 48⟩, 1⟩⟩ ⟨8, []⟩ ∧
      0 < 4 ∧
      WF ⟨48, 24, 16⟩ ⟨⟨7, 0⟩, [⟨⟨7, 48⟩, 1⟩], [], 1, ⟨7, 88⟩, ⟨7, 88⟩, ⟨⟨7, 48⟩, 1⟩⟩ ⟨8, []⟩ ∧
      hint_fits ⟨48, 24, 16⟩ 5) ∧
    (∃ r mgr1 sys1,
      enlarge_mem_mgr ⟨48, 24, 16⟩
          ⟨⟨7, 0⟩, [⟨⟨7, 48⟩, 1⟩], [], 1, ⟨7, 88⟩, ⟨7, 88⟩, ⟨⟨7, 48⟩, 1⟩⟩ 4 false ⟨8, []⟩ =
        Run.done (r, mgr1, sys1) ∧
      (r = none ↔ false = false) ∧
      (r = none →
        mgr1 = ⟨⟨7, 0⟩, [⟨⟨7, 48⟩, 1⟩], [], 1, ⟨7, 88⟩, ⟨7, 88⟩, ⟨⟨7, 48⟩, 1⟩⟩)) ∧
    (∀ r mgr1 sys1,
      get_mem_obj_from_mgr_enlarge ⟨48, 24, 16⟩
          ⟨⟨7, 0⟩, [⟨⟨7, 48⟩, 1⟩], [], 1, ⟨7, 88⟩, ⟨7, 88⟩, ⟨⟨7, 48⟩, 1⟩⟩ 5 [false] ⟨8, []⟩ =
        Run.done (r, mgr1, sys1) →
      (r = none ↔
        ((⟨7, 88⟩ : Ptr) = ⟨7, 88⟩ ∧ ([] : List Ptr) = [] ∧
          LISTP_PREV_ENTRY ⟨⟨7, 48⟩, 1⟩ [⟨⟨7, 48⟩, 1⟩] = none ∧
          (5 = 0 ∨ first_ok [false] = false))) ∧
      (r = none →
        mgr1 = ⟨⟨7, 0⟩, [⟨⟨7, 48⟩, 1⟩], [], 1, ⟨7, 88⟩, ⟨7, 88⟩, ⟨⟨7, 48⟩, 1⟩⟩)) ∧
    ∃ r mgr1 sys1,
      get_mem_obj_from_mgr_enlarge ⟨48, 24, 16⟩
          ⟨⟨7, 0⟩, [⟨⟨7, 48⟩, 1⟩], [], 1, ⟨7, 88⟩, ⟨7, 88⟩, ⟨⟨7, 48⟩, 1⟩⟩ 5 [false] ⟨8, []⟩ =
        Run.done (r, mgr1, sys1) :=
  have hw : WF ⟨48, 24, 16⟩
      ⟨⟨7, 0⟩, [⟨⟨7, 48⟩, 1⟩], [], 1, ⟨7, 88⟩, ⟨7, 88⟩, ⟨⟨7, 48⟩, 1⟩⟩ ⟨8, []⟩ :=
    ⟨by decide, by decide, by decide, by decide, by decide, 1, by decide, by decide⟩
  have hlk : Linked ⟨⟨7, 0⟩, [⟨⟨7, 48⟩, 1⟩], [], 1, ⟨7, 88⟩, ⟨7, 88⟩, ⟨⟨7, 48⟩, 1⟩⟩ ⟨8, []⟩ :=
    ⟨by decide, by decide, by decide⟩
  have h := C9_failure_atomicity ⟨48, 24, 16⟩ _ _ 4 5 false [false] hlk (by decide)
  ⟨⟨hlk, by decide, hw, by decide⟩, h.1, h.2.1, h.2.2 hw (by decide)⟩

theorem max_mem_size_eq (L : Layout) (C : Nat) :
    __MAX_MEM_SIZE L C = (L.mgr + L.area + C * L.obj) % SIZE_MOD := by
  simp only [__MAX_MEM_SIZE, __MIN_MEM_SIZE, __SUM_OBJ_SIZE, size_add, size_mul]
  rw [Nat.mul_comm C L.obj]
  simp [Nat.add_mod]

/-- C10, counterexample: with structure sizes 48, 24 and 16 and `C = 2 ^ 60`,
`create_mem_mgr(C)` allocates `__MAX_MEM_SIZE(C)` = 72 bytes (the byte size overflows
`size_t`) and succeeds; the cursor limit `area->objs + C` wraps back onto the cursor, so the
cursor range `[cursor, cursor_limit)` is empty and covers none of the `C` slots. -/
theorem C10_create_counterexample :
    ∃ mgr sys1,
      create_mem_mgr ⟨48, 24, 16⟩ (2 ^ 60) true ⟨7, []⟩ = Run.done (some mgr, sys1) ∧
      sys1.trace = [Event.malloc 72 (some ⟨7, 0⟩), Event.access] ∧
      mgr.active_area.size = 2 ^ 60 ∧
      mgr.obj = mgr.obj_limit ∧
      untouched mgr (slot ⟨48, 24, 16⟩ mgr.active_area 0) = false :=
  ⟨⟨⟨7, 0⟩, [⟨⟨7, 48⟩, 2 ^ 60⟩], [], 2 ^ 60, ⟨7, 72⟩, ⟨7, 72⟩, ⟨⟨7, 48⟩, 2 ^ 60⟩⟩,
    ⟨8, [Event.malloc 72 (some ⟨7, 0⟩), Event.access]⟩,
    by decide, by decide, by decide, by decide, by decide⟩

/-- C10, amended: `create_mem_mgr(C)` with `C > 0` calls `system_malloc` exactly once, with
`__MAX_MEM_SIZE(C) = sizeof(MEM_MGR_TYPE) + sizeof(MEM_AREA_TYPE) + C * sizeof(MEM_OBJ_TYPE)`
bytes (in `size_t` arithmetic), and returns `NULL` if and only if that call fails.  On
success the manager lies at the returned block, `area_list` is the single arena of capacity
`C`, `free_list` is empty, `active_area` is that arena, the cursor is on its slot 0 and the
cursor limit is `area->objs + C`; when the byte size `__MAX_MEM_SIZE(C)` does not overflow
`size_t`, the cursor range `[cursor, cursor_limit)` covers all `C` of its slots, which are
pairwise distinct. -/
theorem C10_create (L : Layout) (C : Nat) (ok : Bool) (sys : Sys) (hC : 0 < C) :
    ∃ r sys1,
      create_mem_mgr L C ok sys = Run.done (r, sys1) ∧
      malloc_calls sys1.trace =
        malloc_calls sys.trace ++ [Event.malloc (__MAX_MEM_SIZE L C) (r.map MEM_MGR.self)] ∧
      __MAX_MEM_SIZE L C = (L.mgr + L.area + C * L.obj) % SIZE_MOD ∧
      (r = none ↔ ok = false) ∧
      ∀ mgr, r = some mgr →
        ∃ a, mgr.area_list = [a] ∧ a.size = C ∧ mgr.free_list = [] ∧ mgr.active_area = a ∧
          mgr.obj = slot L a 0 ∧ mgr.obj_limit = slot L a C ∧
          (0 < L.obj → L.mgr + L.area + L.obj * C < SIZE_MOD →
            (∀ i, i < C → untouched mgr (slot L a i) = true) ∧
            untouched mgr (slot L a C) = false ∧ (slots_upto L a C).Nodup) := by
  cases ok with
  | false =>
    refine ⟨_, _, create_fails L C sys hC, ?_, max_mem_size_eq L C, by simp, by simp⟩
    simp [malloc_calls, is_malloc]
  | true =>
    refine ⟨_, _, create_ok L C sys hC, ?_, max_mem_size_eq L C, by simp, ?_⟩
    · simp [malloc_calls, is_malloc]
    · intro mgr hm
      simp only [Option.some.injEq] at hm
      subst hm
      refine ⟨⟨⟨sys.next, L.mgr % SIZE_MOD⟩, C⟩, rfl, rfl, rfl, rfl, rfl, rfl, ?_⟩
      intro ho hfit
      have hfa := @fits_embedded L C sys.next hfit
      refine ⟨?_, ?_, nodup_slots_upto L _ C ho hfa (Nat.le_refl _)⟩
      · intro i hi
        have hlt := (Nat.mul_lt_mul_left ho).mpr hi
        simp only [untouched]
        rw [slot_fit hfa (Nat.zero_le _), slot_fit hfa (Nat.le_refl _),
          slot_fit hfa (Nat.le_of_lt hi)]
        simp only [decide_eq_true_eq, true_and]
        omega
      · simp only [untouched]
        rw [slot_fit hfa (Nat.zero_le _), slot_fit hfa (Nat.le_refl _)]
        simp

theorem C10_create_witness :
    (0 < 3 ∧ 0 < (Layout.mk 48 24 16).obj ∧ 48 + 24 + 16 * 3 < SIZE_MOD) ∧
    ∃ r sys1,
      create_mem_mgr ⟨48, 24, 16⟩ 3 true ⟨7, []⟩ = Run.done (r, sys1) ∧
      malloc_calls sys1.trace =
        malloc_calls (Sys.mk 7 []).trace ++
          [Event.malloc (__MAX_MEM_SIZE ⟨48, 24, 16⟩ 3) (r.map MEM_MGR.self)] ∧
      __MAX_MEM_SIZE ⟨48, 24, 16⟩ 3 = (48 + 24 + 3 * 16) % SIZE_MOD ∧
      (r = none ↔ true = false) ∧
      ∀ mgr, r = some mgr →
        ∃ a, mgr.area_list = [a] ∧ a.size = 3 ∧ mgr.free_list = [] ∧ mgr.active_area = a ∧
          mgr.obj = slot ⟨48, 24, 16⟩ a 0 ∧ mgr.obj_limit = slot ⟨48, 24, 16⟩ a 3 ∧
          (∀ i, i < 3 → untouched mgr (slot ⟨48, 24, 16⟩ a i) = true) ∧
          untouched mgr (slot ⟨48, 24, 16⟩ a 3) = false ∧
          (slots_upto ⟨48, 24, 16⟩ a 3).Nodup :=
  ⟨⟨by decide, by decide, by decide⟩,
    match C10_create ⟨48, 24, 16⟩ 3 true ⟨7, []⟩ (by decide) with
    | ⟨r, sys1, h1, h2, h3, h4, h5⟩ =>
      ⟨r, sys1, h1, h2, h3, h4, fun mgr hm =>
        match h5 mgr hm with
        | ⟨a, g1, g2, g3, g4, g5, g6, g7⟩ =>
          ⟨a, g1, g2, g3, g4, g5, g6, g7 (by decide) (by decide)⟩⟩⟩

theorem area_mem_size_eq (L : Layout) (G : Nat) :
    AREA_MEM_SIZE L G = (L.area + G * L.obj) % SIZE_MOD := by
  simp only [AREA_MEM_SIZE, __SUM_OBJ_SIZE, size_add, size_mul]
  rw [Nat.mul_comm G L.obj]
  simp [Nat.add_mod]

/-- C11: for every manager state and `G > 0`, `enlarge_mem_mgr(mgr, G)` calls
`system_malloc` exactly once, with `sizeof(MEM_AREA_TYPE) + G * sizeof(MEM_OBJ_TYPE)` bytes
(in `size_t` arithmetic), and succeeds exactly when that call does; a successful call returns
`mgr` and yields `area_list` = the new arena of capacity `G` in front of the previous
`area_list`, leaving cursor, cursor limit, `active_area`, `free_list` and the `size` field as
they were: the new arena is banked, not activated. -/
theorem C11_enlarge_frame (L : Layout) (mgr : MEM_MGR) (sys : Sys) (G : Nat) (ok : Bool)
    (hG : 0 < G) :
    ∃ r mgr1 sys1 res,
      enlarge_mem_mgr L mgr G ok sys = Run.done (r, mgr1, sys1) ∧
      malloc_calls sys1.trace =
        malloc_calls sys.trace ++ [Event.malloc (AREA_MEM_SIZE L G) res] ∧
      AREA_MEM_SIZE L G = (L.area + G * L.obj) % SIZE_MOD ∧
      (r ≠ none ↔ ok = true) ∧
      (r ≠ none →
        r = some mgr.self ∧
        ∃ p, res = some p ∧
          mgr1.area_list = ⟨p, G⟩ :: mgr.area_list ∧
          mgr1.obj = mgr.obj ∧ mgr1.obj_limit = mgr.obj_limit ∧
          mgr1.active_area = mgr.active_area ∧ mgr1.free_list = mgr.free_list ∧
          mgr1.size = mgr.size ∧ mgr1.self = mgr.self) := by
  have hsz : G ≠ 0 := Nat.pos_iff_ne_zero.mp hG
  cases ok with
  | false =>
    exact ⟨_, _, _, none, enlarge_fails L mgr G sys hsz, by simp [malloc_calls, is_malloc],
      area_mem_size_eq L G, by simp, by simp⟩
  | true =>
    exact ⟨_, _, _, some ⟨sys.next, 0⟩, enlarge_ok L mgr G sys hsz,
      by simp [malloc_calls, is_malloc], area_mem_size_eq L G, by simp,
      fun _ => ⟨rfl, ⟨sys.next, 0⟩, rfl, rfl, rfl, rfl, rfl, rfl, rfl, rfl⟩⟩

theorem C11_enlarge_frame_witness :
    0 < 3 ∧
    ∃ r mgr1 sys1 res,
      enlarge_mem_mgr ⟨48, 24, 16⟩
          ⟨⟨7, 0⟩, [⟨⟨7, 48⟩, 2⟩], [⟨7, 72⟩], 2, ⟨7, 88⟩, ⟨7, 104⟩, ⟨⟨7, 48⟩, 2⟩⟩ 3 true
          ⟨8, []⟩ = Run.done (r, mgr1, sys1) ∧
      malloc_calls sys1.trace =
        malloc_calls (Sys.mk 8 []).trace ++ [Event.malloc (AREA_MEM_SIZE ⟨48, 24, 16⟩ 3) res] ∧
      AREA_MEM_SIZE ⟨48, 24, 16⟩ 3 = (24 + 3 * 16) % SIZE_MOD ∧
      (r ≠ none ↔ true = true) ∧
      (r ≠ none →
        r = some ⟨7, 0⟩ ∧
        ∃ p, res = some p ∧
          mgr1.area_list = ⟨p, 3⟩ :: [⟨⟨7, 48⟩, 2⟩] ∧
          mgr1.obj = ⟨7, 88⟩ ∧ mgr1.obj_limit = ⟨7, 104⟩ ∧
          mgr1.active_area = ⟨⟨7, 48⟩, 2⟩ ∧ mgr1.free_list = [⟨7, 72⟩] ∧
          mgr1.size = 2 ∧ mgr1.self = ⟨7, 0⟩) :=
  ⟨by decide, C11_enlarge_frame ⟨48, 24, 16⟩ _ ⟨8, []⟩ 3 true (by decide)⟩

theorem block_inj (l : List MEM_AREA) (h : (l.map (fun a => a.ptr.block)).Nodup)
    (a b : MEM_AREA) (ha : a ∈ l) (hb : b ∈ l) (hab : a.ptr.block = b.ptr.block) : a = b :=
  List.inj_on_of_nodup_map h ha hb hab

theorem part_handed_nodup {L : Layout} (ho : 0 < L.obj) (pre post : List MEM_AREA)
    (a : MEM_AREA) (idx : Nat) (hf : ∀ b ∈ pre ++ a :: post, fits L b) (hidx : idx ≤ a.size)
    (hnd : ((pre ++ a :: post).map (fun a => a.ptr.block)).Nodup) :
    (slots_upto L a idx ++ arena_slots L post).Nodup := by
  apply nodup_handed L ho a post idx (fun b hb => hf b (List.mem_append_right _ hb)) hidx
  rw [List.map_append] at hnd
  exact hnd.of_append_right

/-- In a reachable state the free list and the live payloads together have no repetition,
whatever capacities were asked for. -/
theorem reachable_nodup {L : Layout} {C : Nat} {st : St} (hr : Reachable L C st) :
    (st.mgr.free_list ++ st.live).Nodup := by
  obtain ⟨_, _, _, _, _, _, _, _, _, h7, _⟩ := reachable_track hr
  exact h7

/-- C13, counterexample: after `create_mem_mgr(1)` and `enlarge_mem_mgr(mgr, 2)` the arena of
block 8 is in `area_list`, banked; its slot 0 is not in the free list, is not a live payload,
and is not in the untouched range `[obj, obj_limit)`, which lies in the active arena of
block 7: it belongs to none of the three classes.  And in the state produced by
`create_mem_mgr(2 ^ 60)` (structure sizes 48, 24, 16: the byte size overflows) the cursor
limit has wrapped back onto the cursor, the untouched range is empty, and slot 0 of the
active arena belongs to none of the three classes. -/
theorem C13_slot_partition_counterexample :
    (Reachable ⟨48, 24, 16⟩ (2 ^ 60)
      ⟨⟨⟨7, 0⟩, [⟨⟨7, 48⟩, 2 ^ 60⟩], [], 2 ^ 60, ⟨7, 72⟩, ⟨7, 72⟩, ⟨⟨7, 48⟩, 2 ^ 60⟩⟩,
        ⟨8, [Event.malloc 72 (some ⟨7, 0⟩), Event.access]⟩, []⟩ ∧
      classes
        ⟨⟨⟨7, 0⟩, [⟨⟨7, 48⟩, 2 ^ 60⟩], [], 2 ^ 60, ⟨7, 72⟩, ⟨7, 72⟩, ⟨⟨7, 48⟩, 2 ^ 60⟩⟩,
          ⟨8, [Event.malloc 72 (some ⟨7, 0⟩), Event.access]⟩, []⟩
        (slot ⟨48, 24, 16⟩ ⟨⟨7, 48⟩, 2 ^ 60⟩ 0) = 0) ∧
    Reachable ⟨48, 24, 16⟩ 1
      ⟨⟨⟨7, 0⟩, [⟨⟨8, 0⟩, 2⟩, ⟨⟨7, 48⟩, 1⟩], [], 1, ⟨7, 72⟩, ⟨7, 88⟩, ⟨⟨7, 48⟩, 1⟩⟩,
        ⟨9, [Event.malloc 88 (some ⟨7, 0⟩), Event.access, Event.malloc 56 (some ⟨8, 0⟩),
          Event.lock, Event.access, Event.unlock]⟩, []⟩ ∧
    (⟨⟨8, 0⟩, 2⟩ : MEM_AREA) ∈ [(⟨⟨8, 0⟩, 2⟩ : MEM_AREA), ⟨⟨7, 48⟩, 1⟩] ∧
    slot ⟨48, 24, 16⟩ ⟨⟨8, 0⟩, 2⟩ 0 ∉ ([] : List Ptr) ∧
    untouched ⟨⟨7, 0⟩, [⟨⟨8, 0⟩, 2⟩, ⟨⟨7, 48⟩, 1⟩], [], 1, ⟨7, 72⟩, ⟨7, 88⟩, ⟨⟨7, 48⟩, 1⟩⟩
      (slot ⟨48, 24, 16⟩ ⟨⟨8, 0⟩, 2⟩ 0) = false ∧
    classes
      ⟨⟨⟨7, 0⟩, [⟨⟨8, 0⟩, 2⟩, ⟨⟨7, 48⟩, 1⟩], [], 1, ⟨7, 72⟩, ⟨7, 88⟩, ⟨⟨7, 48⟩, 1⟩⟩,
        ⟨9, [Event.malloc 88 (some ⟨7, 0⟩), Event.access, Event.malloc 56 (some ⟨8, 0⟩),
          Event.lock, Event.access, Event.unlock]⟩, []⟩
      (slot ⟨48, 24, 16⟩ ⟨⟨8, 0⟩, 2⟩ 0) = 0 :=
  ⟨⟨Reachable.create 7 _ _ (by decide) (by decide), by decide⟩,
    Reachable.after (Op.enlarge 2 true) _ _ (Reachable.create 7 _ _ (by decide) rfl) rfl,
    by decide, by decide, by decide, by decide⟩

/-- C13, amended: slot partition invariant.  In every state reachable from `create_mem_mgr`
by acquisitions, valid releases and growths whose requested capacities have byte sizes that
do not overflow `size_t`, every slot of the active arena and of every arena linked behind it
in `area_list` belongs to exactly one of: the free list, the live payloads (acquired and not
yet released), the untouched range `[obj, obj_limit)` of the active arena; the slots of a
banked arena, linked in front of the active arena, belong to none of the three. -/
theorem C13_slot_partition (L : Layout) (C : Nat) (st : St) (hr : FitReachable L C st) :
    ∀ a ∈ st.mgr.area_list, ∀ i, i < a.size →
      classes st (slot L a i) = if a ∈ banked st.mgr then 0 else 1 := by
  have hw := reachable_wf hr
  have ho := hw.1
  obtain ⟨pre, post, idx, hl, hnd, hidx, hobj, hperm⟩ := reachable_part hr
  have hlim := hw.2.2.2.2.1
  have hndp := nodup_ptr_of_block _ hnd
  have hbk := (banked_eq st.mgr pre post hl (pre_ne_active pre post _ (hl ▸ hndp))).1
  have hfa := wf_active_fits hw
  have hhn : (slots_upto L st.mgr.active_area idx ++ arena_slots L post).Nodup :=
    part_handed_nodup ho pre post _ idx (fun b hb => (hw.2.1 b (hl ▸ hb)).2.2) hidx
      (hl ▸ hnd)
  have hlnd : (pre ++ st.mgr.active_area :: post).Nodup := by
    have := List.Nodup.of_map _ hnd
    rwa [hl] at this
  have hact : st.mgr.active_area ∈ st.mgr.area_list := hw.2.2.2.1
  have hcount : ∀ p, st.mgr.free_list.count p + st.live.count p =
      (slots_upto L st.mgr.active_area idx ++ arena_slots L post).count p := by
    intro p
    rw [← List.count_append]
    exact hperm.count_eq p
  intro a ha i hi
  have hsame : ∀ b, b ∈ st.mgr.area_list → (slot L a i).block = b.ptr.block → a = b :=
    fun b hb h => block_inj _ hnd a b ha hb h
  rw [hbk]
  unfold classes
  rw [hcount]
  have hsplit : a ∈ pre ∨ a = st.mgr.active_area ∨ a ∈ post := by
    rw [hl] at ha
    simpa [List.mem_append] using ha
  have hdis := List.disjoint_of_nodup_append hlnd
  have hactpost : st.mgr.active_area ∉ post := (List.nodup_cons.mp hlnd.of_append_right).1
  rcases hsplit with hpre | hactive | hpost
  · have hna : a ≠ st.mgr.active_area := fun h => hdis hpre (by simp [h])
    have hnpost : a ∉ post := fun h => hdis hpre (List.mem_cons_of_mem _ h)
    have hnot : slot L a i ∉ slots_upto L st.mgr.active_area idx ++ arena_slots L post := by
      intro hm
      rcases List.mem_append.mp hm with h1 | h1
      · obtain ⟨j, _, hj⟩ := (mem_slots_upto L _ idx _).mp h1
        exact hna (hsame _ hact (by rw [← hj]; rfl))
      · obtain ⟨b, hb, j, _, hj⟩ := (mem_arena_slots L _ post).mp h1
        have hbl : b ∈ st.mgr.area_list := by rw [hl]; simp [hb]
        have := hsame b hbl (by rw [← hj]; rfl)
        exact hnpost (this ▸ hb)
    have hunt : untouched st.mgr (slot L a i) = false := by
      simp only [untouched, decide_eq_false_iff_not, not_and]
      intro hb
      exact absurd (hsame _ hact (by rw [hb, hobj]; rfl)) hna
    simp [List.count_eq_zero_of_not_mem hnot, hunt, hpre]
  · subst hactive
    have hnpre : st.mgr.active_area ∉ pre := fun h => hdis h (by simp)
    rcases Nat.lt_or_ge i idx with hlt | hge
    · have hin : slot L st.mgr.active_area i ∈
          slots_upto L st.mgr.active_area idx ++ arena_slots L post :=
        List.mem_append_left _ ((mem_slots_upto L _ idx _).mpr ⟨i, hlt, rfl⟩)
      have hunt : untouched st.mgr (slot L st.mgr.active_area i) = false := by
        simp only [untouched, decide_eq_false_iff_not, not_and, hobj]
        intro _ hle
        rw [slot_fit hfa hidx, slot_fit hfa (Nat.le_of_lt hi)] at hle
        simp only [] at hle
        have := (Nat.mul_lt_mul_left ho).mpr hlt
        omega
      simp [List.count_eq_one_of_mem hhn hin, hunt, hnpre]
    · have hnot : slot L st.mgr.active_area i ∉
          slots_upto L st.mgr.active_area idx ++ arena_slots L post := by
        intro hm
        rcases List.mem_append.mp hm with h1 | h1
        · obtain ⟨j, hj1, hj⟩ := (mem_slots_upto L _ idx _).mp h1
          have := slot_inj L _ _ _ ho hfa (by omega) (Nat.le_of_lt hi) hj
          omega
        · obtain ⟨b, hb, j, _, hj⟩ := (mem_arena_slots L _ post).mp h1
          have hbl : b ∈ st.mgr.area_list := by rw [hl]; simp [hb]
          have := hsame b hbl (by rw [← hj]; rfl)
          exact hactpost (this ▸ hb)
      have hunt : untouched st.mgr (slot L st.mgr.active_area i) = true := by
        simp only [untouched, decide_eq_true_eq, hobj, hlim]
        rw [slot_fit hfa hidx, slot_fit hfa (Nat.le_of_lt hi), slot_fit hfa (Nat.le_refl _)]
        simp only [true_and]
        have h1 := Nat.mul_le_mul_left L.obj hge
        have h2 := (Nat.mul_lt_mul_left ho).mpr hi
        omega
      simp [List.count_eq_zero_of_not_mem hnot, hunt, hnpre]
  · have hna : a ≠ st.mgr.active_area := fun h => hactpost (h ▸ hpost)
    have hnpre : a ∉ pre := fun h => hdis h (List.mem_cons_of_mem _ hpost)
    have hin : slot L a i ∈ slots_upto L st.mgr.active_area idx ++ arena_slots L post :=
      List.mem_append_right _ ((mem_arena_slots L _ post).mpr ⟨a, hpost, i, hi, rfl⟩)
    have hunt : untouched st.mgr (slot L a i) = false := by
      simp only [untouched, decide_eq_false_iff_not, not_and]
      intro hb
      exact absurd (hsame _ hact (by rw [hb, hobj]; rfl)) hna
    simp [List.count_eq_one_of_mem hhn hin, hunt, hnpre]

theorem C13_slot_partition_witness :
    FitReachable ⟨48, 24, 16⟩ 1
      ⟨⟨⟨7, 0⟩, [⟨⟨8, 0⟩, 3⟩, ⟨⟨7, 48⟩, 1⟩], [], 1, ⟨7, 88⟩, ⟨7, 88⟩, ⟨⟨7, 48⟩, 1⟩⟩,
        ⟨9, [Event.malloc 88 (some ⟨7, 0⟩), Event.access, Event.malloc 72 (some ⟨8, 0⟩),
          Event.lock, Event.access, Event.unlock, Event.lock, Event.access, Event.access,
          Event.unlock]⟩, [⟨7, 72⟩]⟩ ∧
    ∀ a ∈ [(⟨⟨8, 0⟩, 3⟩ : MEM_AREA), ⟨⟨7, 48⟩, 1⟩], ∀ i, i < a.size →
      classes
        ⟨⟨⟨7, 0⟩, [⟨⟨8, 0⟩, 3⟩, ⟨⟨7, 48⟩, 1⟩], [], 1, ⟨7, 88⟩, ⟨7, 88⟩, ⟨⟨7, 48⟩, 1⟩⟩,
          ⟨9, [Event.malloc 88 (some ⟨7, 0⟩), Event.access, Event.malloc 72 (some ⟨8, 0⟩),
            Event.lock, Event.access, Event.unlock, Event.lock, Event.access, Event.access,
            Event.unlock]⟩, [⟨7, 72⟩]⟩ (slot ⟨48, 24, 16⟩ a i) =
        if a ∈ banked ⟨⟨7, 0⟩, [⟨⟨8, 0⟩, 3⟩, ⟨⟨7, 48⟩, 1⟩], [], 1, ⟨7, 88⟩, ⟨7, 88⟩,
          ⟨⟨7, 48⟩, 1⟩⟩ then 0 else 1 :=
  have hr : FitReachable ⟨48, 24, 16⟩ 1
      ⟨⟨⟨7, 0⟩, [⟨⟨8, 0⟩, 3⟩, ⟨⟨7, 48⟩, 1⟩], [], 1, ⟨7, 88⟩, ⟨7, 88⟩, ⟨⟨7, 48⟩, 1⟩⟩,
        ⟨9, [Event.malloc 88 (some ⟨7, 0⟩), Event.access, Event.malloc 72 (some ⟨8, 0⟩),
          Event.lock, Event.access, Event.unlock, Event.lock, Event.access, Event.access,
          Event.unlock]⟩, [⟨7, 72⟩]⟩ :=
    FitReachable.after (Op.get 0 []) _ _
      (FitReachable.after (Op.enlarge 3 true) _ _
        (FitReachable.create 7 _ _ (by decide) (by decide) rfl) (by decide) rfl)
      (by decide) rfl
  ⟨hr, C13_slot_partition ⟨48, 24, 16⟩ 1 _ hr⟩

/-- C14: for every manager state and every slot `x`, `free_mem_obj_to_mgr(mgr, x)` yields
`free_list` = `x` in front of the previous `free_list`, leaves `area_list`, `size`, cursor,
cursor limit and `active_area` as they were, and calls neither `system_malloc` nor
`system_free`: its events are lock, one access, unlock. -/
theorem C14_release_frame (mgr : MEM_MGR) (x : Ptr) (sys : Sys) :
    (free_mem_obj_to_mgr mgr x sys).1 = { mgr with free_list := x :: mgr.free_list } ∧
    (free_mem_obj_to_mgr mgr x sys).2 =
      ⟨sys.next, sys.trace ++ [Event.lock, Event.access, Event.unlock]⟩ ∧
    mallocs (free_mem_obj_to_mgr mgr x sys).2.trace = mallocs sys.trace ∧
    malloc_calls (free_mem_obj_to_mgr mgr x sys).2.trace = malloc_calls sys.trace ∧
    frees (free_mem_obj_to_mgr mgr x sys).2.trace = frees sys.trace := by
  rw [free_eq]
  simp [mallocs, malloc_of, malloc_calls, is_malloc, frees, free_of]

/-! ## Lock discipline of the acquisition -/

theorem lock_walk_append (a b : List Event) : ∀ (held : Bool),
    lock_walk held (a ++ b) = (lock_walk held a).bind (fun h => lock_walk h b) := by
  induction a with
  | nil => intro held; simp [lock_walk]
  | cons e es ih =>
    intro held
    cases e <;> cases held <;> simp [lock_walk, ih]

theorem lock_walk_count : ∀ (evs : List Event) (held held1 : Bool),
    lock_walk held evs = some held1 →
    evs.count Event.lock + (if held then 1 else 0) =
      evs.count Event.unlock + (if held1 then 1 else 0) := by
  intro evs
  induction evs with
  | nil => intro held held1 h; simp [lock_walk] at h; simp [h]
  | cons e es ih =>
    intro held held1 h
    cases e <;> cases held <;> simp [lock_walk] at h
    all_goals
      have := ih _ _ h
      simp [List.count_cons] at this ⊢
      omega

/-- The loop of the acquisition, entered with the lock held, is left with the lock released
on `return NULL` and with the lock held towards line 206; inside it every access is made
with the lock held and every call of `system_malloc` without it. -/
theorem loop_lock_walk (L : Layout) (size : Nat) : ∀ (oks : List Bool) (mgr : MEM_MGR)
    (sys : Sys),
    match get_loop L size oks mgr sys with
    | LoopExit.ret_null _ sys1 =>
      ∃ evs, sys1.trace = sys.trace ++ evs ∧ lock_walk true evs = some false
    | LoopExit.fall _ sys1 =>
      ∃ evs, sys1.trace = sys.trace ++ evs ∧ lock_walk true evs = some true
    | LoopExit.abort => True := by
  intro oks
  induction oks with
  | nil =>
    intro mgr sys
    by_cases hc : mgr.obj = mgr.obj_limit ∧ mgr.free_list = []
    · rcases hp : LISTP_PREV_ENTRY mgr.active_area mgr.area_list with _ | area
      · by_cases hsz : size = 0
        · subst hsz
          rw [loop_nohint L [] mgr sys hc.2 hc.1 hp]
          exact ⟨_, rfl, by decide⟩
        · rw [loop_malloc_fails L size [] mgr sys hsz hc.2 hc.1 hp rfl]
          exact ⟨_, rfl, by simp [lock_walk]⟩
      · rw [loop_banked L size [] mgr sys area hc.2 hc.1 hp]
        exact ⟨_, rfl, by decide⟩
    · rw [loop_skip L size [] mgr sys hc]
      exact ⟨_, rfl, by decide⟩
  | cons ok rest ih =>
    intro mgr sys
    by_cases hc : mgr.obj = mgr.obj_limit ∧ mgr.free_list = []
    · rcases hp : LISTP_PREV_ENTRY mgr.active_area mgr.area_list with _ | area
      · by_cases hsz : size = 0
        · subst hsz
          rw [loop_nohint L (ok :: rest) mgr sys hc.2 hc.1 hp]
          exact ⟨_, rfl, by decide⟩
        · cases ok with
          | false =>
            rw [loop_malloc_fails L size (false :: rest) mgr sys hsz hc.2 hc.1 hp rfl]
            exact ⟨_, rfl, by simp [lock_walk]⟩
          | true =>
            rw [loop_malloc_ok L size rest mgr sys hsz hc.2 hc.1 hp]
            have h := ih { mgr with area_list := ⟨⟨sys.next, 0⟩, size⟩ :: mgr.area_list }
              ⟨sys.next + 1, sys.trace ++ [Event.access, Event.access, Event.unlock,
                Event.malloc (AREA_MEM_SIZE L size) (some ⟨sys.next, 0⟩), Event.lock,
                Event.access]⟩
            revert h
            generalize get_loop L size rest _ _ = res
            intro h
            cases res with
            | abort => trivial
            | ret_null m1 s1 =>
              obtain ⟨evs, he, hwk⟩ := h
              refine ⟨[Event.access, Event.access, Event.unlock,
                Event.malloc (AREA_MEM_SIZE L size) (some ⟨sys.next, 0⟩), Event.lock,
                Event.access] ++ evs, by simp [he], ?_⟩
              rw [lock_walk_append]
              simpa [lock_walk] using hwk
            | fall m1 s1 =>
              obtain ⟨evs, he, hwk⟩ := h
              refine ⟨[Event.access, Event.access, Event.unlock,
                Event.malloc (AREA_MEM_SIZE L size) (some ⟨sys.next, 0⟩), Event.lock,
                Event.access] ++ evs, by simp [he], ?_⟩
              rw [lock_walk_append]
              simpa [lock_walk] using hwk
      · rw [loop_banked L size (ok :: rest) mgr sys area hc.2 hc.1 hp]
        exact ⟨_, rfl, by decide⟩
    · rw [loop_skip L size (ok :: rest) mgr sys hc]
      exact ⟨_, rfl, by decide⟩

/-- The events of the last part of the acquisition (lines 206-215), entered with the lock
held: one access, then the unlock. -/
theorem take_obj_trace (L : Layout) (mgr : MEM_MGR) (sys : Sys) (r : Option Ptr)
    (mgr1 : MEM_MGR) (sys1 : Sys) (h : take_obj L mgr sys = Run.done (r, mgr1, sys1)) :
    sys1.trace = sys.trace ++ [Event.access, Event.unlock] := by
  unfold take_obj at h
  simp only [] at h
  split at h
  · cases h
  · split at h
    · simp only [Run.done.injEq, Prod.mk.injEq] at h
      rw [← h.2.2]
      simp [SYSTEM_UNLOCK, emit_eq]
    · cases h

/-- The lock discipline of one call of the acquisition, on any manager: whenever the call
returns, its events respect the discipline from the unlocked state and leave the lock
released. -/
theorem get_lock_walk (L : Layout) (mgr : MEM_MGR) (size : Nat) (oks : List Bool) (sys : Sys)
    (r : Option Ptr) (mgr1 : MEM_MGR) (sys1 : Sys)
    (h : get_mem_obj_from_mgr_enlarge L mgr size oks sys = Run.done (r, mgr1, sys1)) :
    ∃ evs, sys1.trace = sys.trace ++ evs ∧ lock_walk false evs = some false := by
  unfold get_mem_obj_from_mgr_enlarge at h
  have hl := loop_lock_walk L size oks mgr (SYSTEM_LOCK sys)
  revert h hl
  generalize get_loop L size oks mgr (SYSTEM_LOCK sys) = res
  intro h hl
  cases res with
  | abort => cases h
  | ret_null m1 s1 =>
    simp only [Run.done.injEq, Prod.mk.injEq] at h
    obtain ⟨_, _, rfl⟩ := h
    obtain ⟨evs, he, hwk⟩ := hl
    refine ⟨Event.lock :: evs, by simp [he, SYSTEM_LOCK, emit_eq], ?_⟩
    simpa [lock_walk] using hwk
  | fall m1 s1 =>
    simp only [] at h
    have ht := take_obj_trace L m1 s1 r mgr1 sys1 h
    obtain ⟨evs, he, hwk⟩ := hl
    refine ⟨Event.lock :: (evs ++ [Event.access, Event.unlock]),
      by simp [ht, he, SYSTEM_LOCK, emit_eq], ?_⟩
    simp only [lock_walk, Bool.false_eq_true, if_false]
    rw [lock_walk_append, hwk]
    decide

/-- C15: lock discipline of the acquisition.  Over the events of one call of
`get_mem_obj_from_mgr_enlarge` (`SYSTEM_LOCK`, `SYSTEM_UNLOCK`, `system_malloc`, accesses to
the shared fields), starting with the lock released, on every manager state and every path
on which the call returns (slot, no capacity, or backing failure): every call of
`system_malloc` is made while the lock is not held, every access to `area_list`,
`free_list`, cursor, cursor limit and `active_area` is made while the lock is held, the lock
is never taken twice nor released without being held, and the call ends with the lock
released and as many unlocks as locks.  On a well-formed manager the call does return when
its hint is absent or has a byte size that does not overflow `size_t`. -/
theorem C15_lock_discipline (L : Layout) (mgr : MEM_MGR) (size : Nat) (oks : List Bool)
    (sys : Sys) :
    (∀ r mgr1 sys1,
      get_mem_obj_from_mgr_enlarge L mgr size oks sys = Run.done (r, mgr1, sys1) →
      ∃ evs, sys1.trace = sys.trace ++ evs ∧
        lock_walk false evs = some false ∧
        evs.count Event.lock = evs.count Event.unlock) ∧
    (WF L mgr sys → hint_fits L size → ∃ r mgr1 sys1,
      get_mem_obj_from_mgr_enlarge L mgr size oks sys = Run.done (r, mgr1, sys1)) := by
  constructor
  · intro r mgr1 sys1 hg
    obtain ⟨evs, he, hwk⟩ := get_lock_walk L mgr size oks sys r mgr1 sys1 hg
    exact ⟨evs, he, hwk, by simpa using lock_walk_count evs false false hwk⟩
  · intro hw hfit
    obtain ⟨r, mgr1, sys1, hg, _⟩ := get_wf hw size oks hfit
    exact ⟨r, mgr1, sys1, hg⟩

theorem C15_lock_discipline_witness :
    (WF ⟨48, 24, 16⟩ ⟨⟨7, 0⟩, [⟨⟨7, 48⟩, 1⟩], [], 1, ⟨7, 88⟩, ⟨7, 88⟩, ⟨⟨7, 48⟩, 1⟩⟩ ⟨8, []⟩ ∧
      hint_fits ⟨48, 24, 16⟩ 5) ∧
    get_mem_obj_from_mgr_enlarge ⟨48, 24, 16⟩
        ⟨⟨7, 0⟩, [⟨⟨7, 48⟩, 1⟩], [], 1, ⟨7, 88⟩, ⟨7, 88⟩, ⟨⟨7, 48⟩, 1⟩⟩ 5 [true] ⟨8, []⟩ =
      Run.done (some ⟨8, 24⟩,
        ⟨⟨7, 0⟩, [⟨⟨8, 0⟩, 5⟩, ⟨⟨7, 48⟩, 1⟩], [], 6, ⟨8, 40⟩, ⟨8, 104⟩, ⟨⟨8, 0⟩, 5⟩⟩,
        ⟨9, [Event.lock, Event.access, Event.access, Event.unlock,
          Event.malloc 104 (some ⟨8, 0⟩), Event.lock, Event.access, Event.access,
          Event.access, Event.access, Event.access, Event.unlock]⟩) ∧
    (∃ evs,
      [Event.lock, Event.access, Event.access, Event.unlock,
        Event.malloc 104 (some ⟨8, 0⟩), Event.lock, Event.access, Event.access,
        Event.access, Event.access, Event.access, Event.unlock] =
        (Sys.mk 8 []).trace ++ evs ∧
      lock_walk false evs = some false ∧
      evs.count Event.lock = evs.count Event.unlock) ∧
    ∃ r mgr1 sys1,
      get_mem_obj_from_mgr_enlarge ⟨48, 24, 16⟩
          ⟨⟨7, 0⟩, [⟨⟨7, 48⟩, 1⟩], [], 1, ⟨7, 88⟩, ⟨7, 88⟩, ⟨⟨7, 48⟩, 1⟩⟩ 5 [true] ⟨8, []⟩ =
        Run.done (r, mgr1, sys1) :=
  have hw : WF ⟨48, 24, 16⟩
      ⟨⟨7, 0⟩, [⟨⟨7, 48⟩, 1⟩], [], 1, ⟨7, 88⟩, ⟨7, 88⟩, ⟨⟨7, 48⟩, 1⟩⟩ ⟨8, []⟩ :=
    ⟨by decide, by decide, by decide, by decide, by decide, 1, by decide, by decide⟩
  have hd : get_mem_obj_from_mgr_enlarge ⟨48, 24, 16⟩
      ⟨⟨7, 0⟩, [⟨⟨7, 48⟩, 1⟩], [], 1, ⟨7, 88⟩, ⟨7, 88⟩, ⟨⟨7, 48⟩, 1⟩⟩ 5 [true] ⟨8, []⟩ =
      Run.done (some ⟨8, 24⟩,
        ⟨⟨7, 0⟩, [⟨⟨8, 0⟩, 5⟩, ⟨⟨7, 48⟩, 1⟩], [], 6, ⟨8, 40⟩, ⟨8, 104⟩, ⟨⟨8, 0⟩, 5⟩⟩,
        ⟨9, [Event.lock, Event.access, Event.access, Event.unlock,
          Event.malloc 104 (some ⟨8, 0⟩), Event.lock, Event.access, Event.access,
          Event.access, Event.access, Event.access, Event.unlock]⟩) := by decide
  ⟨⟨hw, by decide⟩, hd, (C15_lock_discipline _ _ 5 [true] _).1 _ _ _ hd,
    (C15_lock_discipline _ _ 5 [true] _).2 hw (by decide)⟩

/-- C16: no double hand-out.  In every state reached from `create_mem_mgr` by operations in
which each release is applied to a currently live slot, whatever capacities were asked for,
the live slots are pairwise distinct, and an acquisition that returns a slot never returns
one that is live at the time of the call.  (When the state was reached with capacities whose
byte sizes do not overflow `size_t` and the hint of the acquisition is absent or has such a
byte size, the acquisition does return.) -/
theorem C16_no_double_handout (L : Layout) (C : Nat) (st : St) (hr : Reachable L C st) :
    st.live.Nodup ∧
    (∀ size oks r mgr1 sys1,
      get_mem_obj_from_mgr_enlarge L st.mgr size oks st.sys = Run.done (r, mgr1, sys1) →
      ∀ p, r = some p → p ∉ st.live ∧ (p :: st.live).Nodup) ∧
    (FitReachable L C st → ∀ size oks, hint_fits L size → ∃ r mgr1 sys1,
      get_mem_obj_from_mgr_enlarge L st.mgr size oks st.sys = Run.done (r, mgr1, sys1)) := by
  refine ⟨(reachable_nodup hr).of_append_right, ?_, ?_⟩
  · intro size oks r mgr1 sys1 hg p hp
    subst hp
    have hs : step L (Op.get size oks) st = some ⟨mgr1, sys1, p :: st.live⟩ := by
      simp [step, hg]
    have hnd := (reachable_nodup (Reachable.after _ _ _ hr hs)).of_append_right
    exact ⟨(List.nodup_cons.mp hnd).1, hnd⟩
  · intro hfr size oks hfit
    obtain ⟨r, mgr1, sys1, hg, _⟩ := get_wf (reachable_wf hfr) size oks hfit
    exact ⟨r, mgr1, sys1, hg⟩

theorem C16_no_double_handout_witness :
    Reachable ⟨48, 24, 16⟩ (2 ^ 60 + 2)
      ⟨⟨⟨7, 0⟩, [⟨⟨7, 48⟩, 2 ^ 60 + 2⟩], [], 2 ^ 60 + 2, ⟨7, 88⟩, ⟨7, 104⟩,
          ⟨⟨7, 48⟩, 2 ^ 60 + 2⟩⟩,
        ⟨8, [Event.malloc 104 (some ⟨7, 0⟩), Event.access, Event.lock, Event.access,
          Event.access, Event.unlock]⟩, [⟨7, 72⟩]⟩ ∧
    [(⟨7, 72⟩ : Ptr)].Nodup ∧
    get_mem_obj_from_mgr_enlarge ⟨48, 24, 16⟩
        ⟨⟨7, 0⟩, [⟨⟨7, 48⟩, 2 ^ 60 + 2⟩], [], 2 ^ 60 + 2, ⟨7, 88⟩, ⟨7, 104⟩,
          ⟨⟨7, 48⟩, 2 ^ 60 + 2⟩⟩ 0 []
        ⟨8, [Event.malloc 104 (some ⟨7, 0⟩), Event.access, Event.lock, Event.access,
          Event.access, Event.unlock]⟩ =
      Run.done (some ⟨7, 88⟩,
        ⟨⟨7, 0⟩, [⟨⟨7, 48⟩, 2 ^ 60 + 2⟩], [], 2 ^ 60 + 2, ⟨7, 104⟩, ⟨7, 104⟩,
          ⟨⟨7, 48⟩, 2 ^ 60 + 2⟩⟩,
        ⟨8, [Event.malloc 104 (some ⟨7, 0⟩), Event.access, Event.lock, Event.access,
          Event.access, Event.unlock, Event.lock, Event.access, Event.access,
          Event.unlock]⟩) ∧
    (⟨7, 88⟩ : Ptr) ∉ [(⟨7, 72⟩ : Ptr)] ∧ ((⟨7, 88⟩ : Ptr) :: [(⟨7, 72⟩ : Ptr)]).Nodup :=
  have hr : Reachable ⟨48, 24, 16⟩ (2 ^ 60 + 2)
      ⟨⟨⟨7, 0⟩, [⟨⟨7, 48⟩, 2 ^ 60 + 2⟩], [], 2 ^ 60 + 2, ⟨7, 88⟩, ⟨7, 104⟩,
          ⟨⟨7, 48⟩, 2 ^ 60 + 2⟩⟩,
        ⟨8, [Event.malloc 104 (some ⟨7, 0⟩), Event.access, Event.lock, Event.access,
          Event.access, Event.unlock]⟩, [⟨7, 72⟩]⟩ :=
    have h0 : Reachable ⟨48, 24, 16⟩ (2 ^ 60 + 2)
        ⟨⟨⟨7, 0⟩, [⟨⟨7, 48⟩, 2 ^ 60 + 2⟩], [], 2 ^ 60 + 2, ⟨7, 72⟩, ⟨7, 104⟩,
            ⟨⟨7, 48⟩, 2 ^ 60 + 2⟩⟩,
          ⟨8, [Event.malloc 104 (some ⟨7, 0⟩), Event.access]⟩, []⟩ :=
      Reachable.create 7 _ _ (by decide) (by decide)
    Reachable.after (Op.get 0 []) _ _ h0 (by decide)
  have hd : get_mem_obj_from_mgr_enlarge ⟨48, 24, 16⟩
      ⟨⟨7, 0⟩, [⟨⟨7, 48⟩, 2 ^ 60 + 2⟩], [], 2 ^ 60 + 2, ⟨7, 88⟩, ⟨7, 104⟩,
        ⟨⟨7, 48⟩, 2 ^ 60 + 2⟩⟩ 0 []
      ⟨8, [Event.malloc 104 (some ⟨7, 0⟩), Event.access, Event.lock, Event.access,
        Event.access, Event.unlock]⟩ =
      Run.done (some ⟨7, 88⟩,
        ⟨⟨7, 0⟩, [⟨⟨7, 48⟩, 2 ^ 60 + 2⟩], [], 2 ^ 60 + 2, ⟨7, 104⟩, ⟨7, 104⟩,
          ⟨⟨7, 48⟩, 2 ^ 60 + 2⟩⟩,
        ⟨8, [Event.malloc 104 (some ⟨7, 0⟩), Event.access, Event.lock, Event.access,
          Event.access, Event.unlock, Event.lock, Event.access, Event.access,
          Event.unlock]⟩) := by decide
  ⟨hr, (C16_no_double_handout ⟨48, 24, 16⟩ _ _ hr).1, hd,
    (C16_no_double_handout ⟨48, 24, 16⟩ _ _ hr).2.1 0 [] _ _ _ hd _ rfl⟩


/-! ## Capacity of runs without releases -/

/-- The available capacity, the banked arenas and the used arenas of a well-formed manager
whose `area_list` is `pre`, the active arena, `post`, with the cursor at slot `idx`. -/
theorem remaining_eq {L : Layout} {mgr : MEM_MGR} {sys : Sys} (hw : WF L mgr sys)
    (pre post : List MEM_AREA) (idx : Nat)
    (hl : mgr.area_list = pre ++ mgr.active_area :: post)
    (hidx : idx ≤ mgr.active_area.size) (hobj : mgr.obj = slot L mgr.active_area idx) :
    remaining L mgr = (mgr.active_area.size - idx) + (pre.map MEM_AREA.size).sum ∧
    banked mgr = pre ∧ used mgr = mgr.active_area :: post := by
  have hb := banked_eq mgr pre post hl (pre_ne_active pre post _ (hl ▸ hw.2.2.1))
  refine ⟨?_, hb.1, hb.2⟩
  unfold remaining
  rw [hb.1, hw.2.2.2.2.1, hobj, slot_fit (wf_active_fits hw) (Nat.le_refl _),
    slot_fit (wf_active_fits hw) hidx]
  simp only []
  have : mgr.active_area.ptr.off + L.area + L.obj * mgr.active_area.size -
      (mgr.active_area.ptr.off + L.area + L.obj * idx) =
      L.obj * (mgr.active_area.size - idx) := by
    rw [Nat.mul_sub]
    omega
  rw [this, Nat.mul_div_cancel_left _ hw.1]

theorem grown_sizes_cons (op : Op) (ops : List Op) :
    grown_sizes (op :: ops) = grown_sizes [op] ++ grown_sizes ops := by
  cases op with
  | get size oks => simp [grown_sizes]
  | release obj => simp [grown_sizes]
  | enlarge size ok => cases ok <;> simp [grown_sizes]

/-- One successful growth or hint-less acquisition on a state with an empty free list: the
acquisitions returning a slot and the available capacity together grow by the size of the
growth; an arena that becomes active is put at the end of the used arenas. -/
theorem capacity_step {L : Layout} {st : St} (op : Op) (hw : WF L st.mgr st.sys)
    (hp : Part L st) (hf : st.mgr.free_list = []) (hop : grow_or_get op = true)
    (hfit : op_fits L op) :
    ∃ st1, step L op st = some st1 ∧ st1.mgr.free_list = [] ∧
      (if returns_slot L op st then 1 else 0) + remaining L st1.mgr =
        remaining L st.mgr + (grown_sizes [op]).sum ∧
      (used st1.mgr).reverse = (used st.mgr).reverse ++
        (if st1.mgr.active_area.ptr = st.mgr.active_area.ptr then []
          else [st1.mgr.active_area]) ∧
      (st1.mgr.area_list.map MEM_AREA.size).reverse =
        (st.mgr.area_list.map MEM_AREA.size).reverse ++ grown_sizes [op] := by
  obtain ⟨pre, post, idx, hl, hnd, hidx, hobj, _⟩ := hp
  have hndp := nodup_ptr_of_block _ hnd
  obtain ⟨hrem, hbk, hus⟩ := remaining_eq hw pre post idx hl hidx hobj
  cases op with
  | release obj => simp [grow_or_get] at hop
  | enlarge size ok =>
    simp only [grow_or_get, Bool.and_eq_true, decide_eq_true_eq] at hop
    obtain ⟨rfl, hpos⟩ := hop
    have hsz : size ≠ 0 := Nat.pos_iff_ne_zero.mp hpos
    have hs : step L (Op.enlarge size true) st =
        some ⟨{ st.mgr with area_list := ⟨⟨st.sys.next, 0⟩, size⟩ :: st.mgr.area_list },
          ⟨st.sys.next + 1, st.sys.trace ++
            [Event.malloc (AREA_MEM_SIZE L size) (some ⟨st.sys.next, 0⟩), Event.lock,
              Event.access, Event.unlock]⟩, st.live⟩ := by
      simp [step, enlarge_ok L _ size _ hsz]
    have hw1 := wf_step hw hfit hs
    obtain ⟨hrem1, _, hus1⟩ := remaining_eq hw1 (⟨⟨st.sys.next, 0⟩, size⟩ :: pre) post idx
      (by simp [hl]) hidx hobj
    refine ⟨_, hs, hf, ?_, ?_, ?_⟩
    · rw [hrem1, hrem]
      simp [returns_slot, grown_sizes]
      omega
    · rw [hus1, hus]
      simp
    · simp [grown_sizes]
  | get size oks =>
    simp only [grow_or_get, decide_eq_true_eq] at hop
    subst hop
    rcases get_cases hw 0 oks (Or.inl rfl) with ⟨x, fl, hx, _⟩ | ⟨_, hne, hg⟩ |
      ⟨_, he, area, hprev, hg⟩ | ⟨_, he, hprev, _, hg⟩ | ⟨_, _, _, h0, _⟩ | ⟨_, _, _, h0, _⟩
    · rw [hf] at hx; cases hx
    · have hs : step L (Op.get 0 oks) st =
          some ⟨{ st.mgr with obj := obj_add L st.mgr.obj 1 },
            ⟨st.sys.next, st.sys.trace ++ [Event.lock, Event.access, Event.access,
              Event.unlock]⟩, st.mgr.obj :: st.live⟩ := by
        simp [step, hg]
      have hw1 := wf_step hw hfit hs
      have hlt : idx < st.mgr.active_area.size := wf_idx_lt hw.2.2.2.2.1 hidx hobj hne
      obtain ⟨hrem1, _, hus1⟩ := remaining_eq hw1 pre post (idx + 1) hl hlt
        (show obj_add L st.mgr.obj 1 = _ by rw [hobj, obj_add_slot])
      refine ⟨_, hs, hf, ?_, ?_, ?_⟩
      · rw [hrem1, hrem]
        simp only [returns_slot, hg, if_true, grown_sizes, List.sum_nil]
        show 1 + (st.mgr.active_area.size - (idx + 1) + _) = _
        omega
      · rw [hus1, hus]
        simp
      · simp [grown_sizes]
    · rcases prev_entry_split pre post st.mgr.active_area (hl ▸ hndp) with
        ⟨_, hn⟩ | ⟨pre1, b, hpre, hb⟩
      · rw [hl, hn] at hprev; cases hprev
      · rw [hl, hb] at hprev
        simp only [Option.some.injEq] at hprev
        subst hprev
        have hs : step L (Op.get 0 oks) st =
            some ⟨{ st.mgr with
                    size := size_add st.mgr.size b.size
                    obj := obj_add L (area_objs L b) 1
                    obj_limit := obj_add L (area_objs L b) b.size
                    active_area := b },
              ⟨st.sys.next, st.sys.trace ++ [Event.lock, Event.access, Event.access,
                Event.access, Event.access, Event.unlock]⟩, area_objs L b :: st.live⟩ := by
          simp [step, hg]
        have hw1 := wf_step hw hfit hs
        have hidx2 : idx = st.mgr.active_area.size := by
          have h1 := hw.2.2.2.2.1
          rw [← he, hobj] at h1
          exact slot_inj L _ _ _ hw.1 (wf_active_fits hw) hidx (Nat.le_refl _) h1
        have hbmem : b ∈ st.mgr.area_list := by rw [hl, hpre]; simp
        have hbpos := (hw.2.1 b hbmem).1
        have hbne : b.ptr ≠ st.mgr.active_area.ptr :=
          pre_ne_active pre post _ (hl ▸ hndp) b (by rw [hpre]; simp)
        obtain ⟨hrem1, _, hus1⟩ := remaining_eq hw1 pre1 (st.mgr.active_area :: post) 1
          (show st.mgr.area_list = pre1 ++ b :: st.mgr.active_area :: post by
            rw [hl, hpre]; simp)
          hbpos (show obj_add L (area_objs L b) 1 = slot L b 1 from rfl)
        refine ⟨_, hs, hf, ?_, ?_, ?_⟩
        · rw [hrem1, hrem, hpre]
          simp only [returns_slot, hg, if_true, grown_sizes, List.sum_nil, List.map_append,
            List.map_cons, List.map_nil, List.sum_append, List.sum_cons]
          show 1 + (b.size - 1 + _) = _
          omega
        · rw [hus1, hus]
          simp [hbne]
        · simp [grown_sizes]
    · have hs : step L (Op.get 0 oks) st =
          some ⟨st.mgr, ⟨st.sys.next, st.sys.trace ++ [Event.lock, Event.access, Event.access,
            Event.unlock]⟩, st.live⟩ := by
        simp [step, hg]
      refine ⟨_, hs, hf, ?_, ?_, ?_⟩
      · simp [returns_slot, hg, grown_sizes]
      · simp
      · simp [grown_sizes]
    · exact absurd rfl h0
    · exact absurd rfl h0

/-- A run of successful growths and hint-less acquisitions from a state with an empty free
list never stops early, and keeps the balance of capacity. -/
theorem capacity_run (L : Layout) : ∀ (ops : List Op) (st : St), WF L st.mgr st.sys →
    Part L st → st.mgr.free_list = [] →
    (∀ op ∈ ops, grow_or_get op = true ∧ op_fits L op) →
    ∃ st1, run L ops st = some st1 ∧ WF L st1.mgr st1.sys ∧ Part L st1 ∧
      st1.mgr.free_list = [] ∧
      got L ops st + remaining L st1.mgr = remaining L st.mgr + (grown_sizes ops).sum ∧
      (used st1.mgr).reverse = (used st.mgr).reverse ++ activated L ops st ∧
      (st1.mgr.area_list.map MEM_AREA.size).reverse =
        (st.mgr.area_list.map MEM_AREA.size).reverse ++ grown_sizes ops := by
  intro ops
  induction ops with
  | nil =>
    intro st hw hp hf _
    exact ⟨st, rfl, hw, hp, hf, by simp [got, grown_sizes], by simp [activated],
      by simp [grown_sizes]⟩
  | cons op ops ih =>
    intro st hw hp hf hops
    obtain ⟨st1, hs, hf1, hcap, hus, hsz⟩ :=
      capacity_step op hw hp hf (hops op (by simp)).1 (hops op (by simp)).2
    obtain ⟨st2, hrun, hw2, hp2, hf2, hcap2, hus2, hsz2⟩ :=
      ih st1 (wf_step hw (hops op (by simp)).2 hs) (part_step hw hp (hops op (by simp)).2 hs)
        hf1 (fun o ho => hops o (List.mem_cons_of_mem _ ho))
    refine ⟨st2, by simp [run, hs, hrun], hw2, hp2, hf2, ?_, ?_, ?_⟩
    · rw [grown_sizes_cons op ops, List.sum_append]
      simp only [got, hs]
      omega
    · rw [hus2, hus]
      simp [activated, hs]
    · rw [hsz2, hsz, grown_sizes_cons op ops]
      simp

/-- On a well-formed state with an empty free list, a hint-less acquisition returns `NULL`
exactly when no capacity is available; then no arena is banked. -/
theorem hintless_none_iff {L : Layout} {st : St} (hw : WF L st.mgr st.sys) (hp : Part L st)
    (hf : st.mgr.free_list = []) (oks : List Bool) :
    ∃ r mgr1 sys1,
      get_mem_obj_from_mgr L st.mgr oks st.sys = Run.done (r, mgr1, sys1) ∧
      (r = none ↔ remaining L st.mgr = 0) ∧
      (r = none → mgr1 = st.mgr) ∧
      (remaining L st.mgr = 0 → banked st.mgr = []) := by
  obtain ⟨pre, post, idx, hl, _, hidx, hobj, _⟩ := hp
  obtain ⟨hrem, hbk, _⟩ := remaining_eq hw pre post idx hl hidx hobj
  have hndp := hw.2.2.1
  unfold get_mem_obj_from_mgr
  have hpre0 : remaining L st.mgr = 0 → pre = [] := by
    intro h0
    rw [hrem] at h0
    rcases List.eq_nil_or_concat pre with h | ⟨pre1, b, h⟩
    · exact h
    · have hb : b ∈ st.mgr.area_list := by rw [hl, h]; simp
      have := (hw.2.1 b hb).1
      rw [h] at h0
      simp at h0
      omega
  have hzero : remaining L st.mgr = 0 ↔
      (st.mgr.obj = st.mgr.obj_limit ∧
        LISTP_PREV_ENTRY st.mgr.active_area st.mgr.area_list = none) := by
    rw [hrem]
    constructor
    · intro h0
      have hi : idx = st.mgr.active_area.size := by omega
      have hpre : pre = [] := hpre0 (hrem ▸ h0)
      refine ⟨by rw [hobj, hw.2.2.2.2.1, hi], ?_⟩
      rw [hl, hpre]
      simp [LISTP_PREV_ENTRY]
    · rintro ⟨he, hprev⟩
      have hi : idx = st.mgr.active_area.size := by
        have h1 := hw.2.2.2.2.1
        rw [← he, hobj] at h1
        exact slot_inj L _ _ _ hw.1 (wf_active_fits hw) hidx (Nat.le_refl _) h1
      rcases prev_entry_split pre post st.mgr.active_area (hl ▸ hndp) with
        ⟨h, _⟩ | ⟨pre1, b, _, hb⟩
      · rw [h, hi]; simp
      · rw [hl, hb] at hprev; cases hprev
  have hbz : remaining L st.mgr = 0 → banked st.mgr = [] := fun h0 => by
    rw [hbk]; exact hpre0 h0
  rcases get_cases hw 0 oks (Or.inl rfl) with ⟨x, fl, hx, _⟩ | ⟨_, hne, hg⟩ |
    ⟨_, he, area, hprev, hg⟩ | ⟨_, he, hprev, _, hg⟩ | ⟨_, _, _, h0, _⟩ | ⟨_, _, _, h0, _⟩
  · rw [hf] at hx; cases hx
  · refine ⟨_, _, _, hg, ?_, by simp, hbz⟩
    rw [hzero]
    simp [hne]
  · refine ⟨_, _, _, hg, ?_, by simp, hbz⟩
    rw [hzero]
    simp [hprev]
  · have hz : remaining L st.mgr = 0 := hzero.mpr ⟨he, hprev⟩
    exact ⟨_, _, _, hg, by simp [hz], fun _ => rfl, hbz⟩
  · exact absurd rfl h0
  · exact absurd rfl h0

theorem run_append (L : Layout) : ∀ (a b : List Op) (st st1 : St), run L a st = some st1 →
    run L (a ++ b) st = run L b st1 ∧ got L (a ++ b) st = got L a st + got L b st1 ∧
    activated L (a ++ b) st = activated L a st ++ activated L b st1
  | [], b, st, st1, h => by
    simp only [run, Option.some.injEq] at h
    subst h
    simp [got, activated]
  | op :: a, b, st, st1, h => by
    simp only [run] at h
    cases hs : step L op st with
    | none => simp [hs] at h
    | some st2 =>
      simp only [hs] at h
      obtain ⟨h1, h2, h3⟩ := run_append L a b st2 st1 h
      have e : (op :: a) ++ b = op :: (a ++ b) := rfl
      rw [e]
      simp only [run, got, activated, hs]
      exact ⟨h1, by rw [h2]; omega, by rw [h3]; simp⟩

theorem grown_sizes_gets (n : Nat) (oks : List Bool) :
    grown_sizes (List.replicate n (Op.get 0 oks)) = [] := by
  induction n with
  | zero => rfl
  | succ n ih => simp [List.replicate_succ, grown_sizes, ih]

theorem grown_sizes_append (a b : List Op) :
    grown_sizes (a ++ b) = grown_sizes a ++ grown_sizes b := by
  induction a with
  | nil => simp [grown_sizes]
  | cons op a ih =>
    rw [List.cons_append, grown_sizes_cons op (a ++ b), grown_sizes_cons op a, ih,
      List.append_assoc]

/-- Hint-less acquisitions repeated as many times as capacity is available all return a
slot, and use up the capacity. -/
theorem drain (L : Layout) : ∀ (n : Nat) (st : St), WF L st.mgr st.sys → Part L st →
    st.mgr.free_list = [] → remaining L st.mgr = n →
    ∃ st2, run L (List.replicate n (Op.get 0 [])) st = some st2 ∧
      got L (List.replicate n (Op.get 0 [])) st = n ∧ remaining L st2.mgr = 0 := by
  intro n
  induction n with
  | zero =>
    intro st _ _ _ hrem
    exact ⟨st, rfl, rfl, hrem⟩
  | succ n ih =>
    intro st hw hp hf hrem
    obtain ⟨st1, hs, hf1, hcap, _, _⟩ :=
      capacity_step (Op.get 0 []) hw hp hf rfl (Or.inl rfl)
    obtain ⟨r, mgr1, sys1, hg, hiff, _, _⟩ := hintless_none_iff hw hp hf []
    have hret : returns_slot L (Op.get 0 []) st = true := by
      unfold get_mem_obj_from_mgr at hg
      cases r with
      | none => have := hiff.mp rfl; omega
      | some p => simp [returns_slot, hg]
    rw [hret] at hcap
    simp only [if_true, grown_sizes, List.sum_nil, Nat.add_zero] at hcap
    have hfit : op_fits L (Op.get 0 []) := Or.inl rfl
    obtain ⟨st2, hrun, hgot, hz⟩ := ih st1 (wf_step hw hfit hs)
      (part_step hw hp hfit hs) hf1 (by omega)
    refine ⟨st2, by simp [List.replicate_succ, run, hs, hrun], ?_, hz⟩
    simp only [List.replicate_succ, got, hs, hret, if_true, hgot]
    omega

/-- The balance of capacity at the end of a run of growths and hint-less acquisitions that
starts from the created state. -/
theorem capacity_main (L : Layout) (C next : Nat) (ops : List Op) (mgr0 : MEM_MGR)
    (sys0 : Sys) (ho : 0 < L.obj) (hfit : L.mgr + L.area + L.obj * C < SIZE_MOD)
    (hc : create_mem_mgr L C true ⟨next, []⟩ = Run.done (some mgr0, sys0))
    (hops : ∀ op ∈ ops, grow_or_get op = true ∧ op_fits L op) :
    ∃ st, run L ops ⟨mgr0, sys0, []⟩ = some st ∧
      WF L st.mgr st.sys ∧ Part L st ∧ st.mgr.free_list = [] ∧
      got L ops ⟨mgr0, sys0, []⟩ + remaining L st.mgr = C + (grown_sizes ops).sum ∧
      (st.mgr.area_list.map MEM_AREA.size).reverse = C :: grown_sizes ops ∧
      st.mgr.area_list.reverse =
        (mgr0.active_area :: activated L ops ⟨mgr0, sys0, []⟩) ++ (banked st.mgr).reverse ∧
      (mgr0.active_area :: activated L ops ⟨mgr0, sys0, []⟩).Nodup := by
  have hC : 0 < C := by
    rcases Nat.eq_zero_or_pos C with h0 | h0
    · subst h0; simp [create_mem_mgr] at hc
    · exact h0
  have hw0 : WF L mgr0 sys0 := create_wf L C _ mgr0 sys0 ho hfit true hc
  have hp0 : Part L ⟨mgr0, sys0, []⟩ := create_part L C _ mgr0 sys0 hc
  rw [create_ok L C _ hC] at hc
  simp only [Run.done.injEq, Prod.mk.injEq, Option.some.injEq] at hc
  obtain ⟨hm0, hs0⟩ := hc
  have hf0 : mgr0.free_list = [] := by rw [← hm0]
  have hl0 : mgr0.area_list = [] ++ mgr0.active_area :: [] := by rw [← hm0]; rfl
  have hobj0 : mgr0.obj = slot L mgr0.active_area 0 := by rw [← hm0]
  have hsz0 : mgr0.active_area.size = C := by rw [← hm0]
  obtain ⟨hrem0, _, hus0⟩ := remaining_eq hw0 [] [] 0 hl0 (Nat.zero_le _) hobj0
  obtain ⟨st, hrun, hw, hp, hf, hcap, hus, hsz⟩ :=
    capacity_run L ops ⟨mgr0, sys0, []⟩ hw0 hp0 hf0 hops
  have hcap1 : got L ops ⟨mgr0, sys0, []⟩ + remaining L st.mgr = C + (grown_sizes ops).sum := by
    rw [hcap, hrem0, hsz0]
    simp
  have husd : (used st.mgr).reverse = mgr0.active_area :: activated L ops ⟨mgr0, sys0, []⟩ := by
    rw [hus, hus0]
    simp
  have hsplit : st.mgr.area_list = banked st.mgr ++ used st.mgr :=
    (List.takeWhile_append_dropWhile _ _).symm
  have hnd : st.mgr.area_list.Nodup := List.Nodup.of_map _ hw.2.2.1
  refine ⟨st, hrun, hw, hp, hf, hcap1, ?_, ?_, ?_⟩
  · rw [hsz, ← hm0]
    simp
  · rw [← husd]
    conv => lhs; rw [hsplit]
    simp
  · rw [← husd, List.nodup_reverse]
    rw [hsplit] at hnd
    exact hnd.of_append_right

/-- C17, counterexample: with structure sizes 48, 24 and 16, `create_mem_mgr(2 ^ 60)`
succeeds with a byte size that has overflowed to 72; the cursor limit wraps back onto the
cursor, and already the first hint-less acquisition returns `NULL`, leaving the manager as it
is: however often acquisitions are repeated, 0 of them succeed, not `2 ^ 60`. -/
theorem C17_capacity_counterexample :
    create_mem_mgr ⟨48, 24, 16⟩ (2 ^ 60) true ⟨7, []⟩ =
      Run.done (some ⟨⟨7, 0⟩, [⟨⟨7, 48⟩, 2 ^ 60⟩], [], 2 ^ 60, ⟨7, 72⟩, ⟨7, 72⟩,
          ⟨⟨7, 48⟩, 2 ^ 60⟩⟩,
        ⟨8, [Event.malloc 72 (some ⟨7, 0⟩), Event.access]⟩) ∧
    (∀ sys : Sys, ∃ sys1,
      get_mem_obj_from_mgr ⟨48, 24, 16⟩
          ⟨⟨7, 0⟩, [⟨⟨7, 48⟩, 2 ^ 60⟩], [], 2 ^ 60, ⟨7, 72⟩, ⟨7, 72⟩, ⟨⟨7, 48⟩, 2 ^ 60⟩⟩ []
          sys =
        Run.done (none,
          ⟨⟨7, 0⟩, [⟨⟨7, 48⟩, 2 ^ 60⟩], [], 2 ^ 60, ⟨7, 72⟩, ⟨7, 72⟩, ⟨⟨7, 48⟩, 2 ^ 60⟩⟩,
          sys1)) ∧
    got ⟨48, 24, 16⟩ [Op.get 0 [], Op.get 0 [], Op.get 0 []]
      ⟨⟨⟨7, 0⟩, [⟨⟨7, 48⟩, 2 ^ 60⟩], [], 2 ^ 60, ⟨7, 72⟩, ⟨7, 72⟩, ⟨⟨7, 48⟩, 2 ^ 60⟩⟩,
        ⟨8, [Event.malloc 72 (some ⟨7, 0⟩), Event.access]⟩, []⟩ = 0 :=
  ⟨by decide,
    fun sys => ⟨_, get_none_nohint ⟨48, 24, 16⟩ _ [] sys rfl rfl (by decide)⟩,
    by decide⟩

/-- C17, amended: no banked capacity is lost.  After `create_mem_mgr(C)` and successful
`enlarge_mem_mgr` calls with sizes `G1 .. Gk`, all with byte sizes that do not overflow
`size_t`, interleaved in any order with hint-less acquisitions and with no releases: the run
goes through; at its end the number of hint-less acquisitions that succeeded plus the
capacity still available is exactly `C + G1 + ... + Gk`, and a further hint-less acquisition
returns `NULL` exactly when no capacity is available; when the acquisitions are continued
until one fails, the total number of hint-less acquisitions that succeed is exactly
`C + G1 + ... + Gk`.  The arenas of `area_list`, oldest first, have the capacities
`C, G1, .., Gk`, and are the arenas activated so far, in the order of their activation and
each once, followed by the banked ones; when acquisitions are continued until one fails no
arena is left banked: banked arenas are activated one at a time in the order they were added,
each exactly once. -/
theorem C17_capacity (L : Layout) (C next : Nat) (ops : List Op) (mgr0 : MEM_MGR)
    (sys0 : Sys) (oks : List Bool) (ho : 0 < L.obj)
    (hfit : L.mgr + L.area + L.obj * C < SIZE_MOD)
    (hc : create_mem_mgr L C true ⟨next, []⟩ = Run.done (some mgr0, sys0))
    (hops : ∀ op ∈ ops, grow_or_get op = true ∧ op_fits L op) :
    ∃ st, run L ops ⟨mgr0, sys0, []⟩ = some st ∧
      got L ops ⟨mgr0, sys0, []⟩ + remaining L st.mgr = C + (grown_sizes ops).sum ∧
      (∃ r mgr1 sys1,
        get_mem_obj_from_mgr L st.mgr oks st.sys = Run.done (r, mgr1, sys1) ∧
        (r = none ↔ remaining L st.mgr = 0)) ∧
      (st.mgr.area_list.map MEM_AREA.size).reverse = C :: grown_sizes ops ∧
      st.mgr.area_list.reverse =
        (mgr0.active_area :: activated L ops ⟨mgr0, sys0, []⟩) ++ (banked st.mgr).reverse ∧
      (mgr0.active_area :: activated L ops ⟨mgr0, sys0, []⟩).Nodup ∧
      ∃ st2 sys3,
        run L (ops ++ List.replicate (remaining L st.mgr) (Op.get 0 [])) ⟨mgr0, sys0, []⟩ =
          some st2 ∧
        got L (ops ++ List.replicate (remaining L st.mgr) (Op.get 0 [])) ⟨mgr0, sys0, []⟩ =
          C + (grown_sizes ops).sum ∧
        get_mem_obj_from_mgr L st2.mgr oks st2.sys = Run.done (none, st2.mgr, sys3) ∧
        (st2.mgr.area_list.map MEM_AREA.size).reverse = C :: grown_sizes ops ∧
        st2.mgr.area_list.reverse = mgr0.active_area ::
          activated L (ops ++ List.replicate (remaining L st.mgr) (Op.get 0 []))
            ⟨mgr0, sys0, []⟩ ∧
        (mgr0.active_area ::
          activated L (ops ++ List.replicate (remaining L st.mgr) (Op.get 0 []))
            ⟨mgr0, sys0, []⟩).Nodup := by
  obtain ⟨st, hrun, hw, hp, hf, hcap, hsz, hlist, hnd⟩ :=
    capacity_main L C next ops mgr0 sys0 ho hfit hc hops
  obtain ⟨r, mgr1, sys1, hg, hiff, _, _⟩ := hintless_none_iff hw hp hf oks
  refine ⟨st, hrun, hcap, ⟨r, mgr1, sys1, hg, hiff⟩, hsz, hlist, hnd, ?_⟩
  have hops2 : ∀ op ∈ ops ++ List.replicate (remaining L st.mgr) (Op.get 0 []),
      grow_or_get op = true ∧ op_fits L op := by
    intro op hop
    rcases List.mem_append.mp hop with h | h
    · exact hops op h
    · rw [(List.mem_replicate.mp h).2]
      exact ⟨rfl, Or.inl rfl⟩
  obtain ⟨st2, hrun2, hw2, hp2, hf2, hcap2, hsz2, hlist2, hnd2⟩ :=
    capacity_main L C next _ mgr0 sys0 ho hfit hc hops2
  obtain ⟨st3, hrun3, hgot3, hz3⟩ := drain L (remaining L st.mgr) st hw hp hf rfl
  obtain ⟨ha1, ha2, _⟩ := run_append L ops (List.replicate (remaining L st.mgr) (Op.get 0 []))
    ⟨mgr0, sys0, []⟩ st hrun
  have hst : st2 = st3 := by
    rw [ha1, hrun3] at hrun2
    exact (Option.some.inj hrun2).symm
  subst hst
  obtain ⟨r2, mgr2, sys2, hg2, hiff2, hsame2, hbz2⟩ := hintless_none_iff hw2 hp2 hf2 oks
  have hr2 : r2 = none := hiff2.mpr hz3
  subst hr2
  rw [hsame2 rfl] at hg2
  have hgs : grown_sizes (ops ++ List.replicate (remaining L st.mgr) (Op.get 0 [])) =
      grown_sizes ops := by
    rw [grown_sizes_append, grown_sizes_gets, List.append_nil]
  refine ⟨st2, sys2, hrun2, ?_, hg2, by rw [hsz2, hgs], ?_, hnd2⟩
  · rw [ha2, hgot3]
    exact hcap
  · rw [hlist2, hbz2 hz3]
    simp

theorem C17_capacity_witness :
    (0 < (Layout.mk 48 24 16).obj ∧ 48 + 24 + 16 * 1 < SIZE_MOD ∧
      create_mem_mgr ⟨48, 24, 16⟩ 1 true ⟨7, []⟩ =
        Run.done (some ⟨⟨7, 0⟩, [⟨⟨7, 48⟩, 1⟩], [], 1, ⟨7, 72⟩, ⟨7, 88⟩, ⟨⟨7, 48⟩, 1⟩⟩,
          ⟨8, [Event.malloc 88 (some ⟨7, 0⟩), Event.access]⟩) ∧
      ∀ op ∈ [Op.enlarge 2 true, Op.get 0 [], Op.get 0 []],
        grow_or_get op = true ∧ op_fits ⟨48, 24, 16⟩ op) ∧
    ∃ st,
      run ⟨48, 24, 16⟩ [Op.enlarge 2 true, Op.get 0 [], Op.get 0 []]
        ⟨⟨⟨7, 0⟩, [⟨⟨7, 48⟩, 1⟩], [], 1, ⟨7, 72⟩, ⟨7, 88⟩, ⟨⟨7, 48⟩, 1⟩⟩,
          ⟨8, [Event.malloc 88 (some ⟨7, 0⟩), Event.access]⟩, []⟩ = some st ∧
      got ⟨48, 24, 16⟩ [Op.enlarge 2 true, Op.get 0 [], Op.get 0 []]
        ⟨⟨⟨7, 0⟩, [⟨⟨7, 48⟩, 1⟩], [], 1, ⟨7, 72⟩, ⟨7, 88⟩, ⟨⟨7, 48⟩, 1⟩⟩,
          ⟨8, [Event.malloc 88 (some ⟨7, 0⟩), Event.access]⟩, []⟩ +
        remaining ⟨48, 24, 16⟩ st.mgr =
        1 + (grown_sizes [Op.enlarge 2 true, Op.get 0 [], Op.get 0 []]).sum ∧
      (∃ r mgr1 sys1,
        get_mem_obj_from_mgr ⟨48, 24, 16⟩ st.mgr [] st.sys = Run.done (r, mgr1, sys1) ∧
        (r = none ↔ remaining ⟨48, 24, 16⟩ st.mgr = 0)) ∧
      (st.mgr.area_list.map MEM_AREA.size).reverse =
        1 :: grown_sizes [Op.enlarge 2 true, Op.get 0 [], Op.get 0 []] ∧
      st.mgr.area_list.reverse =
        ((⟨⟨7, 48⟩, 1⟩ : MEM_AREA) ::
          activated ⟨48, 24, 16⟩ [Op.enlarge 2 true, Op.get 0 [], Op.get 0 []]
            ⟨⟨⟨7, 0⟩, [⟨⟨7, 48⟩, 1⟩], [], 1, ⟨7, 72⟩, ⟨7, 88⟩, ⟨⟨7, 48⟩, 1⟩⟩,
              ⟨8, [Event.malloc 88 (some ⟨7, 0⟩), Event.access]⟩, []⟩) ++
          (banked st.mgr).reverse ∧
      ((⟨⟨7, 48⟩, 1⟩ : MEM_AREA) ::
        activated ⟨48, 24, 16⟩ [Op.enlarge 2 true, Op.get 0 [], Op.get 0 []]
          ⟨⟨⟨7, 0⟩, [⟨⟨7, 48⟩, 1⟩], [], 1, ⟨7, 72⟩, ⟨7, 88⟩, ⟨⟨7, 48⟩, 1⟩⟩,
            ⟨8, [Event.malloc 88 (some ⟨7, 0⟩), Event.access]⟩, []⟩).Nodup ∧
      ∃ st2 sys3,
        run ⟨48, 24, 16⟩
          ([Op.enlarge 2 true, Op.get 0 [], Op.get 0 []] ++
            List.replicate (remaining ⟨48, 24, 16⟩ st.mgr) (Op.get 0 []))
          ⟨⟨⟨7, 0⟩, [⟨⟨7, 48⟩, 1⟩], [], 1, ⟨7, 72⟩, ⟨7, 88⟩, ⟨⟨7, 48⟩, 1⟩⟩,
            ⟨8, [Event.malloc 88 (some ⟨7, 0⟩), Event.access]⟩, []⟩ = some st2 ∧
        got ⟨48, 24, 16⟩
          ([Op.enlarge 2 true, Op.get 0 [], Op.get 0 []] ++
            List.replicate (remaining ⟨48, 24, 16⟩ st.mgr) (Op.get 0 []))
          ⟨⟨⟨7, 0⟩, [⟨⟨7, 48⟩, 1⟩], [], 1, ⟨7, 72⟩, ⟨7, 88⟩, ⟨⟨7, 48⟩, 1⟩⟩,
            ⟨8, [Event.malloc 88 (some ⟨7, 0⟩), Event.access]⟩, []⟩ =
          1 + (grown_sizes [Op.enlarge 2 true, Op.get 0 [], Op.get 0 []]).sum ∧
        get_mem_obj_from_mgr ⟨48, 24, 16⟩ st2.mgr [] st2.sys =
          Run.done (none, st2.mgr, sys3) ∧
        (st2.mgr.area_list.map MEM_AREA.size).reverse =
          1 :: grown_sizes [Op.enlarge 2 true, Op.get 0 [], Op.get 0 []] ∧
        st2.mgr.area_list.reverse = (⟨⟨7, 48⟩, 1⟩ : MEM_AREA) ::
          activated ⟨48, 24, 16⟩
            ([Op.enlarge 2 true, Op.get 0 [], Op.get 0 []] ++
              List.replicate (remaining ⟨48, 24, 16⟩ st.mgr) (Op.get 0 []))
            ⟨⟨⟨7, 0⟩, [⟨⟨7, 48⟩, 1⟩], [], 1, ⟨7, 72⟩, ⟨7, 88⟩, ⟨⟨7, 48⟩, 1⟩⟩,
              ⟨8, [Event.malloc 88 (some ⟨7, 0⟩), Event.access]⟩, []⟩ ∧
        ((⟨⟨7, 48⟩, 1⟩ : MEM_AREA) ::
          activated ⟨48, 24, 16⟩
            ([Op.enlarge 2 true, Op.get 0 [], Op.get 0 []] ++
              List.replicate (remaining ⟨48, 24, 16⟩ st.mgr) (Op.get 0 []))
            ⟨⟨⟨7, 0⟩, [⟨⟨7, 48⟩, 1⟩], [], 1, ⟨7, 72⟩, ⟨7, 88⟩, ⟨⟨7, 48⟩, 1⟩⟩,
              ⟨8, [Event.malloc 88 (some ⟨7, 0⟩), Event.access]⟩, []⟩).Nodup :=
  ⟨⟨by decide, by decide, by decide, by decide⟩,
    C17_capacity ⟨48, 24, 16⟩ 1 7 [Op.enlarge 2 true, Op.get 0 [], Op.get 0 []]
      ⟨⟨7, 0⟩, [⟨⟨7, 48⟩, 1⟩], [], 1, ⟨7, 72⟩, ⟨7, 88⟩, ⟨⟨7, 48⟩, 1⟩⟩
      ⟨8, [Event.malloc 88 (some ⟨7, 0⟩), Event.access]⟩ [] (by decide) (by decide)
      (by decide) (by decide)⟩

theorem align_up_nowrap (s k : Nat) (h : s + 2 ^ k ≤ SIZE_MOD) :
    ALIGN_UP_POW2 s (2 ^ k) = s + pad_up s (2 ^ k) := by
  have hP : 0 < 2 ^ k := Nat.two_pow_pos k
  have hup : s ≤ ALIGN_UP_POW2 s (2 ^ k) ∧ ALIGN_UP_POW2 s (2 ^ k) < SIZE_MOD := by
    unfold ALIGN_UP_POW2
    rw [align_down_eq]
    have ht : size_sub (size_add s (2 ^ k)) 1 ≡ s + (2 ^ k - 1) [MOD SIZE_MOD] := by
      have h1 := size_sub_modEq (size_add s (2 ^ k)) 1
      have h2 : size_add s (2 ^ k) ≡ s + (2 ^ k - 1) + 1 [MOD SIZE_MOD] := by
        unfold size_add
        have : s + (2 ^ k - 1) + 1 = s + 2 ^ k := by omega
        rw [this]
        exact Nat.mod_modEq _ _
      exact Nat.ModEq.add_right_cancel' 1 (h1.trans h2)
    have hte : size_sub (size_add s (2 ^ k)) 1 = s + (2 ^ k - 1) :=
      Nat.ModEq.eq_of_lt_of_lt ht (size_sub_lt _ _) (by omega)
    rw [hte]
    have hmod := Nat.mod_lt (s + (2 ^ k - 1)) hP
    constructor <;> omega
  unfold pad_up
  rw [size_sub_of_le hup.2 hup.1]
  omega

/-- Rounding up gives the largest count that fits: with `p` the padding and `o > 0` the slot
size, `n + p / o` slots fit in `s + p` bytes and one more slot does not. -/
theorem up_maximal (H o n p : Nat) (ho : 0 < o) :
    H + o * (n + p / o) ≤ H + o * n + p ∧ H + o * n + p < H + o * (n + p / o + 1) := by
  have h1 := Nat.div_add_mod p o
  have h2 := Nat.mod_lt p ho
  rw [Nat.mul_add, Nat.mul_add, Nat.mul_add, Nat.mul_one]
  constructor <;> omega

/-- C19: round-up maximality.  For every `n > 0`, power-of-two `ALLOC_ALIGNMENT` `P` and
object size `o > 0`, when the rounded-up byte size does not overflow `size_t`,
`m = size_align_up(n)` is the largest slot count whose arena byte size fits in the
rounded-up request: `bytes(m) ≤ ALIGN_UP_POW2(bytes(n), P) < bytes(m + 1)` with
`bytes(k) = sizeof(MEM_AREA_TYPE) + o * k`; the same holds for `init_align_up` with
`bytes(k) = sizeof(MEM_MGR_TYPE) + sizeof(MEM_AREA_TYPE) + o * k`, the value of
`__MAX_MEM_SIZE(k)`. -/
theorem C19_round_up_maximal (L : Layout) (P n k : Nat) (hP : P = 2 ^ k) (hk : k < 64)
    (hn : 0 < n) (ho : 0 < L.obj) :
    (L.area + L.obj * n + P ≤ SIZE_MOD →
      ∃ m, size_align_up L P n = Run.done m ∧
        AREA_MEM_SIZE L m = L.area + L.obj * m ∧
        L.area + L.obj * m ≤ ALIGN_UP_POW2 (L.area + L.obj * n) P ∧
        ALIGN_UP_POW2 (L.area + L.obj * n) P < L.area + L.obj * (m + 1)) ∧
    (L.mgr + L.area + L.obj * n + P ≤ SIZE_MOD →
      ∃ m, init_align_up L P n = Run.done m ∧
        __MAX_MEM_SIZE L m = L.mgr + L.area + L.obj * m ∧
        L.mgr + L.area + L.obj * m ≤ ALIGN_UP_POW2 (L.mgr + L.area + L.obj * n) P ∧
        ALIGN_UP_POW2 (L.mgr + L.area + L.obj * n) P < L.mgr + L.area + L.obj * (m + 1)) := by
  subst hP
  have hPpos : 0 < 2 ^ k := Nat.two_pow_pos k
  have h2 := is_power_of_2_pow k
  have hmul : L.obj ≤ L.obj * n := Nat.le_mul_of_pos_right _ hn
  have hmul2 : n ≤ L.obj * n := Nat.le_mul_of_pos_left _ ho
  refine ⟨fun hb => ?_, fun hb => ?_⟩
  · have h1 := sum_obj_size_one L (by omega)
    have hs := area_mem_size_exact L n (by omega)
    have hpad := (pad_up_spec (L.area + L.obj * n) k (by omega) hk).1
    have hup := align_up_nowrap (L.area + L.obj * n) k hb
    have hmax := up_maximal L.area L.obj n (pad_up (L.area + L.obj * n) (2 ^ k)) ho
    have hq : pad_up (L.area + L.obj * n) (2 ^ k) / L.obj ≤
        pad_up (L.area + L.obj * n) (2 ^ k) := Nat.div_le_self _ _
    have hm : size_add n (pad_up (L.area + L.obj * n) (2 ^ k) / L.obj) =
        n + pad_up (L.area + L.obj * n) (2 ^ k) / L.obj := by
      unfold size_add
      exact Nat.mod_eq_of_lt (by omega)
    refine ⟨n + pad_up (L.area + L.obj * n) (2 ^ k) / L.obj, ?_, ?_, ?_, ?_⟩
    · simp only [size_align_up, h2, if_true, max_sub_mgr, h1, hs, hm]
    · exact area_mem_size_exact L _ (by omega)
    · rw [hup]; exact hmax.1
    · rw [hup]; exact hmax.2
  · have h1 := sum_obj_size_one L (by omega)
    have hs := max_mem_size_exact L n (by omega)
    have hpad := (pad_up_spec (L.mgr + L.area + L.obj * n) k (by omega) hk).1
    have hup := align_up_nowrap (L.mgr + L.area + L.obj * n) k hb
    have hmax := up_maximal (L.mgr + L.area) L.obj n
      (pad_up (L.mgr + L.area + L.obj * n) (2 ^ k)) ho
    have hq : pad_up (L.mgr + L.area + L.obj * n) (2 ^ k) / L.obj ≤
        pad_up (L.mgr + L.area + L.obj * n) (2 ^ k) := Nat.div_le_self _ _
    have hm : size_add n (pad_up (L.mgr + L.area + L.obj * n) (2 ^ k) / L.obj) =
        n + pad_up (L.mgr + L.area + L.obj * n) (2 ^ k) / L.obj := by
      unfold size_add
      exact Nat.mod_eq_of_lt (by omega)
    refine ⟨n + pad_up (L.mgr + L.area + L.obj * n) (2 ^ k) / L.obj, ?_, ?_, ?_, ?_⟩
    · simp only [init_align_up, h2, if_true, h1, hs, hm]
    · exact max_mem_size_exact L _ (by omega)
    · rw [hup]; exact hmax.1
    · rw [hup]; exact hmax.2

theorem C19_round_up_maximal_witness :
    (4096 = 2 ^ 12 ∧ 12 < 64 ∧ 0 < 1 ∧ 0 < (Layout.mk 48 24 16).obj) ∧
    (∃ m, size_align_up ⟨48, 24, 16⟩ 4096 1 = Run.done m ∧
      AREA_MEM_SIZE ⟨48, 24, 16⟩ m = 24 + 16 * m ∧
      24 + 16 * m ≤ ALIGN_UP_POW2 (24 + 16 * 1) 4096 ∧
      ALIGN_UP_POW2 (24 + 16 * 1) 4096 < 24 + 16 * (m + 1)) ∧
    (∃ m, init_align_up ⟨48, 24, 16⟩ 4096 1 = Run.done m ∧
      __MAX_MEM_SIZE ⟨48, 24, 16⟩ m = 48 + 24 + 16 * m ∧
      48 + 24 + 16 * m ≤ ALIGN_UP_POW2 (48 + 24 + 16 * 1) 4096 ∧
      ALIGN_UP_POW2 (48 + 24 + 16 * 1) 4096 < 48 + 24 + 16 * (m + 1)) :=
  have h := C19_round_up_maximal ⟨48, 24, 16⟩ 4096 1 12 (by decide) (by decide) (by decide)
    (by decide)
  ⟨⟨by decide, by decide, by decide, by decide⟩, h.1 (by decide), h.2 (by decide)⟩

/-- The number of slots `size_align_down` takes off: `p / o`, plus one when `p` is not a
whole number of slots.  It is the least `d` with `p ≤ o * d`. -/
theorem ceil_div_spec (o p : Nat) (ho : 0 < o) :
    p ≤ o * (p / o + (if p % o ≠ 0 then 1 else 0)) ∧
    (0 < p / o + (if p % o ≠ 0 then 1 else 0) →
      o * (p / o + (if p % o ≠ 0 then 1 else 0)) < p + o) := by
  have h1 := Nat.div_add_mod p o
  have h2 := Nat.mod_lt p ho
  by_cases hr : p % o = 0
  · simp only [hr, ne_eq, not_true_eq_false, if_false, Nat.add_zero]
    constructor <;> intros <;> omega
  · simp only [ne_eq, hr, not_false_eq_true, if_true, Nat.mul_add, Nat.mul_one]
    constructor <;> intros <;> omega

/-- Rounding down, no wrap: when the excess `p` over the boundary is at most `o * n`, the
two subtractions of `size_align_down` do not wrap, and the result is the largest count whose
byte size is at most `H + o * n - p`. -/
theorem down_maximal (H o n p : Nat) (ho : 0 < o) (hn : n < SIZE_MOD) (hp : p ≤ o * n) :
    size_sub (size_sub n (p / o)) (if p % o ≠ 0 then 1 else 0) ≤ n ∧
    H + o * size_sub (size_sub n (p / o)) (if p % o ≠ 0 then 1 else 0) ≤ H + o * n - p ∧
    H + o * n - p <
      H + o * (size_sub (size_sub n (p / o)) (if p % o ≠ 0 then 1 else 0) + 1) := by
  obtain ⟨hc1, hc2⟩ := ceil_div_spec o p ho
  generalize hd : (if p % o ≠ 0 then 1 else 0) = r at hc1 hc2
  have hr : r ≤ 1 := by rw [← hd]; split <;> omega
  have hq : p / o ≤ n := Nat.div_le_of_le_mul hp
  have hdn : p / o + r ≤ n := by
    rcases Nat.lt_or_ge n (p / o + r) with h | h
    · have h3 : p / o + r = n + 1 := by omega
      have h4 := hc2 (by omega)
      rw [h3, Nat.mul_add, Nat.mul_one] at h4
      omega
    · exact h
  rw [size_sub_of_le hn hq, size_sub_of_le (Nat.lt_of_le_of_lt (Nat.sub_le _ _) hn) (by omega)]
  have hm : n - p / o - r = n - (p / o + r) := by omega
  rw [hm]
  generalize p / o + r = d at hc1 hc2 hdn
  have hod : o * d ≤ o * n := Nat.mul_le_mul_left o hdn
  have hsub : o * (n - d) = o * n - o * d := Nat.mul_sub o n d
  refine ⟨Nat.sub_le _ _, ?_, ?_⟩
  · rw [hsub]; omega
  · rw [Nat.mul_add, Nat.mul_one, hsub]
    rcases Nat.eq_zero_or_pos d with h0 | h0
    · subst h0; simp; omega
    · have := hc2 h0
      omega

/-- Rounding down, wrap: when the excess `p` over the boundary is more than `o * n`, the
subtraction of `size_align_down` wraps and the result exceeds `n`. -/
theorem down_wraps (o n p P : Nat) (ho : 0 < o) (hp : o * n < p)
    (hpP : p < P) (hPM : P < SIZE_MOD) :
    n < size_sub (size_sub n (p / o)) (if p % o ≠ 0 then 1 else 0) := by
  obtain ⟨hc1, hc2⟩ := ceil_div_spec o p ho
  generalize hd : (if p % o ≠ 0 then 1 else 0) = r at hc1 hc2
  have hr : r ≤ 1 := by rw [← hd]; split <;> omega
  have hqp : p / o ≤ p := Nat.div_le_self _ _
  have hdgt : n < p / o + r := by
    rcases Nat.lt_or_ge n (p / o + r) with h | h
    · exact h
    · have := Nat.mul_le_mul_left o h
      omega
  have hm1 := size_sub_modEq (size_sub n (p / o)) r
  have hm2 := size_sub_modEq n (p / o)
  have hm : size_sub (size_sub n (p / o)) r + (p / o + r) ≡
      (n + SIZE_MOD - (p / o + r)) + (p / o + r) [MOD SIZE_MOD] := by
    have h3 : size_sub (size_sub n (p / o)) r + (p / o + r) =
        size_sub (size_sub n (p / o)) r + r + p / o := by omega
    have h4 : n + SIZE_MOD - (p / o + r) + (p / o + r) = n + SIZE_MOD := by omega
    rw [h3, h4]
    exact ((hm1.add (Nat.ModEq.refl _)).trans hm2).trans (by simp [Nat.ModEq])
  have heq : size_sub (size_sub n (p / o)) r = n + SIZE_MOD - (p / o + r) :=
    Nat.ModEq.eq_of_lt_of_lt (Nat.ModEq.add_right_cancel' _ hm) (size_sub_lt _ _) (by omega)
  rw [heq]
  omega

theorem mod_of_modEq_size {a b P : Nat} (hP : P ∣ SIZE_MOD) (h : a ≡ b [MOD SIZE_MOD]) :
    a % P = b % P := h.of_dvd hP

/-- C20: round-down maximality and its precondition.  For every `n > 0`, power-of-two
`ALLOC_ALIGNMENT` `P` and object size `o > 0`, with `bytes(k) = sizeof(MEM_AREA_TYPE) + o * k`:
if `ALIGN_DOWN_POW2(bytes(n), P)` is at least the header size `bytes(0)`, the subtraction in
`size_align_down` does not wrap and `m = size_align_down(n)` is the largest slot count with
`bytes(m) ≤ ALIGN_DOWN_POW2(bytes(n), P)`; if it is smaller than the header size, the
`size_t` subtraction wraps and the result exceeds `n`.  The same holds for `init_align_down`
with `bytes(k) = sizeof(MEM_MGR_TYPE) + sizeof(MEM_AREA_TYPE) + o * k`, the value of
`__MAX_MEM_SIZE(k)`. -/
theorem C20_round_down_maximal (L : Layout) (P n k : Nat) (hP : P = 2 ^ k) (hk : k < 64)
    (hn : 0 < n) (hnM : n < SIZE_MOD) (ho : 0 < L.obj) (hoM : L.obj < SIZE_MOD) :
    (L.area ≤ ALIGN_DOWN_POW2 (L.area + L.obj * n) P →
      ∃ m, size_align_down L P n = Run.done m ∧ m ≤ n ∧
        L.area + L.obj * m ≤ ALIGN_DOWN_POW2 (L.area + L.obj * n) P ∧
        ALIGN_DOWN_POW2 (L.area + L.obj * n) P < L.area + L.obj * (m + 1)) ∧
    (ALIGN_DOWN_POW2 (L.area + L.obj * n) P < L.area →
      ∃ m, size_align_down L P n = Run.done m ∧ n < m) ∧
    (L.mgr + L.area ≤ ALIGN_DOWN_POW2 (L.mgr + L.area + L.obj * n) P →
      ∃ m, init_align_down L P n = Run.done m ∧ m ≤ n ∧
        L.mgr + L.area + L.obj * m ≤ ALIGN_DOWN_POW2 (L.mgr + L.area + L.obj * n) P ∧
        ALIGN_DOWN_POW2 (L.mgr + L.area + L.obj * n) P < L.mgr + L.area + L.obj * (m + 1)) ∧
    (ALIGN_DOWN_POW2 (L.mgr + L.area + L.obj * n) P < L.mgr + L.area →
      ∃ m, init_align_down L P n = Run.done m ∧ n < m) := by
  have _ := hn
  subst hP
  have hPpos : 0 < 2 ^ k := Nat.two_pow_pos k
  have hPM := pow2_lt_size_mod hk
  have hdvd := pow2_dvd_size_mod hk
  have h2 := is_power_of_2_pow k
  have h1 := sum_obj_size_one L hoM
  have hA : AREA_MEM_SIZE L n < SIZE_MOD := size_add_lt _ _
  have hM : __MAX_MEM_SIZE L n < SIZE_MOD := size_add_lt _ _
  have hpa : pad_down (AREA_MEM_SIZE L n) (2 ^ k) = (L.area + L.obj * n) % 2 ^ k := by
    rw [pad_down_eq _ k hA]
    exact mod_of_modEq_size hdvd (area_mem_size_modEq L n)
  have hpm : pad_down (__MAX_MEM_SIZE L n) (2 ^ k) = (L.mgr + L.area + L.obj * n) % 2 ^ k := by
    rw [pad_down_eq _ k hM]
    exact mod_of_modEq_size hdvd (max_mem_size_modEq L n)
  have hla := Nat.mod_le (L.area + L.obj * n) (2 ^ k)
  have hlm := Nat.mod_le (L.mgr + L.area + L.obj * n) (2 ^ k)
  have hlta := Nat.mod_lt (L.area + L.obj * n) hPpos
  have hltm := Nat.mod_lt (L.mgr + L.area + L.obj * n) hPpos
  simp only [align_down_eq]
  refine ⟨fun hh => ?_, fun hh => ?_, fun hh => ?_, fun hh => ?_⟩
  · refine ⟨_, by simp only [size_align_down, h2, if_true, max_sub_mgr, h1, hpa]; rfl, ?_⟩
    exact down_maximal L.area L.obj n _ ho hnM (by omega)
  · refine ⟨_, by simp only [size_align_down, h2, if_true, max_sub_mgr, h1, hpa]; rfl, ?_⟩
    exact down_wraps L.obj n _ (2 ^ k) ho (by omega) hlta hPM
  · refine ⟨_, by simp only [init_align_down, h2, if_true, h1, hpm]; rfl, ?_⟩
    have := down_maximal (L.mgr + L.area) L.obj n _ ho hnM
      (show (L.mgr + L.area + L.obj * n) % 2 ^ k ≤ L.obj * n by omega)
    exact this
  · refine ⟨_, by simp only [init_align_down, h2, if_true, h1, hpm]; rfl, ?_⟩
    exact down_wraps L.obj n _ (2 ^ k) ho (by omega) hltm hPM

theorem C20_round_down_maximal_witness :
    (4096 = 2 ^ 12 ∧ 12 < 64 ∧ 0 < 1000 ∧ 1000 < SIZE_MOD ∧ 0 < (Layout.mk 48 24 16).obj ∧
      (Layout.mk 48 24 16).obj < SIZE_MOD) ∧
    (∃ m, size_align_down ⟨48, 24, 16⟩ 4096 1000 = Run.done m ∧ m ≤ 1000 ∧
      24 + 16 * m ≤ ALIGN_DOWN_POW2 (24 + 16 * 1000) 4096 ∧
      ALIGN_DOWN_POW2 (24 + 16 * 1000) 4096 < 24 + 16 * (m + 1)) ∧
    (∃ m, init_align_down ⟨48, 24, 16⟩ 4096 1000 = Run.done m ∧ m ≤ 1000 ∧
      48 + 24 + 16 * m ≤ ALIGN_DOWN_POW2 (48 + 24 + 16 * 1000) 4096 ∧
      ALIGN_DOWN_POW2 (48 + 24 + 16 * 1000) 4096 < 48 + 24 + 16 * (m + 1)) ∧
    (∃ m, size_align_down ⟨48, 24, 16⟩ 4096 1 = Run.done m ∧ 1 < m) ∧
    (∃ m, init_align_down ⟨48, 24, 16⟩ 4096 1 = Run.done m ∧ 1 < m) :=
  have h := C20_round_down_maximal ⟨48, 24, 16⟩ 4096 1000 12 (by decide) (by decide)
    (by decide) (by decide) (by decide) (by decide)
  have h1 := C20_round_down_maximal ⟨48, 24, 16⟩ 4096 1 12 (by decide) (by decide)
    (by decide) (by decide) (by decide) (by decide)
  ⟨⟨by decide, by decide, by decide, by decide, by decide, by decide⟩, h.1 (by decide),
    h.2.2.1 (by decide), h1.2.1 (by decide), h1.2.2.2 (by decide)⟩

end Memmgr
